import Mathlib

/-!
# Huffman file codec (timjhl/Huffman): shallow embedding and verified properties

The embedding follows `src/huffman.cpp`.

* Bytes (`char`) are natural numbers; a file, a `std::string` and a stream are lists of bytes.
* `int` is `Int`; every place where the C++ code does `int` arithmetic or narrows to `int`
  goes through `wrapInt32` (two's complement, 32 bit).
* `Node*` is `Option Node`. A `Node` is built by one of the two constructors of the source
  only: the leaf constructor sets both children to `nullptr`, the internal constructor reads
  `l->freq` and `r->freq`, so both children are non-null. Dereferencing `nullptr` is reported
  as the outcome `nullDeref`.
* `std::priority_queue<Node*, std::vector<Node*>, Compare>` is a list of nodes. `top()` is an
  element that `Compare` puts below no other element; which one among several is decided by a
  tie number, one per `pop`, taken from a list `ties`. Quantifying over `ties` covers every
  arrangement a binary heap (and every iteration order of the `unordered_map`) can produce.
* `std::unordered_map<char, int>` is an association list, `std::unordered_map<char, std::string>`
  a finite partial function.
-/

namespace Huffman

/-! ## Data model -/

/-- Node of the Huffman tree (`struct Node`): a leaf has no children, an internal node has two. -/
inductive Node where
  | leaf (ch : Nat) (freq : Int)
  | internal (freq : Int) (left right : Node)
  deriving DecidableEq, Repr

/-- Field `freq`. -/
def Node.freq : Node → Int
  | .leaf _ f => f
  | .internal f _ _ => f

/-- Field `ch`; the internal constructor stores the NUL character. -/
def Node.ch : Node → Nat
  | .leaf c _ => c
  | .internal _ _ _ => 0

/-- Two's complement reduction of an integer to the range of a 32 bit `int`. -/
def wrapInt32 (x : Int) : Int := (x + 2147483648) % 4294967296 - 2147483648

/-- Constructor `Node::Node(Node* l, Node* r)` on non-null children. -/
def Node.mk2 (l r : Node) : Node := .internal (wrapInt32 (l.freq + r.freq)) l r

/-- Comparison `Compare::operator()`: `a->freq > b->freq`. -/
def Compare (a b : Node) : Bool := decide (a.freq > b.freq)

/-- Frequency table `std::unordered_map<char, int>`. -/
abbrev FreqMap := List (Nat × Int)

/-- Code table `std::unordered_map<char, std::string>`. -/
abbrev CodeMap := Nat → Option (List Char)

/-- Assignment `codes[k] = v`. -/
def CodeMap.set (m : CodeMap) (k : Nat) (v : List Char) : CodeMap :=
  fun x => if x = k then some v else m x

/-- Read access `codes[k]`: a missing key reads as the empty string. -/
def CodeMap.get (m : CodeMap) (k : Nat) : List Char := (m k).getD []

/-- Empty code table. -/
def CodeMap.empty : CodeMap := fun _ => none

/-! ## buildCodes -/

/-- Function `buildCodes` on a non-null root. The two recursive calls on the null children of a
leaf return at once. -/
def buildCodes : Node → List Char → CodeMap → CodeMap
  | .leaf ch _, code, codes => codes.set ch (if code.isEmpty then ['0'] else code)
  | .internal _ l r, code, codes =>
      buildCodes r (code ++ ['1']) (buildCodes l (code ++ ['0']) codes)

/-- Function `buildCodes` on a pointer: a null root leaves the table unchanged. -/
def buildCodesPtr : Option Node → List Char → CodeMap → CodeMap
  | none, _, codes => codes
  | some root, code, codes => buildCodes root code codes

/-! ## buildHuffmanTree -/

/-- An element may be `top()` when `Compare` puts it below no element of the queue. -/
def isTop (pq : List Node) (a : Node) : Bool := pq.all (fun b => !Compare a b)

/-- Positions of the queue that may be `top()`. -/
def topCandidates (pq : List Node) : List Nat :=
  (List.range pq.length).filter (fun i =>
    match pq[i]? with
    | some a => isTop pq a
    | none => false)

/-- Position returned by `top()` under tie number `tie`. -/
def topIndex (tie : Nat) (pq : List Node) : Nat :=
  (topCandidates pq).getD (tie % (topCandidates pq).length) 0

/-- The `while (pq.size() > 1)` loop of `buildHuffmanTree`, followed by `return pq.top()`.
The first argument bounds the number of iterations. -/
def mergeLoop : Nat → List Nat → List Node → Option Node
  | 0, _, _ => none
  | fuel + 1, ties, pq =>
    if pq.length > 1 then
      let i := topIndex (ties.headD 0) pq
      match pq[i]? with
      | none => none
      | some left =>
        let pq1 := pq.eraseIdx i
        let j := topIndex (ties.tail.headD 0) pq1
        match pq1[j]? with
        | none => none
        | some right =>
          let pq2 := pq1.eraseIdx j
          mergeLoop fuel ties.tail.tail (pq2 ++ [Node.mk2 left right])
    else pq.head?

/-- Function `buildHuffmanTree`: one leaf per entry, `nullptr` for the empty table, else the
merge loop. Each iteration shortens the queue by one, so `pq.length` iterations suffice. -/
def buildHuffmanTree (ties : List Nat) (freq : FreqMap) : Option Node :=
  let pq := freq.map (fun p => Node.leaf p.1 p.2)
  if pq.isEmpty then none else mergeLoop pq.length ties pq

/-! ## serializeTree / deserializeTree -/

/-- Function `serializeTree` on a non-null root, as the bytes appended to `out`. -/
def serializeTree : Node → List Nat
  | .leaf ch _ => [49, ch]
  | .internal _ l r => 48 :: (serializeTree l ++ serializeTree r)

/-- Function `serializeTree` on a pointer: a null root appends nothing. -/
def serializeTreePtr : Option Node → List Nat
  | none => []
  | some root => serializeTree root

/-- Result of a call of `deserializeTree`. -/
inductive Deser where
  | null
  | node (t : Node)
  | nullDeref
  | outOfFuel
  deriving DecidableEq, Repr

/-- Function `deserializeTree` with the cursor passed in and returned. `in[index]` at
`index = in.size()` reads the terminating NUL of the string. The internal constructor
dereferences both results of the recursive calls. The first argument bounds the recursion
depth. -/
def deserializeTreeAux : Nat → List Nat → Nat → Deser × Nat
  | fuel, inp, index =>
    if index ≥ inp.length then (.null, index)
    else
      match fuel with
      | 0 => (.outOfFuel, index)
      | fuel + 1 =>
        let flag := inp.getD index 0
        if flag = 49 then
          (.node (.leaf (inp.getD (index + 1) 0) 0), index + 2)
        else
          let l := deserializeTreeAux fuel inp (index + 1)
          let r := deserializeTreeAux fuel inp l.2
          match l.1, r.1 with
          | .node lt, .node rt => (.node (Node.mk2 lt rt), r.2)
          | .outOfFuel, _ => (.outOfFuel, r.2)
          | _, .outOfFuel => (.outOfFuel, r.2)
          | _, _ => (.nullDeref, r.2)

/-- Function `deserializeTree`; every nested call moves the cursor, so the number of bytes
after the cursor bounds the depth. -/
def deserializeTree (inp : List Nat) (index : Nat) : Deser × Nat :=
  deserializeTreeAux (inp.length - index) inp index

/-! ## compressFile -/

/-- Ways in which `compressFile` and `decompressFile` end. -/
inductive Status where
  | success
  | emptyInput
  | badMagic
  | corruptTree
  | nullDeref
  deriving DecidableEq, Repr

/-- Statement `freq[ch]++`. -/
def incrFreq : FreqMap → Nat → FreqMap
  | [], ch => [(ch, wrapInt32 (0 + 1))]
  | (k, v) :: rest, ch =>
    if k = ch then (k, wrapInt32 (v + 1)) :: rest else (k, v) :: incrFreq rest ch

/-- Counting loop of `compressFile`: the table and `totalChars`. -/
def countLoop : List Nat → FreqMap × Int → FreqMap × Int
  | [], st => st
  | ch :: rest, st => countLoop rest (incrFreq st.1 ch, wrapInt32 (st.2 + 1))

/-- The four bytes of an `int` in memory, least significant first. -/
def writeInt32 (x : Int) : List Nat :=
  let u := (x % 4294967296).toNat
  [u % 256, u / 256 % 256, u / 65536 % 256, u / 16777216 % 256]

/-- The magic string. -/
def magic : List Nat := [72, 85, 70, 84, 82, 69, 69]

/-- State of the bit packer: `buffer`, `bitCount` and the bytes put so far. -/
structure PackState where
  buffer : Nat
  bitCount : Nat
  out : List Nat
  deriving DecidableEq, Repr

/-- Body of `for (char bit : code)`. -/
def packBit (st : PackState) (bit : Char) : PackState :=
  let shifted := (st.buffer * 2) % 256
  let buffer := if bit = '1' then shifted ||| 1 else shifted
  let bitCount := st.bitCount + 1
  if bitCount = 8 then ⟨0, 0, st.out ++ [buffer]⟩ else ⟨buffer, bitCount, st.out⟩

/-- Second reading loop of `compressFile`. -/
def packLoop (codes : CodeMap) : List Nat → PackState → PackState
  | [], st => st
  | ch :: rest, st => packLoop codes rest ((codes.get ch).foldl packBit st)

/-- Final flush: a partly filled buffer is shifted up and put. -/
def packFlush (st : PackState) : List Nat :=
  if st.bitCount > 0 then st.out ++ [(st.buffer * 2 ^ (8 - st.bitCount)) % 256] else st.out

/-- Payload written by `compressFile`. -/
def packPayload (codes : CodeMap) (input : List Nat) : List Nat :=
  packFlush (packLoop codes input ⟨0, 0, []⟩)

/-- Function `compressFile` on the bytes of the input file and its extension: how it ends and
the bytes written to the output file. -/
def compressFile (ties : List Nat) (input origExt : List Nat) : Status × List Nat :=
  let counted := countLoop input ([], 0)
  let freq := counted.1
  let totalChars := counted.2
  if totalChars = 0 then (.emptyInput, [])
  else
    let root := buildHuffmanTree ties freq
    let codes := buildCodesPtr root [] CodeMap.empty
    let serializedTree := serializeTreePtr root
    let extLen := wrapInt32 origExt.length
    let treeLen := wrapInt32 serializedTree.length
    (.success,
      magic
      ++ writeInt32 extLen ++ (if extLen > 0 then origExt.take extLen.toNat else [])
      ++ writeInt32 treeLen ++ (if treeLen > 0 then serializedTree.take treeLen.toNat else [])
      ++ writeInt32 totalChars
      ++ packPayload codes input)

/-! ## decompressFile -/

/-- Value of an `int` initialised to 0 after `read` stored the given bytes (at most four) at
its start. -/
def readInt32 (bytes : List Nat) : Int :=
  wrapInt32 ((bytes.getD 0 0 + 256 * bytes.getD 1 0 + 65536 * bytes.getD 2 0
    + 16777216 * bytes.getD 3 0 : Nat) : Int)

/-- A string resized to `n` and filled by `read`: bytes the stream cannot deliver stay NUL. -/
def readString (n : Nat) (s : List Nat) : List Nat :=
  s.take n ++ List.replicate (n - (s.take n).length) 0

/-- State of the decoder: `current`, `decodedChars` and the bytes put so far. -/
structure DecodeState where
  current : Node
  decodedChars : Int
  out : List Nat
  deriving DecidableEq, Repr

/-- Loop `for (int i = 7; i >= 0 && decodedChars < totalChars; i--)`; the argument `k` is
`i + 1`. `none` when `current` is null at `current->left`. -/
def decodeByte (root : Node) (totalChars : Int) (byte : Nat) : Nat → DecodeState → Option DecodeState
  | 0, st => some st
  | k + 1, st =>
    if st.decodedChars < totalChars then
      match st.current with
      | .leaf _ _ => none
      | .internal _ l r =>
        match (if (byte / 2 ^ k) % 2 = 1 then r else l) with
        | .leaf ch _ => decodeByte root totalChars byte k ⟨root, st.decodedChars + 1, st.out ++ [ch]⟩
        | .internal f l2 r2 => decodeByte root totalChars byte k ⟨.internal f l2 r2, st.decodedChars, st.out⟩
    else some st

/-- Loop `while (inFile.get(byte) && decodedChars < totalChars)`. -/
def decodeLoop (root : Node) (totalChars : Int) : List Nat → DecodeState → Option DecodeState
  | [], st => some st
  | byte :: rest, st =>
    if st.decodedChars < totalChars then
      match decodeByte root totalChars byte 8 st with
      | none => none
      | some st2 => decodeLoop root totalChars rest st2
    else some st

/-- What `decompressFile` did: how it ended, the extension of the output file and the bytes
written to it. -/
structure DecompressResult where
  status : Status
  origExt : List Nat
  output : List Nat
  deriving DecidableEq, Repr

/-- A length field and the string after it, as `decompressFile` reads the extension and the
serialized tree: the `int` length, then, only when it is positive, a string resized to that
length and filled by `read`. Returns the string and the rest of the stream. -/
def readLenString (s : List Nat) : List Nat × List Nat :=
  if readInt32 (s.take 4) > 0 then
    (readString (readInt32 (s.take 4)).toNat (s.drop 4),
      (s.drop 4).drop (readInt32 (s.take 4)).toNat)
  else ([], s.drop 4)

/-- Second half of `decompressFile`: the tree is deserialized from cursor 0, a null root ends
with the corrupt-tree error, otherwise the decoding loop runs on the rest of the stream. -/
def decodePayload (origExt serializedTree : List Nat) (totalChars : Int) (s : List Nat) :
    DecompressResult :=
  match (deserializeTree serializedTree 0).1 with
  | .null => ⟨.corruptTree, [], []⟩
  | .nullDeref => ⟨.nullDeref, [], []⟩
  | .outOfFuel => ⟨.nullDeref, [], []⟩
  | .node root =>
    match decodeLoop root totalChars s ⟨root, 0, []⟩ with
    | none => ⟨.nullDeref, origExt, []⟩
    | some st => ⟨.success, origExt, st.out⟩

/-- Function `decompressFile` on the bytes of the compressed file: magic check, extension
(with the default "dat" for an empty one), serialized tree, `totalChars`, then the second
half. -/
def decompressFile (input : List Nat) : DecompressResult :=
  if input.take 7 ≠ magic then ⟨.badMagic, [], []⟩
  else
    let ext := readLenString (input.drop 7)
    let origExt := if ext.1.isEmpty then [100, 97, 116] else ext.1
    let tree := readLenString ext.2
    let totalChars := readInt32 (tree.2.take 4)
    decodePayload origExt tree.1 totalChars (tree.2.drop 4)

/-! ## Notions used to state the properties -/

/-- Leaf symbols of a tree, left to right. -/
def Node.symbols : Node → List Nat
  | .leaf ch _ => [ch]
  | .internal _ l r => l.symbols ++ r.symbols

/-- The same topology and leaf symbols with every frequency set to zero. -/
def Node.eraseFreq : Node → Node
  | .leaf ch _ => .leaf ch 0
  | .internal _ l r => .internal 0 l.eraseFreq r.eraseFreq

/-- Whether the node is a leaf (`!left && !right`). -/
def Node.isLeaf : Node → Bool
  | .leaf _ _ => true
  | .internal _ _ _ => false

/-- Symbol of the leaf at the end of a root path (`false` descends left, `true` right), if the
path ends exactly at a leaf. -/
def Node.leafAt : Node → List Bool → Option Nat
  | .leaf ch _, [] => some ch
  | .leaf _ _, _ :: _ => none
  | .internal _ _ _, [] => none
  | .internal _ l r, b :: p => if b then r.leafAt p else l.leafAt p

/-- Leaf symbols of all trees in the priority queue. -/
def queueSymbols : List Node → List Nat
  | [] => []
  | n :: q => n.symbols ++ queueSymbols q

/-- Character appended by `buildCodes` for a step of a path. -/
def bitChar (b : Bool) : Char := if b then '1' else '0'

/-- Code string of a root path. -/
def pathCode (p : List Bool) : List Char := p.map bitChar

/-- Layout of a compressed file with the given extension, serialized tree bytes, symbol count
and payload (header fields in the order `compressFile` writes them). -/
def fileLayout (ext tree : List Nat) (totalChars : Int) (payload : List Nat) : List Nat :=
  magic ++ writeInt32 ext.length ++ ext ++ writeInt32 tree.length ++ tree
    ++ writeInt32 totalChars ++ payload

/-- The `k` low bits of a byte, highest first, as the decoder extracts them with
`(byte >> i) & 1` for `i = k - 1` down to `0`. -/
def lowBits (byte : Nat) : Nat → List Bool
  | 0 => []
  | k + 1 => decide ((byte / 2 ^ k) % 2 = 1) :: lowBits byte k

/-- The bits of a byte sequence, most significant bit of each byte first. -/
def streamBits : List Nat → List Bool
  | [] => []
  | byte :: rest => lowBits byte 8 ++ streamBits rest

/-- The decoding loop of `decompressFile` seen on the bit sequence of the payload. -/
def decodeBits (root : Node) (totalChars : Int) : List Bool → DecodeState → Option DecodeState
  | [], st => some st
  | b :: bs, st =>
    if st.decodedChars < totalChars then
      match st.current with
      | .leaf _ _ => none
      | .internal _ l r =>
        match (if b then r else l) with
        | .leaf ch _ => decodeBits root totalChars bs ⟨root, st.decodedChars + 1, st.out ++ [ch]⟩
        | .internal f l2 r2 =>
          decodeBits root totalChars bs ⟨.internal f l2 r2, st.decodedChars, st.out⟩
    else some st

/-- Code table that `compressFile` derives from a tree pointer. -/
def codeTable (root : Option Node) : CodeMap := buildCodesPtr root [] CodeMap.empty

/-- Frequency table that the counting loop of `compressFile` derives from the input. -/
def countFreq (input : List Nat) : FreqMap := (countLoop input ([], 0)).1

/-- Leaves of a tree with their frequencies, left to right. -/
def Node.leaves : Node → List (Nat × Int)
  | .leaf ch f => [(ch, f)]
  | .internal _ l r => l.leaves ++ r.leaves

/-- Number of internal nodes of a tree. -/
def Node.internalCount : Node → Nat
  | .leaf _ _ => 0
  | .internal _ l r => l.internalCount + r.internalCount + 1

/-- Depth of a tree: the number of edges on a longest root path, which is the deepest nesting
of the recursive calls of `buildCodes` and `serializeTree` below the root. -/
def Node.depth : Node → Nat
  | .leaf _ _ => 0
  | .internal _ l r => max l.depth r.depth + 1

/-- Every internal node stores the sum of the frequencies of its two children. -/
def Node.freqIsSum : Node → Prop
  | .leaf _ _ => True
  | .internal f l r => f = l.freq + r.freq ∧ l.freqIsSum ∧ r.freqIsSum

/-- Leaves with frequencies of all trees in the priority queue. -/
def queueLeaves : List Node → List (Nat × Int)
  | [] => []
  | n :: q => n.leaves ++ queueLeaves q

/-- Sum of the frequencies of a table. -/
def totalFreq : FreqMap → Int
  | [] => 0
  | p :: rest => p.2 + totalFreq rest

/-- Bit that the packer stores for a character of a code: 1 for the character 1, else 0. -/
def charBit (c : Char) : Bool := decide (c = '1')

/-- The characters of the codes of the input bytes, in input order, as the second reading loop
of `compressFile` visits them. -/
def codeStream (codes : CodeMap) : List Nat → List Char
  | [] => []
  | ch :: rest => codes.get ch ++ codeStream codes rest

/-- State of the packer after the bits `bits`: fewer than 8 bits wait in `buffer`, the bytes
put so far followed by the waiting bits are `bits`. -/
def PackInv (st : PackState) (bits : List Bool) : Prop :=
  st.bitCount < 8 ∧ st.buffer < 2 ^ st.bitCount
    ∧ 8 * st.out.length + st.bitCount = bits.length
    ∧ streamBits st.out ++ lowBits st.buffer st.bitCount = bits

/-- Leaves of a tree, each with its depth (number of edges from the root), left to right. -/
def Node.leafDepths : Node → List ((Nat × Int) × Nat)
  | .leaf ch f => [((ch, f), 0)]
  | .internal _ l r => (l.leafDepths ++ r.leafDepths).map (fun e => (e.1, e.2 + 1))

/-- Sum of weight times depth over a list of (weight, depth) pairs. -/
def pairCost : List (Int × Nat) → Int
  | [] => 0
  | p :: rest => p.1 * p.2 + pairCost rest

/-- The (frequency, depth) pairs of the leaves of a tree. -/
def Node.depthPairs (t : Node) : List (Int × Nat) := t.leafDepths.map (fun e => (e.1.2, e.2))

/-- Weighted path length of a tree: the sum over its leaves of frequency times depth. -/
def Node.cost (t : Node) : Int := pairCost t.depthPairs

/-- Weighted code length of a code table over a frequency table: the sum over the entries of
frequency times the length of the symbol's code. -/
def weightedLength (codes : CodeMap) : FreqMap → Int
  | [] => 0
  | p :: rest => p.2 * (codes.get p.1).length + weightedLength codes rest

/-- Sum of the weighted path lengths of the trees in the priority queue. -/
def queueCost : List Node → Int
  | [] => 0
  | n :: q => n.cost + queueCost q

/-- A list of (weight, depth) pairs whose depths are the leaf depths of some tree. -/
def ValidDepths (ps : List (Int × Nat)) : Prop :=
  ∃ S : Node, (ps.map Prod.snd).Perm (S.leafDepths.map Prod.snd)

/-- The code table in which every code has lost its first character. -/
def tailCodes (c : CodeMap) : CodeMap := fun s => some ((c.get s).tail)

/-- Total number of code characters of the symbols of a table. -/
def codeMeasure (c : CodeMap) (freq : FreqMap) : Nat :=
  (freq.map (fun p => (c.get p.1).length)).sum

/-- A code table is a binary prefix-free code on the symbols of a frequency table: every code
consists of the characters 0 and 1, and the code of a symbol is never a prefix of the code of
another symbol. -/
def PrefixFreeOn (c : CodeMap) (freq : FreqMap) : Prop :=
  (∀ p ∈ freq, ∀ ch ∈ c.get p.1, ch = '0' ∨ ch = '1')
    ∧ ∀ p ∈ freq, ∀ q ∈ freq, p.1 ≠ q.1 → ¬ (c.get p.1 <+: c.get q.1)

/-- The tree with every leaf relabelled by a function on (symbol, frequency) pairs. -/
def Node.mapLeaves (σ : Nat × Int → Nat × Int) : Node → Node
  | .leaf ch f => .leaf (σ (ch, f)).1 (σ (ch, f)).2
  | .internal f l r => .internal f (l.mapLeaves σ) (r.mapLeaves σ)

/-- Exchange of two (symbol, frequency) pairs. -/
def swapPair (a b : Nat × Int) (e : Nat × Int) : Nat × Int :=
  if e = a then b else if e = b then a else e

/-- Read access to the frequency table: the count stored under a key, if the key has an
entry. -/
def freqLookup : FreqMap → Nat → Option Int
  | [], _ => none
  | (k, v) :: rest, x => if k = x then some v else freqLookup rest x

/-- Value of the `char` that `inFile.get(ch)` stores for a byte (8 bit, signed): the key under
which `freq[ch]++` counts the byte. -/
def charOfByte (b : Nat) : Int := if b % 256 < 128 then (b % 256 : Nat) else (b % 256 : Nat) - 256

end Huffman

namespace Huffman

/-! ## Code tables and root paths -/

theorem buildCodes_of_not_mem (t : Node) :
    ∀ (code : List Char) (m : CodeMap) (k : Nat), k ∉ t.symbols → buildCodes t code m k = m k := by
  induction t with
  | leaf ch f =>
    intro code m k hk
    have hne : k ≠ ch := by simpa [Node.symbols] using hk
    simp [buildCodes, CodeMap.set, hne]
  | internal f l r ihl ihr =>
    intro code m k hk
    simp only [Node.symbols, List.mem_append, not_or] at hk
    rw [buildCodes, ihr _ _ _ hk.2, ihl _ _ _ hk.1]

theorem leafAt_mem_symbols (t : Node) :
    ∀ (p : List Bool) (s : Nat), t.leafAt p = some s → s ∈ t.symbols := by
  induction t with
  | leaf ch f =>
    intro p s h
    cases p with
    | nil => simp [Node.leafAt] at h; simp [Node.symbols, h]
    | cons b p => simp [Node.leafAt] at h
  | internal f l r ihl ihr =>
    intro p s h
    cases p with
    | nil => simp [Node.leafAt] at h
    | cons b p =>
      cases b with
      | false =>
        simp only [Node.leafAt, Bool.false_eq_true, if_false] at h
        exact List.mem_append_left _ (ihl p s h)
      | true =>
        simp only [Node.leafAt, if_true] at h
        exact List.mem_append_right _ (ihr p s h)

theorem exists_leafAt_of_mem (t : Node) :
    ∀ (s : Nat), s ∈ t.symbols → ∃ p, t.leafAt p = some s := by
  induction t with
  | leaf ch f =>
    intro s hs
    refine ⟨[], ?_⟩
    have : s = ch := by simpa [Node.symbols] using hs
    simp [Node.leafAt, this]
  | internal f l r ihl ihr =>
    intro s hs
    rcases List.mem_append.1 hs with h | h
    · obtain ⟨p, hp⟩ := ihl s h
      exact ⟨false :: p, by simpa [Node.leafAt] using hp⟩
    · obtain ⟨p, hp⟩ := ihr s h
      exact ⟨true :: p, by simpa [Node.leafAt] using hp⟩

/-- The code that `buildCodes` stores for a path: the path appended to the inherited code,
or the string "0" when that is empty. -/
theorem buildCodes_of_leafAt (t : Node) :
    ∀ (code : List Char) (m : CodeMap) (p : List Bool) (s : Nat),
      t.symbols.Nodup → t.leafAt p = some s →
      buildCodes t code m s
        = some (if (code ++ pathCode p).isEmpty then ['0'] else code ++ pathCode p) := by
  induction t with
  | leaf ch f =>
    intro code m p s _ h
    cases p with
    | nil =>
      have hs : ch = s := by simpa [Node.leafAt] using h
      subst hs
      simp [buildCodes, CodeMap.set, pathCode]
    | cons b p => simp [Node.leafAt] at h
  | internal f l r ihl ihr =>
    intro code m p s hnd h
    have hnd2 := List.nodup_append.1 (by simpa [Node.symbols] using hnd)
    cases p with
    | nil => simp [Node.leafAt] at h
    | cons b p =>
      cases b with
      | false =>
        simp only [Node.leafAt, Bool.false_eq_true, if_false] at h
        have hmem := leafAt_mem_symbols l p s h
        have hnot : s ∉ r.symbols := fun hr => hnd2.2.2 hmem hr
        rw [buildCodes, buildCodes_of_not_mem r _ _ _ hnot, ihl _ _ p s hnd2.1 h]
        simp [pathCode, bitChar]
      | true =>
        simp only [Node.leafAt, if_true] at h
        rw [buildCodes, ihr _ _ p s hnd2.2.1 h]
        simp [pathCode, bitChar]

/-- A root path that ends at a leaf has no proper extension ending at a leaf. -/
theorem leafAt_append (t : Node) :
    ∀ (p q : List Bool) (s s2 : Nat), t.leafAt p = some s → t.leafAt (p ++ q) = some s2 → q = [] := by
  induction t with
  | leaf ch f =>
    intro p q s s2 h h2
    cases p with
    | nil =>
      cases q with
      | nil => rfl
      | cons b q => simp [Node.leafAt] at h2
    | cons b p => simp [Node.leafAt] at h
  | internal f l r ihl ihr =>
    intro p q s s2 h h2
    cases p with
    | nil => simp [Node.leafAt] at h
    | cons b p =>
      cases b with
      | false =>
        simp only [Node.leafAt, List.cons_append, Bool.false_eq_true, if_false] at h h2
        exact ihl p q s s2 h h2
      | true =>
        simp only [Node.leafAt, List.cons_append, if_true] at h h2
        exact ihr p q s s2 h h2

theorem bitChar_injective : Function.Injective bitChar := by
  intro a b h
  cases a <;> cases b <;> simp [bitChar] at h <;> rfl

theorem pathCode_injective : Function.Injective pathCode :=
  List.map_injective_iff.2 bitChar_injective

end Huffman

namespace Huffman

/-! ## The merge loop -/

theorem perm_cons_eraseIdx {α : Type} :
    ∀ (l : List α) (i : Nat) (a : α), l[i]? = some a → l.Perm (a :: l.eraseIdx i) := by
  intro l
  induction l with
  | nil => intro i a h; simp at h
  | cons x xs ih =>
    intro i a h
    cases i with
    | zero =>
      simp at h
      subst h
      simp
    | succ i =>
      simp at h
      have := ih i a h
      simp only [List.eraseIdx_cons_succ]
      exact (List.Perm.cons x this).trans (List.Perm.swap a x _)

theorem queueSymbols_append (a b : List Node) :
    queueSymbols (a ++ b) = queueSymbols a ++ queueSymbols b := by
  induction a with
  | nil => simp [queueSymbols]
  | cons x xs ih => simp [queueSymbols, ih]

theorem queueSymbols_perm {a b : List Node} (h : a.Perm b) :
    (queueSymbols a).Perm (queueSymbols b) := by
  induction h with
  | nil => exact List.Perm.refl _
  | cons x _ ih => exact List.Perm.append_left _ ih
  | swap x y l =>
    simp only [queueSymbols, ← List.append_assoc]
    exact List.Perm.append_right _ List.perm_append_comm
  | trans _ _ ih1 ih2 => exact ih1.trans ih2

theorem topIndex_lt (tie : Nat) (pq : List Node) (h : pq ≠ []) : topIndex tie pq < pq.length := by
  unfold topIndex
  by_cases hc : topCandidates pq = []
  · rw [hc]
    simpa using List.length_pos.2 h
  · have hpos : 0 < (topCandidates pq).length := List.length_pos.2 hc
    have hlt : tie % (topCandidates pq).length < (topCandidates pq).length := Nat.mod_lt _ hpos
    have hmem : (topCandidates pq).getD (tie % (topCandidates pq).length) 0 ∈ topCandidates pq := by
      rw [List.getD_eq_getElem _ _ hlt]
      exact List.getElem_mem _
    unfold topCandidates at hmem
    exact List.mem_range.1 (List.mem_filter.1 hmem).1

/-- The merge loop ends with one tree when given as many iterations as the queue is long; the
tree has the leaves of the queue, and it is a leaf only if the queue was that single leaf. -/
theorem mergeLoop_spec :
    ∀ (fuel : Nat) (ties : List Nat) (pq : List Node), pq ≠ [] → pq.length ≤ fuel →
      ∃ t, mergeLoop fuel ties pq = some t ∧ t.symbols.Perm (queueSymbols pq)
        ∧ (t.isLeaf = true → pq = [t]) := by
  intro fuel
  induction fuel with
  | zero =>
    intro ties pq hne hlen
    exact absurd (List.length_pos.2 hne) (by omega)
  | succ fuel ih =>
    intro ties pq hne hlen
    unfold mergeLoop
    by_cases hgt : pq.length > 1
    · simp only [hgt, if_true]
      have hi := topIndex_lt (ties.headD 0) pq hne
      rw [List.getElem?_eq_getElem hi]
      simp only
      have hlen1 : (pq.eraseIdx (topIndex (ties.headD 0) pq)).length = pq.length - 1 := by
        rw [List.length_eraseIdx, if_pos hi]
      have hne1 : pq.eraseIdx (topIndex (ties.headD 0) pq) ≠ [] := by
        intro h0
        rw [h0] at hlen1
        simp at hlen1
        omega
      have hj := topIndex_lt (ties.tail.headD 0) _ hne1
      rw [List.getElem?_eq_getElem hj]
      simp only
      have hlen2 : ((pq.eraseIdx (topIndex (ties.headD 0) pq)).eraseIdx
          (topIndex (ties.tail.headD 0) (pq.eraseIdx (topIndex (ties.headD 0) pq)))).length
          = (pq.eraseIdx (topIndex (ties.headD 0) pq)).length - 1 := by
        rw [List.length_eraseIdx, if_pos hj]
      have hp1 := perm_cons_eraseIdx pq _ _ (List.getElem?_eq_getElem hi)
      have hp2 := perm_cons_eraseIdx _ _ _ (List.getElem?_eq_getElem hj)
      obtain ⟨t, ht, hperm, hleaf⟩ := ih ties.tail.tail
        ((pq.eraseIdx (topIndex (ties.headD 0) pq)).eraseIdx
            (topIndex (ties.tail.headD 0) (pq.eraseIdx (topIndex (ties.headD 0) pq)))
          ++ [Node.mk2 pq[topIndex (ties.headD 0) pq]
              (pq.eraseIdx (topIndex (ties.headD 0) pq))[topIndex (ties.tail.headD 0)
                (pq.eraseIdx (topIndex (ties.headD 0) pq))]])
        (by simp) (by simp only [List.length_append, List.length_singleton]; omega)
      refine ⟨t, ht, ?_, ?_⟩
      · refine hperm.trans ?_
        rw [queueSymbols_append]
        have h3 := (queueSymbols_perm hp1).trans
          (List.Perm.append_left _ (queueSymbols_perm hp2))
        simp only [queueSymbols] at h3
        refine List.Perm.trans ?_ h3.symm
        simp only [queueSymbols, Node.mk2, Node.symbols, List.append_nil, List.append_assoc]
        refine List.perm_append_comm.trans ?_
        simp only [List.append_assoc]
        exact List.Perm.refl _
      · intro hl
        have heq := hleaf hl
        have hlast := congrArg List.getLast? heq
        simp at hlast
        rw [← hlast] at hl
        simp [Node.mk2, Node.isLeaf] at hl
    · simp only [hgt, if_false]
      match pq, hne, hgt with
      | [x], _, _ =>
        exact ⟨x, rfl, by simp [queueSymbols], fun _ => rfl⟩
      | x :: y :: rest, _, hgt => simp at hgt

theorem queueSymbols_leaves (freq : FreqMap) :
    queueSymbols (freq.map (fun p => Node.leaf p.1 p.2)) = freq.map Prod.fst := by
  induction freq with
  | nil => rfl
  | cons x xs ih => simp [queueSymbols, Node.symbols, ih]

/-- Function `buildHuffmanTree` returns a tree for every non-empty table; its leaves are the
keys of the table, and it is a single leaf only for a table with one entry. -/
theorem buildHuffmanTree_spec (ties : List Nat) (freq : FreqMap) (hne : freq ≠ []) :
    ∃ t, buildHuffmanTree ties freq = some t ∧ t.symbols.Perm (freq.map Prod.fst)
      ∧ (t.isLeaf = true → ∃ s f, freq = [(s, f)] ∧ t = Node.leaf s f) := by
  have hne2 : freq.map (fun p => Node.leaf p.1 p.2) ≠ [] := by simpa using hne
  obtain ⟨t, ht, hperm, hleaf⟩ := mergeLoop_spec _ ties _ hne2 (le_refl _)
  refine ⟨t, ?_, ?_, ?_⟩
  · unfold buildHuffmanTree
    simp only [List.isEmpty_eq_true, List.map_eq_nil_iff, hne, if_false]
    simpa using ht
  · rw [← queueSymbols_leaves]
    exact hperm
  · intro hl
    have h1 := hleaf hl
    match freq, h1 with
    | [(s, f)], h1 =>
      refine ⟨s, f, rfl, ?_⟩
      simpa using h1.symm
    | [], h1 => simp at h1
    | _ :: _ :: _, h1 => simp at h1

end Huffman

namespace Huffman

/-! ## The counting loop -/

theorem incrFreq_keys (m : FreqMap) (ch : Nat) :
    (incrFreq m ch).map Prod.fst
      = if ch ∈ m.map Prod.fst then m.map Prod.fst else m.map Prod.fst ++ [ch] := by
  induction m with
  | nil => simp [incrFreq]
  | cons x xs ih =>
    obtain ⟨k, v⟩ := x
    by_cases hk : k = ch
    · simp [incrFreq, hk]
    · have hk2 : ¬ ch = k := fun h => hk h.symm
      by_cases hmem : ch ∈ xs.map Prod.fst
      · simp only [incrFreq, hk, if_false, List.map_cons, ih, hmem, if_true, List.mem_cons,
          or_true]
      · simp only [incrFreq, hk, if_false, List.map_cons, ih, hmem, List.mem_cons, hk2,
          or_self, List.cons_append]

theorem incrFreq_nodup (m : FreqMap) (ch : Nat) (h : (m.map Prod.fst).Nodup) :
    ((incrFreq m ch).map Prod.fst).Nodup := by
  rw [incrFreq_keys]
  by_cases hmem : ch ∈ m.map Prod.fst
  · simpa [hmem] using h
  · simp only [hmem, if_false]
    exact List.nodup_append.2 ⟨h, List.nodup_singleton _, by
      intro a ha hb
      have : a = ch := by simpa using hb
      exact hmem (this ▸ ha)⟩

theorem incrFreq_mem (m : FreqMap) (ch k : Nat) :
    k ∈ (incrFreq m ch).map Prod.fst ↔ k ∈ m.map Prod.fst ∨ k = ch := by
  rw [incrFreq_keys]
  by_cases hmem : ch ∈ m.map Prod.fst
  · simp only [hmem, if_true]
    constructor
    · exact Or.inl
    · rintro (h | h)
      · exact h
      · exact h ▸ hmem
  · simp [hmem]

theorem countLoop_keys :
    ∀ (b : List Nat) (st : FreqMap × Int), (st.1.map Prod.fst).Nodup →
      (((countLoop b st).1.map Prod.fst).Nodup
        ∧ ∀ k, k ∈ (countLoop b st).1.map Prod.fst ↔ k ∈ st.1.map Prod.fst ∨ k ∈ b) := by
  intro b
  induction b with
  | nil => intro st h; simp [countLoop, h]
  | cons ch rest ih =>
    intro st h
    obtain ⟨h1, h2⟩ := ih (incrFreq st.1 ch, wrapInt32 (st.2 + 1)) (incrFreq_nodup _ _ h)
    refine ⟨h1, fun k => ?_⟩
    rw [countLoop, h2 k, incrFreq_mem]
    simp only [List.mem_cons]
    tauto

theorem countFreq_nodup (b : List Nat) : ((countFreq b).map Prod.fst).Nodup :=
  (countLoop_keys b ([], 0) (by simp)).1

theorem countFreq_mem (b : List Nat) (k : Nat) : k ∈ (countFreq b).map Prod.fst ↔ k ∈ b := by
  have := (countLoop_keys b ([], 0) (by simp)).2 k
  simpa [countFreq] using this

theorem countFreq_ne_nil (b : List Nat) (h : b ≠ []) : countFreq b ≠ [] := by
  obtain ⟨x, hx⟩ := List.exists_mem_of_ne_nil b h
  have := (countFreq_mem b x).2 hx
  intro h0
  rw [h0] at this
  simp at this

/-! ## Code table of a tree with distinct leaves -/

theorem codeTable_eq_some (t : Node) (hnd : t.symbols.Nodup) (k : Nat) (c : List Char)
    (h : codeTable (some t) k = some c) :
    ∃ p, t.leafAt p = some k ∧ c = (if (pathCode p).isEmpty then ['0'] else pathCode p) := by
  by_cases hmem : k ∈ t.symbols
  · obtain ⟨p, hp⟩ := exists_leafAt_of_mem t k hmem
    refine ⟨p, hp, ?_⟩
    have := buildCodes_of_leafAt t [] CodeMap.empty p k hnd hp
    simp only [codeTable, buildCodesPtr] at h
    rw [this] at h
    simpa using h.symm
  · have := buildCodes_of_not_mem t [] CodeMap.empty k hmem
    simp only [codeTable, buildCodesPtr] at h
    rw [this] at h
    simp [CodeMap.empty] at h

theorem codeTable_of_leafAt (t : Node) (hnd : t.symbols.Nodup) (p : List Bool) (k : Nat)
    (hp : t.leafAt p = some k) :
    codeTable (some t) k = some (if (pathCode p).isEmpty then ['0'] else pathCode p) := by
  have := buildCodes_of_leafAt t [] CodeMap.empty p k hnd hp
  simpa [codeTable, buildCodesPtr] using this

theorem leafAt_nil_isLeaf (t : Node) (s : Nat) (h : t.leafAt [] = some s) : t.isLeaf = true := by
  cases t with
  | leaf ch f => rfl
  | internal f l r => simp [Node.leafAt] at h

theorem leafAt_ne_nil (t : Node) (p : List Bool) (s : Nat) (ht : t.isLeaf = false)
    (h : t.leafAt p = some s) : p ≠ [] := by
  intro hp
  subst hp
  rw [leafAt_nil_isLeaf t s h] at ht
  exact Bool.noConfusion ht

theorem pathCode_isEmpty (p : List Bool) : (pathCode p).isEmpty = p.isEmpty := by
  cases p <;> simp [pathCode]

/-- Two root paths of one tree that end at leaves are equal when one is a prefix of the
other. -/
theorem leafAt_eq_of_isPrefix (t : Node) (p q : List Bool) (s s2 : Nat) (hp : t.leafAt p = some s)
    (hq : t.leafAt q = some s2) (hpre : pathCode p <+: pathCode q) : p = q := by
  obtain ⟨r, hr⟩ := hpre
  have hr2 : List.map bitChar q = pathCode p ++ r := hr.symm
  obtain ⟨l1, l2, hq2, h1, _⟩ := List.map_eq_append_iff.1 hr2
  have hl1 : l1 = p := pathCode_injective h1
  subst hl1
  subst hq2
  have := leafAt_append t l1 l2 s s2 hp hq
  simp [this]

end Huffman

namespace Huffman

/-! ## Empty input and bad magic -/

theorem decodePayload_status_ne_badMagic (origExt serializedTree : List Nat) (totalChars : Int)
    (s : List Nat) :
    (decodePayload origExt serializedTree totalChars s).status ≠ Status.badMagic := by
  unfold decodePayload
  split
  · simp
  · simp
  · simp
  · split <;> simp

/-- Function `decompressFile` on an input with the right magic string, written out. -/
theorem decompressFile_of_magic (input : List Nat) (h : input.take 7 = magic) :
    decompressFile input
      = decodePayload
          (if (readLenString (input.drop 7)).1.isEmpty then [100, 97, 116]
            else (readLenString (input.drop 7)).1)
          (readLenString (readLenString (input.drop 7)).2).1
          (readInt32 ((readLenString (readLenString (input.drop 7)).2).2.take 4))
          ((readLenString (readLenString (input.drop 7)).2).2.drop 4) := by
  unfold decompressFile
  rw [if_neg (not_not.2 h)]

/-- C2: `compressFile` on the empty byte sequence ends with the empty-input error and writes no
byte at all to the output, whatever the extension. -/
theorem compress_empty_input (ties : List Nat) (origExt : List Nat) :
    compressFile ties [] origExt = (Status.emptyInput, []) := by
  rfl

/-- C3: an input shorter than 7 bytes, or whose first 7 bytes are not `HUFTREE`, makes
`decompressFile` end with the bad-magic error and no output byte; an input that begins with
`HUFTREE` never ends with the bad-magic error. -/
theorem decompress_bad_magic (input : List Nat) :
    ((input.length < 7 ∨ input.take 7 ≠ magic)
        → decompressFile input = ⟨Status.badMagic, [], []⟩)
      ∧ (input.take 7 = magic → (decompressFile input).status ≠ Status.badMagic) := by
  constructor
  · intro h
    have hne : input.take 7 ≠ magic := by
      rcases h with h | h
      · intro heq
        have := congrArg List.length heq
        simp [magic] at this
        omega
      · exact h
    unfold decompressFile
    rw [if_pos hne]
  · intro h
    rw [decompressFile_of_magic input h]
    exact decodePayload_status_ne_badMagic _ _ _ _

/-- Witness for C3: a three byte input is rejected, an input starting with `HUFTREE` is not
rejected as bad magic. -/
theorem decompress_bad_magic_witness :
    decompressFile [72, 85, 70] = ⟨Status.badMagic, [], []⟩
      ∧ (decompressFile ([72, 85, 70, 84, 82, 69, 69] ++ [1, 2, 3])).status ≠ Status.badMagic :=
  ⟨(decompress_bad_magic [72, 85, 70]).1 (Or.inl (by decide)),
   (decompress_bad_magic ([72, 85, 70, 84, 82, 69, 69] ++ [1, 2, 3])).2 (by decide)⟩

end Huffman

namespace Huffman

/-! ## Code tables of built trees -/

/-- C6: for a non-empty frequency table (distinct keys) the code table of the built tree is
prefix-free: codes of two different symbols are never a prefix of one another; every key of
the table has a code. -/
theorem codes_prefix_free (ties : List Nat) (freq : FreqMap) (hne : freq ≠ [])
    (hkeys : (freq.map Prod.fst).Nodup) :
    (∀ k ∈ freq.map Prod.fst, ∃ c, codeTable (buildHuffmanTree ties freq) k = some c)
      ∧ ∀ x y cx cy, x ≠ y →
        codeTable (buildHuffmanTree ties freq) x = some cx →
        codeTable (buildHuffmanTree ties freq) y = some cy →
        ¬ cx <+: cy ∧ ¬ cy <+: cx := by
  obtain ⟨t, ht, hperm, _⟩ := buildHuffmanTree_spec ties freq hne
  have hnd : t.symbols.Nodup := hperm.nodup_iff.2 hkeys
  rw [ht]
  constructor
  · intro k hk
    obtain ⟨p, hp⟩ := exists_leafAt_of_mem t k (hperm.mem_iff.2 hk)
    exact ⟨_, codeTable_of_leafAt t hnd p k hp⟩
  · have key : ∀ x y cx cy, x ≠ y → codeTable (some t) x = some cx →
        codeTable (some t) y = some cy → ¬ cx <+: cy := by
      intro x y cx cy hxy hx hy hpre
      obtain ⟨p, hp, hcx⟩ := codeTable_eq_some t hnd x cx hx
      obtain ⟨q, hq, hcy⟩ := codeTable_eq_some t hnd y cy hy
      have hpq : p ≠ q := by
        intro h
        rw [h, hq] at hp
        exact hxy (Option.some.inj hp).symm
      cases hl : t.isLeaf with
      | true =>
        cases t with
        | leaf ch f =>
          cases p with
          | nil =>
            cases q with
            | nil => exact hpq rfl
            | cons b q => simp [Node.leafAt] at hq
          | cons b p => simp [Node.leafAt] at hp
        | internal f l r => simp [Node.isLeaf] at hl
      | false =>
        have hp0 := leafAt_ne_nil t p x hl hp
        have hq0 := leafAt_ne_nil t q y hl hq
        have e1 : (pathCode p).isEmpty = false := by
          rw [pathCode_isEmpty]; cases p <;> simp at hp0 ⊢
        have e2 : (pathCode q).isEmpty = false := by
          rw [pathCode_isEmpty]; cases q <;> simp at hq0 ⊢
        simp only [e1, e2, Bool.false_eq_true, if_false] at hcx hcy
        subst hcx hcy
        exact hpq (leafAt_eq_of_isPrefix t p q x y hp hq hpre)
    intro x y cx cy hxy hx hy
    exact ⟨key x y cx cy hxy hx hy, key y x cy cx (Ne.symm hxy) hy hx⟩

/-- Witness for C6 on the table with frequencies 5, 2, 1 for the bytes 65, 66, 67. -/
theorem codes_prefix_free_witness :
    (∀ k ∈ [65, 66, 67], ∃ c,
        codeTable (buildHuffmanTree [] [(65, 5), (66, 2), (67, 1)]) k = some c)
      ∧ ∀ x y cx cy, x ≠ y →
        codeTable (buildHuffmanTree [] [(65, 5), (66, 2), (67, 1)]) x = some cx →
        codeTable (buildHuffmanTree [] [(65, 5), (66, 2), (67, 1)]) y = some cy →
        ¬ cx <+: cy ∧ ¬ cy <+: cx :=
  codes_prefix_free [] [(65, 5), (66, 2), (67, 1)] (by decide) (by decide)

/-- C9: a table with the single entry `s` gives the single leaf `s` and exactly the code table
that maps `s` to "0"; a table with two or more entries gives an internal root, and the code
of a symbol is exactly the root path of its leaf (no code is replaced by "0"). -/
theorem single_symbol_code_table (ties : List Nat) (freq : FreqMap)
    (hkeys : (freq.map Prod.fst).Nodup) :
    (∀ s f, freq = [(s, f)] →
        buildHuffmanTree ties freq = some (Node.leaf s f)
          ∧ ∀ k, codeTable (buildHuffmanTree ties freq) k = if k = s then some ['0'] else none)
      ∧ (2 ≤ freq.length →
          ∃ t, buildHuffmanTree ties freq = some t ∧ t.isLeaf = false
            ∧ ∀ k c, codeTable (some t) k = some c
                ↔ ∃ p, t.leafAt p = some k ∧ c = pathCode p) := by
  constructor
  · intro s f hf
    subst hf
    have h1 : buildHuffmanTree ties [(s, f)] = some (Node.leaf s f) := by
      simp [buildHuffmanTree, mergeLoop]
    refine ⟨h1, fun k => ?_⟩
    rw [h1]
    simp [codeTable, buildCodesPtr, buildCodes, CodeMap.set, CodeMap.empty]
  · intro hlen
    have hne : freq ≠ [] := by
      intro h
      rw [h] at hlen
      simp at hlen
    obtain ⟨t, ht, hperm, hleaf⟩ := buildHuffmanTree_spec ties freq hne
    have hnd : t.symbols.Nodup := hperm.nodup_iff.2 hkeys
    have hint : t.isLeaf = false := by
      cases hl : t.isLeaf with
      | false => rfl
      | true =>
        obtain ⟨s, f, hf, _⟩ := hleaf hl
        rw [hf] at hlen
        simp at hlen
    refine ⟨t, ht, hint, fun k c => ?_⟩
    constructor
    · intro h
      obtain ⟨p, hp, hc⟩ := codeTable_eq_some t hnd k c h
      refine ⟨p, hp, ?_⟩
      have hp0 := leafAt_ne_nil t p k hint hp
      have e1 : (pathCode p).isEmpty = false := by
        rw [pathCode_isEmpty]; cases p <;> simp at hp0 ⊢
      simpa [e1] using hc
    · rintro ⟨p, hp, hc⟩
      have hp0 := leafAt_ne_nil t p k hint hp
      have e1 : (pathCode p).isEmpty = false := by
        rw [pathCode_isEmpty]; cases p <;> simp at hp0 ⊢
      rw [codeTable_of_leafAt t hnd p k hp, hc]
      simp [e1]

/-- Witness for C9 on the table with the single entry 65 and on the table with the two
entries 65 and 66. -/
theorem single_symbol_code_table_witness :
    (buildHuffmanTree [] [(65, 3)] = some (Node.leaf 65 3)
        ∧ ∀ k, codeTable (buildHuffmanTree [] [(65, 3)]) k = if k = 65 then some ['0'] else none)
      ∧ (∃ t, buildHuffmanTree [] [(65, 3), (66, 1)] = some t ∧ t.isLeaf = false
            ∧ ∀ k c, codeTable (some t) k = some c
                ↔ ∃ p, t.leafAt p = some k ∧ c = pathCode p) :=
  ⟨(single_symbol_code_table [] [(65, 3)] (by decide)).1 65 3 rfl,
   (single_symbol_code_table [] [(65, 3), (66, 1)] (by decide)).2 (by decide)⟩

/-- C10: for a non-empty byte sequence the built code table has a code exactly for the byte
values that occur in the sequence; every code is a non-empty string of the characters 0 and 1,
and with an internal root it spells the left/right path from the root to the symbol's leaf. -/
theorem code_table_coverage (ties : List Nat) (b : List Nat) (hb : b ≠ []) :
    ∃ t, buildHuffmanTree ties (countFreq b) = some t
      ∧ (∀ k, (∃ c, codeTable (some t) k = some c) ↔ k ∈ b)
      ∧ ∀ k c, codeTable (some t) k = some c →
          c ≠ [] ∧ (∀ ch ∈ c, ch = '0' ∨ ch = '1')
            ∧ (t.isLeaf = false → t.leafAt (c.map (fun ch => decide (ch = '1'))) = some k) := by
  obtain ⟨t, ht, hperm, _⟩ := buildHuffmanTree_spec ties (countFreq b) (countFreq_ne_nil b hb)
  have hnd : t.symbols.Nodup := hperm.nodup_iff.2 (countFreq_nodup b)
  refine ⟨t, ht, fun k => ?_, fun k c hc => ?_⟩
  · constructor
    · rintro ⟨c, hc⟩
      obtain ⟨p, hp, _⟩ := codeTable_eq_some t hnd k c hc
      exact (countFreq_mem b k).1 (hperm.mem_iff.1 (leafAt_mem_symbols t p k hp))
    · intro hk
      obtain ⟨p, hp⟩ := exists_leafAt_of_mem t k (hperm.mem_iff.2 ((countFreq_mem b k).2 hk))
      exact ⟨_, codeTable_of_leafAt t hnd p k hp⟩
  · obtain ⟨p, hp, hcp⟩ := codeTable_eq_some t hnd k c hc
    have hchars : ∀ ch ∈ pathCode p, ch = '0' ∨ ch = '1' := by
      intro ch hch
      obtain ⟨bit, _, hbit⟩ := List.mem_map.1 hch
      cases bit
      · left; simpa [bitChar] using hbit.symm
      · right; simpa [bitChar] using hbit.symm
    have hback : (pathCode p).map (fun ch => decide (ch = '1')) = p := by
      unfold pathCode
      rw [List.map_map]
      conv_rhs => rw [← List.map_id p]
      apply List.map_congr_left
      intro bit _
      cases bit <;> simp [bitChar]
    cases he : (pathCode p).isEmpty with
    | true =>
      rw [he] at hcp
      simp only [if_true] at hcp
      subst hcp
      refine ⟨by simp, by simp, fun hl => ?_⟩
      rw [pathCode_isEmpty] at he
      have hp0 : p = [] := by simpa using he
      subst hp0
      rw [leafAt_nil_isLeaf t k hp] at hl
      exact Bool.noConfusion hl
    | false =>
      rw [he] at hcp
      simp only [Bool.false_eq_true, if_false] at hcp
      subst hcp
      refine ⟨?_, hchars, fun _ => ?_⟩
      · intro h0
        rw [h0] at he
        simp at he
      · rw [hback]
        exact hp

/-- Witness for C10 on the byte sequence 65 66 65. -/
theorem code_table_coverage_witness :
    ∃ t, buildHuffmanTree [] (countFreq [65, 66, 65]) = some t
      ∧ (∀ k, (∃ c, codeTable (some t) k = some c) ↔ k ∈ [65, 66, 65])
      ∧ ∀ k c, codeTable (some t) k = some c →
          c ≠ [] ∧ (∀ ch ∈ c, ch = '0' ∨ ch = '1')
            ∧ (t.isLeaf = false → t.leafAt (c.map (fun ch => decide (ch = '1'))) = some k) :=
  code_table_coverage [] [65, 66, 65] (by decide)

/-! ## Tree serialization -/

theorem eraseFreq_freq (t : Node) : t.eraseFreq.freq = 0 := by
  cases t <;> rfl

theorem eraseFreq_symbols (t : Node) : t.eraseFreq.symbols = t.symbols := by
  induction t with
  | leaf ch f => rfl
  | internal f l r ihl ihr => simp [Node.eraseFreq, Node.symbols, ihl, ihr]

theorem eraseFreq_isLeaf (t : Node) : t.eraseFreq.isLeaf = t.isLeaf := by
  cases t <;> rfl

theorem eraseFreq_leafAt (t : Node) : ∀ p, t.eraseFreq.leafAt p = t.leafAt p := by
  induction t with
  | leaf ch f => intro p; cases p <;> rfl
  | internal f l r ihl ihr =>
    intro p
    cases p with
    | nil => rfl
    | cons b p => cases b <;> simp [Node.eraseFreq, Node.leafAt, ihl, ihr]

/-- The code table does not depend on the frequencies stored in the tree. -/
theorem buildCodes_eraseFreq (t : Node) :
    ∀ (code : List Char) (m : CodeMap), buildCodes t.eraseFreq code m = buildCodes t code m := by
  induction t with
  | leaf ch f => intro code m; rfl
  | internal f l r ihl ihr =>
    intro code m
    simp [Node.eraseFreq, buildCodes, ihl, ihr]

theorem getD_append_cons (pre : List Nat) (x : Nat) (rest : List Nat) :
    (pre ++ x :: rest).getD pre.length 0 = x := by
  induction pre with
  | nil => rfl
  | cons y ys ih => simpa using ih

theorem getD_append_cons_succ (pre : List Nat) (x y : Nat) (rest : List Nat) :
    (pre ++ x :: y :: rest).getD (pre.length + 1) 0 = y := by
  induction pre with
  | nil => rfl
  | cons z zs ih => simpa using ih

/-- Deserialization started at the first byte of a serialized tree, anywhere in a string,
returns the tree with zero frequencies and stops right after its last byte. -/
theorem deserializeTreeAux_serializeTree (t : Node) :
    ∀ (fuel : Nat) (pre post : List Nat), (serializeTree t).length ≤ fuel →
      deserializeTreeAux fuel (pre ++ serializeTree t ++ post) pre.length
        = (Deser.node t.eraseFreq, pre.length + (serializeTree t).length) := by
  induction t with
  | leaf ch f =>
    intro fuel pre post hfuel
    simp only [serializeTree, List.length_cons, List.length_nil] at hfuel
    obtain ⟨fuel2, rfl⟩ : ∃ n, fuel = n + 1 := ⟨fuel - 1, by omega⟩
    have e0 : pre ++ serializeTree (Node.leaf ch f) ++ post = pre ++ 49 :: ch :: post := by
      simp [serializeTree]
    rw [e0]
    unfold deserializeTreeAux
    have hidx : ¬ pre.length ≥ (pre ++ 49 :: ch :: post).length := by
      simp
    rw [if_neg hidx]
    simp only [getD_append_cons, getD_append_cons_succ, if_true, Node.eraseFreq, serializeTree,
      List.length_cons, List.length_nil]
  | internal f l r ihl ihr =>
    intro fuel pre post hfuel
    simp only [serializeTree, List.length_cons, List.length_append] at hfuel
    obtain ⟨fuel2, rfl⟩ : ∃ n, fuel = n + 1 := ⟨fuel - 1, by omega⟩
    have e0 : pre ++ serializeTree (Node.internal f l r) ++ post
        = pre ++ 48 :: (serializeTree l ++ serializeTree r ++ post) := by
      simp [serializeTree]
    have hl := ihl fuel2 (pre ++ [48]) (serializeTree r ++ post) (by omega)
    have e1 : pre ++ [48] ++ serializeTree l ++ (serializeTree r ++ post)
        = pre ++ 48 :: (serializeTree l ++ serializeTree r ++ post) := by
      simp
    rw [e1] at hl
    have hr := ihr fuel2 (pre ++ [48] ++ serializeTree l) post (by omega)
    have e2 : pre ++ [48] ++ serializeTree l ++ serializeTree r ++ post
        = pre ++ 48 :: (serializeTree l ++ serializeTree r ++ post) := by
      simp
    rw [e2] at hr
    simp only [List.length_append, List.length_singleton] at hl hr
    rw [e0]
    have hflag : (pre ++ 48 :: (serializeTree l ++ serializeTree r ++ post)).getD pre.length 0
        = 48 := getD_append_cons pre 48 _
    have hidx : ¬ pre.length ≥ (pre ++ 48 :: (serializeTree l ++ serializeTree r ++ post)).length := by
      simp
    generalize pre ++ 48 :: (serializeTree l ++ serializeTree r ++ post) = inp at hl hr hflag hidx ⊢
    unfold deserializeTreeAux
    rw [if_neg hidx]
    simp only [hflag, hl, hr]
    simp only [Nat.reduceEqDiff, if_false, Node.mk2, Node.eraseFreq, eraseFreq_freq,
      serializeTree, List.length_cons, List.length_append]
    have hw : wrapInt32 (0 + 0) = 0 := by decide
    rw [hw]
    congr 1
    omega

theorem deserializeTree_serializeTree_fst (t : Node) :
    (deserializeTree (serializeTree t) 0).1 = Deser.node t.eraseFreq := by
  have := deserializeTreeAux_serializeTree t (serializeTree t).length [] [] (le_refl _)
  have h2 : deserializeTree (serializeTree t) 0
      = (Deser.node t.eraseFreq, (serializeTree t).length) := by
    simpa [deserializeTree] using this
  rw [h2]

/-- C7: deserializing the serialization of a tree from cursor 0 returns the tree with the same
topology and leaf symbols (frequencies zero), leaves the cursor at the length of the
serialization, and the two trees give the same code table. -/
theorem tree_codec_round_trip (t : Node) :
    deserializeTree (serializeTree t) 0 = (Deser.node t.eraseFreq, (serializeTree t).length)
      ∧ t.eraseFreq.symbols = t.symbols
      ∧ (∀ p, t.eraseFreq.leafAt p = t.leafAt p)
      ∧ codeTable (some t.eraseFreq) = codeTable (some t) := by
  refine ⟨?_, eraseFreq_symbols t, eraseFreq_leafAt t, ?_⟩
  · have := deserializeTreeAux_serializeTree t (serializeTree t).length [] [] (le_refl _)
    simpa [deserializeTree] using this
  · simp [codeTable, buildCodesPtr, buildCodes_eraseFreq]

end Huffman

namespace Huffman

/-! ## Header fields -/

theorem readInt32_writeInt32 (x : Int) (h1 : -2147483648 ≤ x) (h2 : x < 2147483648) :
    readInt32 (writeInt32 x) = x := by
  unfold readInt32 writeInt32 wrapInt32
  simp only [List.getD_cons_zero, List.getD_cons_succ]
  omega

theorem writeInt32_length (x : Int) : (writeInt32 x).length = 4 := rfl

theorem wrapInt32_of_bounds (x : Int) (h1 : -2147483648 ≤ x) (h2 : x < 2147483648) :
    wrapInt32 x = x := by
  unfold wrapInt32
  omega

theorem readString_append (a rest : List Nat) : readString a.length (a ++ rest) = a := by
  simp [readString]

/-- Every call of `deserializeTree` returns: the recursion never needs more nested calls than
there are bytes after the cursor, and the cursor never moves back. -/
theorem deserializeTreeAux_total :
    ∀ (fuel : Nat) (inp : List Nat) (index : Nat), inp.length - index ≤ fuel →
      (deserializeTreeAux fuel inp index).1 ≠ Deser.outOfFuel
        ∧ index ≤ (deserializeTreeAux fuel inp index).2
        ∧ (index < inp.length → index < (deserializeTreeAux fuel inp index).2
            ∧ (deserializeTreeAux fuel inp index).1 ≠ Deser.null) := by
  intro fuel
  induction fuel with
  | zero =>
    intro inp index h
    have hge : index ≥ inp.length := by omega
    unfold deserializeTreeAux
    rw [if_pos hge]
    exact ⟨by simp, le_refl _, fun h2 => absurd h2 (by omega)⟩
  | succ fuel ih =>
    intro inp index h
    unfold deserializeTreeAux
    by_cases hge : index ≥ inp.length
    · rw [if_pos hge]
      exact ⟨by simp, le_refl _, fun h2 => absurd h2 (by omega)⟩
    · rw [if_neg hge]
      simp only
      by_cases hflag : inp.getD index 0 = 49
      · rw [if_pos hflag]
        exact ⟨by simp, by simp, fun _ => ⟨by simp, by simp⟩⟩
      · rw [if_neg hflag]
        obtain ⟨l1, l2, _⟩ := ih inp (index + 1) (by omega)
        obtain ⟨r1, r2, _⟩ := ih inp (deserializeTreeAux fuel inp (index + 1)).2 (by omega)
        revert l1 r1 r2
        generalize (deserializeTreeAux fuel inp
          (deserializeTreeAux fuel inp (index + 1)).2) = r
        revert l2
        generalize (deserializeTreeAux fuel inp (index + 1)) = l
        intro l2 l1 r1 r2
        obtain ⟨lr, li⟩ := l
        obtain ⟨rr, ri⟩ := r
        simp only at l1 l2 r1 r2 ⊢
        have hlt : index < ri := by omega
        cases lr <;> cases rr <;> simp_all <;> omega

/-- Function `decompressFile` on a file with the layout of `compressFile`: the header fields are
read back and the outcome is decided by the deserialized tree and the decoding loop. -/
theorem readLenString_append (a rest : List Nat) (h : a.length < 2147483648) :
    readLenString (writeInt32 a.length ++ (a ++ rest)) = (a, rest) := by
  have e1 : readInt32 (writeInt32 (a.length : Int)) = a.length :=
    readInt32_writeInt32 _ (by omega) (by omega)
  unfold readLenString
  rw [List.take_left' (writeInt32_length _), List.drop_left' (writeInt32_length _), e1]
  cases a with
  | nil => simp
  | cons x xs =>
    have hpos : ((x :: xs).length : Int) > 0 := by
      simp only [List.length_cons]
      omega
    rw [if_pos hpos]
    simp only [Int.toNat_ofNat, readString_append, List.drop_left]

/-- Function `decompressFile` on a file with the layout of `compressFile`: the header fields are
read back and the second half runs on the payload. -/
theorem decompressFile_fileLayout (ext tb : List Nat) (n : Int) (payload : List Nat)
    (hext : ext.length < 2147483648) (htb : tb.length < 2147483648)
    (hn1 : -2147483648 ≤ n) (hn2 : n < 2147483648) :
    decompressFile (fileLayout ext tb n payload)
      = decodePayload (if ext.isEmpty then [100, 97, 116] else ext) tb n payload := by
  have h0 : fileLayout ext tb n payload
      = magic ++ (writeInt32 ext.length ++ (ext ++ (writeInt32 tb.length
          ++ (tb ++ (writeInt32 n ++ payload))))) := by
    simp [fileLayout]
  have hm : magic.length = 7 := rfl
  have e3 : readInt32 (writeInt32 n) = n := readInt32_writeInt32 _ hn1 hn2
  rw [h0, decompressFile_of_magic _ (List.take_left' hm), List.drop_left' hm,
    readLenString_append ext _ hext]
  simp only
  rw [readLenString_append tb _ htb]
  simp only
  rw [List.take_left' (writeInt32_length _), List.drop_left' (writeInt32_length _), e3]

end Huffman

namespace Huffman

/-! ## The decoding loop on bits -/

theorem decodeBits_done (root : Node) (n : Int) (bits : List Bool) (st : DecodeState)
    (h : ¬ st.decodedChars < n) : decodeBits root n bits st = some st := by
  cases bits with
  | nil => rfl
  | cons b bs => rw [decodeBits, if_neg h]

theorem decodeBits_append (root : Node) (n : Int) :
    ∀ (a b : List Bool) (st : DecodeState),
      decodeBits root n (a ++ b) st
        = match decodeBits root n a st with
          | none => none
          | some st2 => decodeBits root n b st2 := by
  intro a
  induction a with
  | nil => intro b st; rfl
  | cons x xs ih =>
    intro b st
    by_cases h : st.decodedChars < n
    · simp only [List.cons_append, decodeBits, if_pos h]
      cases hc : st.current with
      | leaf ch f => rfl
      | internal f l r =>
        simp only
        cases hx : (if x = true then r else l) with
        | leaf ch2 f2 => exact ih b _
        | internal f2 l2 r2 => exact ih b _
    · simp only [List.cons_append, decodeBits, if_neg h]
      exact (decodeBits_done root n b st h).symm

theorem decodeByte_eq_decodeBits (root : Node) (n : Int) (byte : Nat) :
    ∀ (k : Nat) (st : DecodeState),
      decodeByte root n byte k st = decodeBits root n (lowBits byte k) st := by
  intro k
  induction k with
  | zero => intro st; rfl
  | succ k ih =>
    intro st
    by_cases h : st.decodedChars < n
    · simp only [decodeByte, lowBits, decodeBits, if_pos h]
      cases hc : st.current with
      | leaf ch f => rfl
      | internal f l r =>
        simp only [decide_eq_true_eq]
        cases hx : (if byte / 2 ^ k % 2 = 1 then r else l) with
        | leaf ch2 f2 => exact ih _
        | internal f2 l2 r2 => exact ih _
    · simp only [decodeByte, lowBits, decodeBits, if_neg h]

theorem decodeLoop_eq_decodeBits (root : Node) (n : Int) :
    ∀ (bytes : List Nat) (st : DecodeState),
      decodeLoop root n bytes st = decodeBits root n (streamBits bytes) st := by
  intro bytes
  induction bytes with
  | nil => intro st; rfl
  | cons byte rest ih =>
    intro st
    rw [streamBits, decodeBits_append]
    by_cases h : st.decodedChars < n
    · simp only [decodeLoop, if_pos h, decodeByte_eq_decodeBits]
      cases decodeBits root n (lowBits byte 8) st with
      | none => rfl
      | some st2 => exact ih st2
    · simp only [decodeLoop, if_neg h]
      rw [decodeBits_done root n _ st h]
      exact (decodeBits_done root n _ st h).symm

theorem lowBits_length (byte k : Nat) : (lowBits byte k).length = k := by
  induction k with
  | zero => rfl
  | succ k ih => simp [lowBits, ih]

theorem streamBits_length (bytes : List Nat) : (streamBits bytes).length = 8 * bytes.length := by
  induction bytes with
  | nil => rfl
  | cons byte rest ih =>
    simp only [streamBits, List.length_append, lowBits_length, ih, List.length_cons]
    omega

/-- With an internal root the decoder never follows a null pointer; it emits one byte per
counted symbol, never more than the declared count and never more than one per bit. -/
theorem decodeBits_internal (root : Node) (n : Int) (hroot : root.isLeaf = false) :
    ∀ (bits : List Bool) (st : DecodeState), st.current.isLeaf = false →
      st.decodedChars = st.out.length → st.decodedChars ≤ n →
      ∃ st2, decodeBits root n bits st = some st2 ∧ st2.current.isLeaf = false
        ∧ st2.decodedChars = st2.out.length ∧ st2.decodedChars ≤ n
        ∧ st2.out.length ≤ st.out.length + bits.length := by
  intro bits
  induction bits with
  | nil =>
    intro st h1 h2 h3
    exact ⟨st, rfl, h1, h2, h3, by simp⟩
  | cons b bs ih =>
    intro st h1 h2 h3
    by_cases h : st.decodedChars < n
    · simp only [decodeBits, if_pos h]
      cases hc : st.current with
      | leaf ch f => rw [hc] at h1; simp [Node.isLeaf] at h1
      | internal f l r =>
        simp only
        cases hx : (if b = true then r else l) with
        | leaf ch2 f2 =>
          obtain ⟨st2, e1, e2, e3, e4, e5⟩ :=
            ih ⟨root, st.decodedChars + 1, st.out ++ [ch2]⟩ hroot
              (by simp [h2]) (by simp only; omega)
          refine ⟨st2, e1, e2, e3, e4, ?_⟩
          simp only [List.length_append, List.length_singleton, List.length_cons,
            List.length_nil] at e5 ⊢
          omega
        | internal f2 l2 r2 =>
          obtain ⟨st2, e1, e2, e3, e4, e5⟩ :=
            ih ⟨.internal f2 l2 r2, st.decodedChars, st.out⟩ rfl h2 h3
          refine ⟨st2, e1, e2, e3, e4, ?_⟩
          simp only [List.length_cons] at e5 ⊢
          omega
    · rw [decodeBits_done root n _ st h]
      exact ⟨st, rfl, h1, h2, h3, by simp⟩

end Huffman

namespace Huffman

/-! ## Truncated payloads, corrupt trees, single-symbol files -/

/-- C4 as stated fails: a header that declares 100 symbols over the tree with codes A = 0,
B = 10, C = 11, followed by a payload whose 16 bits hold 10 symbols, decompresses with
success to those 10 bytes. -/
theorem truncated_stream_counterexample :
    decompressFile (fileLayout [] [48, 49, 65, 48, 49, 66, 49, 67] 100 [187, 176])
      = ⟨Status.success, [100, 97, 116], [66, 67, 66, 67, 66, 67, 65, 65, 65, 65]⟩ := by
  decide

/-- C4 amended: for a well-formed header with a tree of at least two leaves and a declared
count `totalChars`, `decompressFile` ends with success on every payload and writes at most
`totalChars` bytes; a payload with fewer than `totalChars` bits is exhausted first and gives
a successful output shorter than `totalChars`. -/
theorem truncated_payload_success (ext : List Nat) (t : Node) (n : Int) (payload : List Nat)
    (hext : ext.length < 2147483648) (ht : t.isLeaf = false)
    (hser : (serializeTree t).length < 2147483648) (hn0 : 0 ≤ n) (hn : n < 2147483648) :
    (decompressFile (fileLayout ext (serializeTree t) n payload)).status = Status.success
      ∧ ((decompressFile (fileLayout ext (serializeTree t) n payload)).output.length : Int) ≤ n
      ∧ (((8 * payload.length : Nat) : Int) < n →
          ((decompressFile (fileLayout ext (serializeTree t) n payload)).output.length : Int) < n) := by
  rw [decompressFile_fileLayout ext _ n payload hext hser (by omega) hn]
  unfold decodePayload
  rw [deserializeTree_serializeTree_fst t]
  simp only
  have hroot : t.eraseFreq.isLeaf = false := by rw [eraseFreq_isLeaf]; exact ht
  obtain ⟨st2, e1, _, e3, e4, e5⟩ :=
    decodeBits_internal t.eraseFreq n hroot (streamBits payload) ⟨t.eraseFreq, 0, []⟩
      hroot rfl hn0
  rw [decodeLoop_eq_decodeBits, e1]
  simp only [streamBits_length, List.length_nil] at e5
  simp only [true_and]
  refine ⟨by omega, fun h => ?_⟩
  omega

end Huffman

namespace Huffman

/-- Witness for C4 amended: the tree with leaves 65 and 66, a declared count of 100 and a one
byte payload. -/
theorem truncated_payload_success_witness :
    (decompressFile (fileLayout []
        (serializeTree (Node.internal 0 (Node.leaf 65 0) (Node.leaf 66 0))) 100 [0])).status
        = Status.success
      ∧ ((decompressFile (fileLayout []
          (serializeTree (Node.internal 0 (Node.leaf 65 0) (Node.leaf 66 0))) 100
            [0])).output.length : Int) ≤ 100
      ∧ ((decompressFile (fileLayout []
          (serializeTree (Node.internal 0 (Node.leaf 65 0) (Node.leaf 66 0))) 100
            [0])).output.length : Int) < 100 :=
  ⟨(truncated_payload_success [] (Node.internal 0 (Node.leaf 65 0) (Node.leaf 66 0)) 100 [0]
      (by decide) rfl (by decide) (by decide) (by decide)).1,
   (truncated_payload_success [] (Node.internal 0 (Node.leaf 65 0) (Node.leaf 66 0)) 100 [0]
      (by decide) rfl (by decide) (by decide) (by decide)).2.1,
   (truncated_payload_success [] (Node.internal 0 (Node.leaf 65 0) (Node.leaf 66 0)) 100 [0]
      (by decide) rfl (by decide) (by decide) (by decide)).2.2 (by decide)⟩

/-- C5 as stated fails: a complete tree followed by the extra byte 88 deserializes to a tree
with the cursor before the extra byte, a final leaf flag without symbol byte deserializes to a
leaf with symbol NUL, and `decompressFile` decodes with both trees without an error. -/
theorem corrupt_tree_counterexample :
    deserializeTree [48, 49, 65, 49, 66, 88] 0
        = (Deser.node (Node.internal 0 (Node.leaf 65 0) (Node.leaf 66 0)), 5)
      ∧ deserializeTree [48, 49, 65, 49] 0
        = (Deser.node (Node.internal 0 (Node.leaf 65 0) (Node.leaf 0 0)), 5)
      ∧ decompressFile (fileLayout [] [48, 49, 65, 49, 66, 88] 1 [0])
        = ⟨Status.success, [100, 97, 116], [65]⟩
      ∧ decompressFile (fileLayout [] [48, 49, 65, 49] 1 [0])
        = ⟨Status.success, [100, 97, 116], [65]⟩ := by
  decide

/-- C5 amended: `decompressFile` ends with the corrupt-tree error and no output when the
serialized tree is empty; a byte sequence that begins with the serialization of a tree
deserializes to that tree with the cursor right after it, whatever bytes follow, and is not
rejected as corrupt. -/
theorem corrupt_tree_empty_only (ext : List Nat) (n : Int) (payload : List Nat)
    (hext : ext.length < 2147483648) (hn1 : -2147483648 ≤ n) (hn2 : n < 2147483648) :
    decompressFile (fileLayout ext [] n payload) = ⟨Status.corruptTree, [], []⟩
      ∧ ∀ (t : Node) (post : List Nat),
          deserializeTree (serializeTree t ++ post) 0
              = (Deser.node t.eraseFreq, (serializeTree t).length)
            ∧ ((serializeTree t ++ post).length < 2147483648 →
                (decompressFile (fileLayout ext (serializeTree t ++ post) n payload)).status
                  ≠ Status.corruptTree) := by
  constructor
  · rw [decompressFile_fileLayout ext [] n payload hext (by simp) hn1 hn2]
    rfl
  · intro t post
    have h1 : deserializeTree (serializeTree t ++ post) 0
        = (Deser.node t.eraseFreq, (serializeTree t).length) := by
      have := deserializeTreeAux_serializeTree t (serializeTree t ++ post).length [] post
        (by simp)
      simpa [deserializeTree] using this
    refine ⟨h1, fun hlen => ?_⟩
    rw [decompressFile_fileLayout ext _ n payload hext hlen hn1 hn2]
    unfold decodePayload
    rw [h1]
    simp only
    split <;> simp

/-- Witness for C5 amended: an empty serialized tree, and the tree with leaves 65 and 66
followed by the byte 88. -/
theorem corrupt_tree_empty_only_witness :
    decompressFile (fileLayout [116] [] 1 [0]) = ⟨Status.corruptTree, [], []⟩
      ∧ (decompressFile (fileLayout [116]
          (serializeTree (Node.internal 0 (Node.leaf 65 0) (Node.leaf 66 0)) ++ [88]) 1
            [0])).status ≠ Status.corruptTree :=
  ⟨(corrupt_tree_empty_only [116] 1 [0] (by decide) (by decide) (by decide)).1,
   ((corrupt_tree_empty_only [116] 1 [0] (by decide) (by decide) (by decide)).2
      (Node.internal 0 (Node.leaf 65 0) (Node.leaf 66 0)) [88]).2 (by decide)⟩

/-- C8 on the code: for the input 65 65 65 the code table is 65 ↦ "0" and `compressFile`
writes the tree bytes `1 A`, the count 3 and the payload byte 0; `decompressFile` on that file
follows the null child of the single leaf at the first bit and writes nothing, and the
decoding loop does so for the single-leaf tree on every non-empty payload. -/
theorem single_symbol_round_trip_fails :
    codeTable (buildHuffmanTree [] (countFreq [65, 65, 65])) 65 = some ['0']
      ∧ compressFile [] [65, 65, 65] [116, 120, 116]
        = (Status.success, fileLayout [116, 120, 116] [49, 65] 3 [0])
      ∧ decompressFile (compressFile [] [65, 65, 65] [116, 120, 116]).2
        = ⟨Status.nullDeref, [116, 120, 116], []⟩
      ∧ ∀ (c : Nat) (n : Int) (byte : Nat) (rest : List Nat), 0 < n →
          decodeLoop (Node.leaf c 0) n (byte :: rest) ⟨Node.leaf c 0, 0, []⟩ = none := by
  refine ⟨by decide, by decide, by decide, ?_⟩
  intro c n byte rest hn
  simp [decodeLoop, decodeByte, hn]

end Huffman

namespace Huffman

/-- Witness for C8: the single-leaf tree for the byte 65, the count 3 and the payload byte 0. -/
theorem single_symbol_round_trip_fails_witness :
    decodeLoop (Node.leaf 65 0) 3 [0] ⟨Node.leaf 65 0, 0, []⟩ = none :=
  single_symbol_round_trip_fails.2.2.2 65 3 0 [] (by decide)

end Huffman

namespace Huffman

/-! ## Size and depth of trees -/

theorem leaves_map_fst (t : Node) : t.leaves.map Prod.fst = t.symbols := by
  induction t with
  | leaf ch f => rfl
  | internal f l r ihl ihr => simp [Node.leaves, Node.symbols, ihl, ihr]

theorem symbols_length_pos (t : Node) : 1 ≤ t.symbols.length := by
  induction t with
  | leaf ch f => simp [Node.symbols]
  | internal f l r ihl _ =>
    simp only [Node.symbols, List.length_append]
    omega

theorem internalCount_add_one (t : Node) : t.internalCount + 1 = t.symbols.length := by
  induction t with
  | leaf ch f => rfl
  | internal f l r ihl ihr =>
    simp only [Node.internalCount, Node.symbols, List.length_append]
    omega

theorem serializeTree_length (t : Node) :
    (serializeTree t).length = 2 * t.symbols.length + t.internalCount := by
  induction t with
  | leaf ch f => rfl
  | internal f l r ihl ihr =>
    simp only [serializeTree, List.length_cons, List.length_append, ihl, ihr, Node.symbols,
      Node.internalCount]
    omega

theorem depth_lt_symbols_length (t : Node) : t.depth + 1 ≤ t.symbols.length := by
  induction t with
  | leaf ch f => simp [Node.depth, Node.symbols]
  | internal f l r ihl ihr =>
    have hl := symbols_length_pos l
    have hr := symbols_length_pos r
    simp only [Node.depth, Node.symbols, List.length_append]
    omega

theorem leafAt_length_le_depth (t : Node) :
    ∀ (p : List Bool) (s : Nat), t.leafAt p = some s → p.length ≤ t.depth := by
  induction t with
  | leaf ch f =>
    intro p s h
    cases p with
    | nil => simp
    | cons b p => simp [Node.leafAt] at h
  | internal f l r ihl ihr =>
    intro p s h
    cases p with
    | nil => simp
    | cons b p =>
      cases b with
      | false =>
        simp only [Node.leafAt, Bool.false_eq_true, if_false] at h
        have := ihl p s h
        simp only [List.length_cons, Node.depth]
        omega
      | true =>
        simp only [Node.leafAt, if_true] at h
        have := ihr p s h
        simp only [List.length_cons, Node.depth]
        omega

/-- C14: for every tree with `L` leaves (`L ≥ 1`, and `L - 1` internal nodes) the serialization
has exactly `3 * L - 1` bytes: two per leaf (the flag 1 and the symbol) and one per internal
node (the flag 0), the node first, then the left and the right subtree. -/
theorem serialized_length (t : Node) :
    1 ≤ t.symbols.length
      ∧ t.internalCount = t.symbols.length - 1
      ∧ (serializeTree t).length = 3 * t.symbols.length - 1
      ∧ (serializeTree t).length = 2 * t.symbols.length + t.internalCount
      ∧ (∀ ch f, serializeTree (Node.leaf ch f) = [49, ch])
      ∧ (∀ f l r, serializeTree (Node.internal f l r)
            = 48 :: (serializeTree l ++ serializeTree r)) := by
  have h1 := symbols_length_pos t
  have h2 := internalCount_add_one t
  have h3 := serializeTree_length t
  refine ⟨h1, by omega, by omega, h3, fun _ _ => rfl, fun _ _ _ => rfl⟩

end Huffman

namespace Huffman

/-! ## Induction principle for the merge loop -/

theorem exists_min_freq (pq : List Node) (h : pq ≠ []) :
    ∃ a ∈ pq, ∀ b ∈ pq, a.freq ≤ b.freq := by
  induction pq with
  | nil => exact absurd rfl h
  | cons x xs ih =>
    by_cases hxs : xs = []
    · subst hxs
      exact ⟨x, by simp, by simp⟩
    · obtain ⟨a, ha, hmin⟩ := ih hxs
      by_cases hxa : x.freq ≤ a.freq
      · refine ⟨x, by simp, fun b hb => ?_⟩
        rcases List.mem_cons.1 hb with hb | hb
        · rw [hb]
        · exact le_trans hxa (hmin b hb)
      · refine ⟨a, List.mem_cons_of_mem _ ha, fun b hb => ?_⟩
        rcases List.mem_cons.1 hb with hb | hb
        · rw [hb]
          omega
        · exact hmin b hb

theorem isTop_iff (pq : List Node) (a : Node) :
    isTop pq a = true ↔ ∀ b ∈ pq, a.freq ≤ b.freq := by
  simp [isTop, Compare]

theorem topCandidates_ne_nil (pq : List Node) (h : pq ≠ []) : topCandidates pq ≠ [] := by
  obtain ⟨a, ha, hmin⟩ := exists_min_freq pq h
  obtain ⟨i, hi, hia⟩ := List.getElem_of_mem ha
  intro h0
  have hmem : i ∈ topCandidates pq := by
    unfold topCandidates
    refine List.mem_filter.2 ⟨List.mem_range.2 hi, ?_⟩
    rw [List.getElem?_eq_getElem hi, hia]
    exact (isTop_iff pq a).2 hmin
  rw [h0] at hmem
  simp at hmem

/-- The element returned by `top()` exists and no element of the queue has a smaller
frequency. -/
theorem topIndex_spec (tie : Nat) (pq : List Node) (h : pq ≠ []) :
    ∃ a, pq[topIndex tie pq]? = some a ∧ ∀ b ∈ pq, a.freq ≤ b.freq := by
  have hc := topCandidates_ne_nil pq h
  have hpos : 0 < (topCandidates pq).length := List.length_pos.2 hc
  have hlt : tie % (topCandidates pq).length < (topCandidates pq).length := Nat.mod_lt _ hpos
  have hmem : topIndex tie pq ∈ topCandidates pq := by
    unfold topIndex
    rw [List.getD_eq_getElem _ _ hlt]
    exact List.getElem_mem _
  unfold topCandidates at hmem
  obtain ⟨hr, hf⟩ := List.mem_filter.1 hmem
  have hi : topIndex tie pq < pq.length := List.mem_range.1 hr
  rw [List.getElem?_eq_getElem hi] at hf ⊢
  exact ⟨_, rfl, (isTop_iff pq _).1 hf⟩

/-- Induction over the iterations of the merge loop: a property of the queue that every
iteration preserves (the two nodes taken out are minimal, first in the queue and then in the
rest) holds for the one tree that the loop returns. -/
theorem mergeLoop_induction (P : List Node → Prop)
    (hstep : ∀ (pq : List Node) (left right : Node) (rest : List Node),
      pq.Perm (left :: right :: rest) → (∀ b ∈ pq, left.freq ≤ b.freq) →
      (∀ b ∈ rest, right.freq ≤ b.freq) → P pq → P (rest ++ [Node.mk2 left right])) :
    ∀ (fuel : Nat) (ties : List Nat) (pq : List Node), pq ≠ [] → pq.length ≤ fuel → P pq →
      ∃ t, mergeLoop fuel ties pq = some t ∧ P [t] := by
  intro fuel
  induction fuel with
  | zero =>
    intro ties pq hne hlen
    exact absurd (List.length_pos.2 hne) (by omega)
  | succ fuel ih =>
    intro ties pq hne hlen hP
    unfold mergeLoop
    by_cases hgt : pq.length > 1
    · simp only [hgt, if_true]
      obtain ⟨left, hleft, hminl⟩ := topIndex_spec (ties.headD 0) pq hne
      have hi := topIndex_lt (ties.headD 0) pq hne
      rw [hleft]
      simp only
      have hlen1 : (pq.eraseIdx (topIndex (ties.headD 0) pq)).length = pq.length - 1 := by
        rw [List.length_eraseIdx, if_pos hi]
      have hne1 : pq.eraseIdx (topIndex (ties.headD 0) pq) ≠ [] := by
        intro h0
        rw [h0] at hlen1
        simp at hlen1
        omega
      generalize hpq1 : pq.eraseIdx (topIndex (ties.headD 0) pq) = pq1 at hlen1 hne1
      obtain ⟨right, hright, hminr⟩ := topIndex_spec (ties.tail.headD 0) pq1 hne1
      have hj := topIndex_lt (ties.tail.headD 0) pq1 hne1
      rw [hright]
      simp only
      have hlen2 : (pq1.eraseIdx (topIndex (ties.tail.headD 0) pq1)).length
          = pq1.length - 1 := by
        rw [List.length_eraseIdx, if_pos hj]
      have hp1 : pq.Perm (left :: pq1) := by
        rw [← hpq1]
        exact perm_cons_eraseIdx pq _ _ hleft
      have hp2 := perm_cons_eraseIdx pq1 _ _ hright
      generalize pq1.eraseIdx (topIndex (ties.tail.headD 0) pq1) = pq2 at hlen2 hp2
      have hperm : pq.Perm (left :: right :: pq2) := hp1.trans (List.Perm.cons left hp2)
      have hminr2 : ∀ b ∈ pq2, right.freq ≤ b.freq := fun b hb =>
        hminr b (hp2.mem_iff.2 (List.mem_cons_of_mem _ hb))
      exact ih ties.tail.tail (pq2 ++ [Node.mk2 left right]) (by simp)
        (by simp only [List.length_append, List.length_singleton]; omega)
        (hstep pq left right pq2 hperm hminl hminr2 hP)
    · simp only [hgt, if_false]
      match pq, hne, hgt, hP with
      | [x], _, _, hP => exact ⟨x, rfl, hP⟩
      | x :: y :: rest, _, hgt, _ => simp at hgt

/-- Induction over `buildHuffmanTree`: the function returns a tree for every non-empty table,
and a property that holds for the queue of initial leaves and is preserved by every merge
holds for the returned tree. -/
theorem buildHuffmanTree_induction (P : List Node → Prop)
    (hstep : ∀ (pq : List Node) (left right : Node) (rest : List Node),
      pq.Perm (left :: right :: rest) → (∀ b ∈ pq, left.freq ≤ b.freq) →
      (∀ b ∈ rest, right.freq ≤ b.freq) → P pq → P (rest ++ [Node.mk2 left right]))
    (ties : List Nat) (freq : FreqMap) (hne : freq ≠ [])
    (h0 : P (freq.map (fun p => Node.leaf p.1 p.2))) :
    ∃ t, buildHuffmanTree ties freq = some t ∧ P [t] := by
  have hne2 : freq.map (fun p => Node.leaf p.1 p.2) ≠ [] := by simpa using hne
  obtain ⟨t, ht, hP⟩ := mergeLoop_induction P hstep _ ties _ hne2 (le_refl _) h0
  refine ⟨t, ?_, hP⟩
  unfold buildHuffmanTree
  simp only [List.isEmpty_eq_true, List.map_eq_nil_iff, hne, if_false]
  simpa using ht

end Huffman

namespace Huffman

/-! ## Shape of the built tree -/

theorem queueLeaves_append (a b : List Node) :
    queueLeaves (a ++ b) = queueLeaves a ++ queueLeaves b := by
  induction a with
  | nil => simp [queueLeaves]
  | cons x xs ih => simp [queueLeaves, ih]

theorem queueLeaves_perm {a b : List Node} (h : a.Perm b) :
    (queueLeaves a).Perm (queueLeaves b) := by
  induction h with
  | nil => exact List.Perm.refl _
  | cons x _ ih => exact List.Perm.append_left _ ih
  | swap x y l =>
    simp only [queueLeaves, ← List.append_assoc]
    exact List.Perm.append_right _ List.perm_append_comm
  | trans _ _ ih1 ih2 => exact ih1.trans ih2

theorem queueLeaves_initial (freq : FreqMap) :
    queueLeaves (freq.map (fun p => Node.leaf p.1 p.2)) = freq := by
  induction freq with
  | nil => rfl
  | cons x xs ih => simp [queueLeaves, Node.leaves, ih]

/-- One merge keeps the leaves of the queue. -/
theorem queueLeaves_merge (pq : List Node) (left right : Node) (rest : List Node)
    (h : pq.Perm (left :: right :: rest)) :
    (queueLeaves (rest ++ [Node.mk2 left right])).Perm (queueLeaves pq) := by
  refine List.Perm.trans ?_ (queueLeaves_perm h).symm
  rw [queueLeaves_append]
  simp only [queueLeaves, Node.mk2, Node.leaves, List.append_nil]
  refine List.perm_append_comm.trans ?_
  simp only [List.append_assoc]
  exact List.Perm.refl _

theorem totalFreq_append (a b : FreqMap) : totalFreq (a ++ b) = totalFreq a + totalFreq b := by
  induction a with
  | nil => simp [totalFreq]
  | cons x xs ih =>
    show x.2 + totalFreq (xs ++ b) = x.2 + totalFreq xs + totalFreq b
    rw [ih]
    omega

theorem totalFreq_perm {a b : FreqMap} (h : a.Perm b) : totalFreq a = totalFreq b := by
  induction h with
  | nil => rfl
  | cons x _ ih => simp [totalFreq, ih]
  | swap x y l =>
    simp only [totalFreq]
    omega
  | trans _ _ ih1 ih2 => exact ih1.trans ih2

theorem totalFreq_nonneg (a : FreqMap) (h : ∀ p ∈ a, 0 ≤ p.2) : 0 ≤ totalFreq a := by
  induction a with
  | nil => simp [totalFreq]
  | cons x xs ih =>
    have h1 := h x (by simp)
    have h2 := ih (fun p hp => h p (List.mem_cons_of_mem _ hp))
    simp only [totalFreq]
    omega

/-- The leaves of the built tree are the entries of the table. -/
theorem buildHuffmanTree_leaves (ties : List Nat) (freq : FreqMap) (hne : freq ≠ []) :
    ∃ t, buildHuffmanTree ties freq = some t ∧ t.leaves.Perm freq := by
  obtain ⟨t, ht, hP⟩ := buildHuffmanTree_induction (fun pq => (queueLeaves pq).Perm freq)
    (fun pq left right rest hperm _ _ hP => (queueLeaves_merge pq left right rest hperm).trans hP)
    ties freq hne (by
      show (queueLeaves (freq.map (fun p => Node.leaf p.1 p.2))).Perm freq
      rw [queueLeaves_initial])
  exact ⟨t, ht, by simpa [queueLeaves] using hP⟩

/-- Without `int` overflow (frequencies not negative, their sum below 2^31) every node of the
built tree stores the sum of the frequencies of its leaves. -/
theorem buildHuffmanTree_freqIsSum (ties : List Nat) (freq : FreqMap) (hne : freq ≠ [])
    (hpos : ∀ p ∈ freq, 0 ≤ p.2) (hsum : totalFreq freq < 2147483648) :
    ∃ t, buildHuffmanTree ties freq = some t ∧ t.leaves.Perm freq ∧ t.freqIsSum
      ∧ t.freq = totalFreq freq := by
  obtain ⟨t, ht, hP⟩ := buildHuffmanTree_induction
    (fun pq => (queueLeaves pq).Perm freq
      ∧ ∀ n ∈ pq, n.freqIsSum ∧ n.freq = totalFreq n.leaves)
    (by
      intro pq left right rest hperm _ _ hP
      obtain ⟨hl, hn⟩ := hP
      have hl2 := (queueLeaves_perm hperm).symm.trans hl
      refine ⟨(queueLeaves_merge pq left right rest hperm).trans hl, ?_⟩
      have hleft := hn left (hperm.mem_iff.2 (by simp))
      have hright := hn right (hperm.mem_iff.2 (by simp))
      have htot : totalFreq freq
          = totalFreq left.leaves + (totalFreq right.leaves + totalFreq (queueLeaves rest)) := by
        rw [← totalFreq_perm hl2]
        simp only [queueLeaves, totalFreq_append]
      have hnn : ∀ (a : FreqMap), (∀ p ∈ a, p ∈ queueLeaves (left :: right :: rest)) →
          0 ≤ totalFreq a := fun a ha =>
        totalFreq_nonneg a (fun p hp => hpos p (hl2.mem_iff.1 (ha p hp)))
      have h1 := hnn left.leaves (fun p hp => by simp [queueLeaves, hp])
      have h2 := hnn right.leaves (fun p hp => by simp [queueLeaves, hp])
      have h3 := hnn (queueLeaves rest) (fun p hp => by simp [queueLeaves, hp])
      have hw : wrapInt32 (left.freq + right.freq) = left.freq + right.freq :=
        wrapInt32_of_bounds _ (by omega) (by omega)
      intro n hmem
      rcases List.mem_append.1 hmem with hmem | hmem
      · exact hn n (hperm.mem_iff.2 (by simp [hmem]))
      · have hn2 : n = Node.mk2 left right := by simpa using hmem
        subst hn2
        show (wrapInt32 (left.freq + right.freq) = left.freq + right.freq
            ∧ left.freqIsSum ∧ right.freqIsSum)
          ∧ wrapInt32 (left.freq + right.freq) = totalFreq (left.leaves ++ right.leaves)
        rw [hw, totalFreq_append]
        exact ⟨⟨rfl, hleft.1, hright.1⟩, by omega⟩)
    ties freq hne
    (by
      refine ⟨?_, fun n hmem => ?_⟩
      · show (queueLeaves (freq.map (fun p => Node.leaf p.1 p.2))).Perm freq
        rw [queueLeaves_initial]
      · obtain ⟨p, _, hp⟩ := List.mem_map.1 hmem
        subst hp
        exact ⟨trivial, by simp [Node.freq, Node.leaves, totalFreq]⟩)
  obtain ⟨hl, hn⟩ := hP
  have hl2 : t.leaves.Perm freq := by simpa [queueLeaves] using hl
  have ht2 := hn t (by simp)
  exact ⟨t, ht, hl2, ht2.1, by rw [ht2.2, totalFreq_perm hl2]⟩

/-- C18: for a non-empty frequency table with `L` entries `buildHuffmanTree` returns a tree
(never null); every internal node has its two children, the tree has `L` leaves and `L - 1`
internal nodes, its leaves are exactly the entries of the table, each once with its own
frequency, and, when the `int` sums do not overflow (frequencies not negative, total below
2^31), every internal node stores the sum of its two children's frequencies. -/
theorem tree_shape_invariant (ties : List Nat) (freq : FreqMap) (hne : freq ≠ []) :
    ∃ t, buildHuffmanTree ties freq = some t
      ∧ t.leaves.Perm freq
      ∧ t.symbols.Perm (freq.map Prod.fst)
      ∧ t.symbols.length = freq.length
      ∧ t.internalCount = freq.length - 1
      ∧ ((∀ p ∈ freq, 0 ≤ p.2) → totalFreq freq < 2147483648 →
          t.freqIsSum ∧ t.freq = totalFreq freq) := by
  obtain ⟨t, ht, hl⟩ := buildHuffmanTree_leaves ties freq hne
  have hsym : t.symbols.Perm (freq.map Prod.fst) := by
    rw [← leaves_map_fst]
    exact hl.map _
  have hlen : t.symbols.length = freq.length := by
    rw [hsym.length_eq, List.length_map]
  have hic := internalCount_add_one t
  refine ⟨t, ht, hl, hsym, hlen, by omega, fun hpos hsum => ?_⟩
  obtain ⟨t2, ht2, _, h1, h2⟩ := buildHuffmanTree_freqIsSum ties freq hne hpos hsum
  rw [ht] at ht2
  cases ht2
  exact ⟨h1, h2⟩

/-- Witness for C18 on the table with frequencies 5, 2, 1 for the bytes 65, 66, 67. -/
theorem tree_shape_invariant_witness :
    ∃ t, buildHuffmanTree [] [(65, 5), (66, 2), (67, 1)] = some t
      ∧ t.leaves.Perm [(65, 5), (66, 2), (67, 1)]
      ∧ t.symbols.Perm [65, 66, 67]
      ∧ t.symbols.length = 3
      ∧ t.internalCount = 2
      ∧ t.freqIsSum ∧ t.freq = 8 := by
  obtain ⟨t, h1, h2, h3, h4, h5, h6⟩ :=
    tree_shape_invariant [] [(65, 5), (66, 2), (67, 1)] (by decide)
  exact ⟨t, h1, h2, h3, h4, h5, h6 (by decide) (by decide)⟩

/-- C20: the depth of the tree built from a non-empty table with `L` entries is below `L`, and
every code of its code table has at most `L` characters. -/
theorem depth_bound (ties : List Nat) (freq : FreqMap) (hne : freq ≠ [])
    (hkeys : (freq.map Prod.fst).Nodup) :
    ∃ t, buildHuffmanTree ties freq = some t
      ∧ t.depth + 1 ≤ freq.length
      ∧ ∀ k c, codeTable (some t) k = some c → c.length ≤ freq.length := by
  obtain ⟨t, ht, hperm, _⟩ := buildHuffmanTree_spec ties freq hne
  have hnd : t.symbols.Nodup := hperm.nodup_iff.2 hkeys
  have hlen : t.symbols.length = freq.length := by
    rw [hperm.length_eq, List.length_map]
  have hd := depth_lt_symbols_length t
  refine ⟨t, ht, by omega, fun k c hc => ?_⟩
  obtain ⟨p, hp, hcp⟩ := codeTable_eq_some t hnd k c hc
  have hpl := leafAt_length_le_depth t p k hp
  subst hcp
  split
  · simp only [List.length_singleton]
    omega
  · simp only [pathCode, List.length_map]
    omega

/-- Witness for C20 on the table with frequencies 5, 2, 1 for the bytes 65, 66, 67. -/
theorem depth_bound_witness :
    ∃ t, buildHuffmanTree [] [(65, 5), (66, 2), (67, 1)] = some t
      ∧ t.depth + 1 ≤ 3
      ∧ ∀ k c, codeTable (some t) k = some c → c.length ≤ 3 :=
  depth_bound [] [(65, 5), (66, 2), (67, 1)] (by decide) (by decide)

end Huffman

namespace Huffman

/-! ## The three-symbol scenario -/

/-- C13: for the frequencies A = 5, B = 2, C = 1, entered in any order and under every
tie-breaking, `buildHuffmanTree` merges the leaves C and B into a node of frequency 3 and then
that node and A into the root of frequency 8; the code of A has one character, the codes of B
and C have two. -/
theorem three_symbol_scenario (ties : List Nat) (freq : FreqMap)
    (hfreq : freq.Perm [(65, 5), (66, 2), (67, 1)]) :
    buildHuffmanTree ties freq
        = some (Node.internal 8 (Node.internal 3 (Node.leaf 67 1) (Node.leaf 66 2))
            (Node.leaf 65 5))
      ∧ codeTable (buildHuffmanTree ties freq) 65 = some ['1']
      ∧ codeTable (buildHuffmanTree ties freq) 66 = some ['0', '1']
      ∧ codeTable (buildHuffmanTree ties freq) 67 = some ['0', '0'] := by
  have hne : freq ≠ [] := by
    intro h
    rw [h] at hfreq
    simpa using hfreq.length_eq
  have key : ∃ t, buildHuffmanTree ties freq = some t
      ∧ ([t].Perm [Node.leaf 65 5, Node.leaf 66 2, Node.leaf 67 1]
        ∨ [t].Perm [Node.leaf 65 5, Node.internal 3 (Node.leaf 67 1) (Node.leaf 66 2)]
        ∨ [t] = [Node.internal 8 (Node.internal 3 (Node.leaf 67 1) (Node.leaf 66 2))
            (Node.leaf 65 5)]) := by
    refine buildHuffmanTree_induction
      (fun pq => pq.Perm [Node.leaf 65 5, Node.leaf 66 2, Node.leaf 67 1]
        ∨ pq.Perm [Node.leaf 65 5, Node.internal 3 (Node.leaf 67 1) (Node.leaf 66 2)]
        ∨ pq = [Node.internal 8 (Node.internal 3 (Node.leaf 67 1) (Node.leaf 66 2))
            (Node.leaf 65 5)])
      ?_ ties freq hne (Or.inl (hfreq.map _))
    intro pq left right rest hperm hminl hminr hP
    rcases hP with hP | hP | hP
    · -- first iteration: C and B leave the queue
      have hl : left ∈ [Node.leaf 65 5, Node.leaf 66 2, Node.leaf 67 1] :=
        hP.mem_iff.1 (hperm.mem_iff.2 (by simp))
      have hC := hminl (Node.leaf 67 1) (hP.mem_iff.2 (by simp))
      have hleft : left = Node.leaf 67 1 := by
        simp only [List.mem_cons, List.mem_singleton, List.not_mem_nil, or_false] at hl
        rcases hl with h | h | h
        · rw [h] at hC; exact absurd hC (by decide)
        · rw [h] at hC; exact absurd hC (by decide)
        · exact h
      subst hleft
      have h2 : (right :: rest).Perm [Node.leaf 65 5, Node.leaf 66 2] := by
        have h3 : (Node.leaf 67 1 :: right :: rest).Perm
            (Node.leaf 67 1 :: [Node.leaf 65 5, Node.leaf 66 2]) :=
          hperm.symm.trans (hP.trans (by decide))
        exact (List.perm_cons _).1 h3
      have hr : right ∈ [Node.leaf 65 5, Node.leaf 66 2] := h2.mem_iff.1 (by simp)
      have hright : right = Node.leaf 66 2 := by
        simp only [List.mem_cons, List.mem_singleton, List.not_mem_nil, or_false] at hr
        rcases hr with h | h
        · subst h
          have h4 : rest.Perm [Node.leaf 66 2] := (List.perm_cons _).1 h2
          have := hminr (Node.leaf 66 2) (h4.mem_iff.2 (by simp))
          exact absurd this (by decide)
        · exact h
      subst hright
      have h4 : rest.Perm [Node.leaf 65 5] :=
        (List.perm_cons _).1 (h2.trans (by decide))
      have h5 : rest = [Node.leaf 65 5] := List.perm_singleton.1 h4
      subst h5
      right; left
      exact List.Perm.refl _
    · -- second iteration: the node of frequency 3 and A leave the queue
      have hl : left ∈ [Node.leaf 65 5, Node.internal 3 (Node.leaf 67 1) (Node.leaf 66 2)] :=
        hP.mem_iff.1 (hperm.mem_iff.2 (by simp))
      have hN := hminl (Node.internal 3 (Node.leaf 67 1) (Node.leaf 66 2))
        (hP.mem_iff.2 (by simp))
      have hleft : left = Node.internal 3 (Node.leaf 67 1) (Node.leaf 66 2) := by
        simp only [List.mem_cons, List.mem_singleton, List.not_mem_nil, or_false] at hl
        rcases hl with h | h
        · rw [h] at hN; exact absurd hN (by decide)
        · exact h
      subst hleft
      have h2 : (right :: rest).Perm [Node.leaf 65 5] := by
        have h3 : (Node.internal 3 (Node.leaf 67 1) (Node.leaf 66 2) :: right :: rest).Perm
            (Node.internal 3 (Node.leaf 67 1) (Node.leaf 66 2) :: [Node.leaf 65 5]) :=
          hperm.symm.trans (hP.trans (by decide))
        exact (List.perm_cons _).1 h3
      have h5 : right :: rest = [Node.leaf 65 5] := List.perm_singleton.1 h2
      obtain ⟨h6, h7⟩ := List.cons.inj h5
      subst h6 h7
      right; right
      rfl
    · -- a queue of one node is not merged
      subst hP
      have := hperm.length_eq
      simp at this
  obtain ⟨t, ht, hP⟩ := key
  have htree : t = Node.internal 8 (Node.internal 3 (Node.leaf 67 1) (Node.leaf 66 2))
      (Node.leaf 65 5) := by
    rcases hP with hP | hP | hP
    · have := hP.length_eq
      simp at this
    · have := hP.length_eq
      simp at this
    · exact List.head_eq_of_cons_eq hP
  subst htree
  rw [ht]
  exact ⟨rfl, by decide, by decide, by decide⟩

/-- Witness for C13 with the entries in the order C, A, B. -/
theorem three_symbol_scenario_witness :
    buildHuffmanTree [1, 0, 2] [(67, 1), (65, 5), (66, 2)]
        = some (Node.internal 8 (Node.internal 3 (Node.leaf 67 1) (Node.leaf 66 2))
            (Node.leaf 65 5))
      ∧ codeTable (buildHuffmanTree [1, 0, 2] [(67, 1), (65, 5), (66, 2)]) 65 = some ['1']
      ∧ codeTable (buildHuffmanTree [1, 0, 2] [(67, 1), (65, 5), (66, 2)]) 66 = some ['0', '1']
      ∧ codeTable (buildHuffmanTree [1, 0, 2] [(67, 1), (65, 5), (66, 2)]) 67
          = some ['0', '0'] :=
  three_symbol_scenario [1, 0, 2] [(67, 1), (65, 5), (66, 2)] (by decide)

end Huffman

namespace Huffman

/-! ## Decoding is bounded by the symbol count -/

theorem streamBits_append (p q : List Nat) :
    streamBits (p ++ q) = streamBits p ++ streamBits q := by
  induction p with
  | nil => rfl
  | cons x xs ih => simp [streamBits, ih]

/-- Once the declared count is reached on a bit sequence, any bits after it are ignored. -/
theorem decodeBits_append_of_full (root : Node) (n : Int) (a b : List Bool)
    (st0 st : DecodeState) (h : decodeBits root n a st0 = some st)
    (hfull : ¬ st.decodedChars < n) : decodeBits root n (a ++ b) st0 = some st := by
  rw [decodeBits_append, h]
  exact decodeBits_done root n b st hfull

/-- C17: with a tree of at least two leaves and a count `n ≥ 0` the decoding loop ends without
fault and never emits more than `n` symbols; when it emits `n` symbols on a payload `p`, it
emits exactly the same symbols on `p` followed by any `q`, and on every payload that agrees
with `p` on a bit prefix within which the `n` symbols are decoded (so padding bits and later
bytes are never read as data). -/
theorem count_bounded_decoding (root : Node) (hroot : root.isLeaf = false) (n : Int)
    (hn : 0 ≤ n) (p : List Nat) :
    ∃ st, decodeLoop root n p ⟨root, 0, []⟩ = some st
      ∧ (st.out.length : Int) ≤ n
      ∧ ((st.out.length : Int) = n →
          (∀ q, decodeLoop root n (p ++ q) ⟨root, 0, []⟩ = some st)
          ∧ ∀ (p2 : List Nat) (k : Nat) (st2 : DecodeState),
              decodeBits root n ((streamBits p).take k) ⟨root, 0, []⟩ = some st2 →
              (st2.out.length : Int) = n →
              (streamBits p2).take k = (streamBits p).take k →
              decodeLoop root n p2 ⟨root, 0, []⟩ = some st) := by
  obtain ⟨st, e1, _, e3, e4, _⟩ :=
    decodeBits_internal root n hroot (streamBits p) ⟨root, 0, []⟩ hroot rfl hn
  refine ⟨st, by rw [decodeLoop_eq_decodeBits, e1], by omega, fun hfull => ⟨fun q => ?_, ?_⟩⟩
  · rw [decodeLoop_eq_decodeBits, streamBits_append]
    exact decodeBits_append_of_full root n _ _ _ st e1 (by omega)
  · intro p2 k st2 h2 hfull2 hagree
    obtain ⟨st3, f1, _, f3, _, _⟩ :=
      decodeBits_internal root n hroot ((streamBits p).take k) ⟨root, 0, []⟩ hroot rfl hn
    rw [h2] at f1
    cases f1
    have hst2 : ¬ st2.decodedChars < n := by omega
    have hp : decodeBits root n (streamBits p) ⟨root, 0, []⟩ = some st2 := by
      rw [← List.take_append_drop k (streamBits p)]
      exact decodeBits_append_of_full root n _ _ _ st2 h2 hst2
    rw [e1] at hp
    cases hp
    rw [decodeLoop_eq_decodeBits, ← List.take_append_drop k (streamBits p2), hagree]
    exact decodeBits_append_of_full root n _ _ _ st h2 hst2

/-- Witness for C17: the tree with codes A = 0, B = 1, the count 3 and the payload byte
0b01000000; the byte 0b01011111 has the same first three bits. -/
theorem count_bounded_decoding_witness :
    ∃ st, decodeLoop (Node.internal 0 (Node.leaf 65 0) (Node.leaf 66 0)) 3 [64]
          ⟨Node.internal 0 (Node.leaf 65 0) (Node.leaf 66 0), 0, []⟩ = some st
      ∧ st.out = [65, 66, 65]
      ∧ decodeLoop (Node.internal 0 (Node.leaf 65 0) (Node.leaf 66 0)) 3 ([64] ++ [255, 255])
          ⟨Node.internal 0 (Node.leaf 65 0) (Node.leaf 66 0), 0, []⟩ = some st
      ∧ decodeLoop (Node.internal 0 (Node.leaf 65 0) (Node.leaf 66 0)) 3 [95]
          ⟨Node.internal 0 (Node.leaf 65 0) (Node.leaf 66 0), 0, []⟩ = some st := by
  obtain ⟨st, h1, _, h3⟩ := count_bounded_decoding
    (Node.internal 0 (Node.leaf 65 0) (Node.leaf 66 0)) rfl 3 (by decide) [64]
  have hst : st = ⟨Node.internal 0 (Node.leaf 65 0) (Node.leaf 66 0), 3, [65, 66, 65]⟩ := by
    have h0 : decodeLoop (Node.internal 0 (Node.leaf 65 0) (Node.leaf 66 0)) 3 [64]
        ⟨Node.internal 0 (Node.leaf 65 0) (Node.leaf 66 0), 0, []⟩
        = some ⟨Node.internal 0 (Node.leaf 65 0) (Node.leaf 66 0), 3, [65, 66, 65]⟩ := by
      decide
    rw [h0] at h1
    exact (Option.some.inj h1).symm
  subst hst
  obtain ⟨h4, h5⟩ := h3 (by decide)
  exact ⟨_, h1, rfl, h4 [255, 255],
    h5 [95] 3 ⟨Node.internal 0 (Node.leaf 65 0) (Node.leaf 66 0), 3, [65, 66, 65]⟩
      (by decide) (by decide) (by decide)⟩

end Huffman

namespace Huffman

/-! ## The bit packer -/

theorem packLoop_eq_foldl (codes : CodeMap) :
    ∀ (input : List Nat) (st : PackState),
      packLoop codes input st = (codeStream codes input).foldl packBit st := by
  intro input
  induction input with
  | nil => intro st; rfl
  | cons ch rest ih =>
    intro st
    simp only [packLoop, codeStream, List.foldl_append, ih]

theorem lowBits_double (b x : Nat) (hx : x < 2) :
    ∀ k, lowBits (2 * b + x) (k + 1) = lowBits b k ++ [decide (x = 1)] := by
  intro k
  induction k with
  | zero =>
    have h : (2 * b + x) / 2 ^ 0 % 2 = x := by
      simp only [pow_zero, Nat.div_one]
      omega
    simp only [lowBits, h, List.nil_append]
  | succ k ih =>
    have h1 : 2 ^ (k + 1) = 2 * 2 ^ k := by ring
    have h2 : (2 * b + x) / 2 = b := by omega
    have h3 : (2 * b + x) / 2 ^ (k + 1) = b / 2 ^ k := by
      rw [h1, ← Nat.div_div_eq_div_mul, h2]
    rw [lowBits, ih, h3]
    simp only [lowBits, List.cons_append]

theorem lowBits_shift (b k : Nat) :
    ∀ d, lowBits (b * 2 ^ d) (k + d) = lowBits b k ++ List.replicate d false := by
  intro d
  induction d with
  | zero => simp
  | succ d ih =>
    have h1 : b * 2 ^ (d + 1) = 2 * (b * 2 ^ d) + 0 := by ring
    have h2 : k + (d + 1) = (k + d) + 1 := by omega
    rw [h1, h2, lowBits_double _ 0 (by omega), ih]
    simp [List.replicate_succ']

theorem packBit_buffer (b : Nat) (c : Char) (hb : b < 128) :
    (if c = '1' then (b * 2) % 256 ||| 1 else (b * 2) % 256)
      = 2 * b + (if c = '1' then 1 else 0) := by
  have t1 : ∀ m < 128, ((m * 2) % 256) ||| 1 = m * 2 + 1 := by decide
  by_cases hc : c = '1'
  · rw [if_pos hc, if_pos hc, t1 b hb]
    omega
  · rw [if_neg hc, if_neg hc]
    omega

theorem packBit_inv (st : PackState) (bits : List Bool) (c : Char) (h : PackInv st bits) :
    PackInv (packBit st c) (bits ++ [charBit c]) := by
  obtain ⟨hk, hb, hlen, hbits⟩ := h
  have hpow : 2 ^ st.bitCount ≤ 2 ^ 7 := Nat.pow_le_pow_right (by norm_num) (by omega)
  have hb128 : st.buffer < 128 := by omega
  have hx : (if c = '1' then 1 else 0) < 2 := by split <;> omega
  have hcb : decide ((if c = '1' then 1 else 0) = 1) = charBit c := by
    unfold charBit
    by_cases hc : c = '1' <;> simp [hc]
  have hlow := lowBits_double st.buffer (if c = '1' then 1 else 0) hx st.bitCount
  rw [hcb] at hlow
  unfold packBit
  simp only [packBit_buffer st.buffer c hb128]
  by_cases h8 : st.bitCount + 1 = 8
  · rw [if_pos h8]
    refine ⟨by simp, by simp, ?_, ?_⟩
    · simp only [List.length_append, List.length_singleton]
      omega
    · rw [h8] at hlow
      simp only [streamBits_append, streamBits, lowBits, List.append_nil]
      rw [← hbits, List.append_assoc, ← hlow]
      simp only [lowBits]
  · rw [if_neg h8]
    refine ⟨by simp only; omega, ?_, ?_, ?_⟩
    · simp only [pow_succ]
      omega
    · simp only [List.length_append, List.length_singleton]
      omega
    · simp only
      rw [hlow, ← List.append_assoc, hbits]

theorem foldl_packBit_inv :
    ∀ (cs : List Char) (st : PackState) (bits : List Bool), PackInv st bits →
      PackInv (cs.foldl packBit st) (bits ++ cs.map charBit) := by
  intro cs
  induction cs with
  | nil => intro st bits h; simpa using h
  | cons c cs ih =>
    intro st bits h
    have := ih (packBit st c) (bits ++ [charBit c]) (packBit_inv st bits c h)
    simpa using this

theorem packInv_initial : PackInv ⟨0, 0, []⟩ [] := by
  refine ⟨by simp, by simp, rfl, rfl⟩

/-- The state of the packer after the second reading loop of `compressFile`. -/
theorem packLoop_inv (codes : CodeMap) (input : List Nat) :
    PackInv (packLoop codes input ⟨0, 0, []⟩) ((codeStream codes input).map charBit) := by
  rw [packLoop_eq_foldl]
  have := foldl_packBit_inv (codeStream codes input) ⟨0, 0, []⟩ [] packInv_initial
  simpa using this

/-- The bits of the bytes written by the packer are the bits handed to it, followed by the
zero bits that fill the last byte. -/
theorem packFlush_bits (st : PackState) (bits : List Bool) (h : PackInv st bits) :
    streamBits (packFlush st) = bits ++ List.replicate ((8 - st.bitCount) % 8) false
      ∧ (packFlush st).length = (bits.length + 7) / 8 := by
  obtain ⟨hk, hb, hlen, hbits⟩ := h
  unfold packFlush
  by_cases h0 : st.bitCount > 0
  · rw [if_pos h0]
    have hval : st.buffer * 2 ^ (8 - st.bitCount) < 256 := by
      have h1 : 2 ^ st.bitCount * 2 ^ (8 - st.bitCount) = 256 := by
        rw [← pow_add]
        have : st.bitCount + (8 - st.bitCount) = 8 := by omega
        rw [this]
        norm_num
      have h2 : st.buffer * 2 ^ (8 - st.bitCount) < 2 ^ st.bitCount * 2 ^ (8 - st.bitCount) :=
        Nat.mul_lt_mul_of_pos_right hb (by positivity)
      omega
    have hshift := lowBits_shift st.buffer st.bitCount (8 - st.bitCount)
    have h8 : st.bitCount + (8 - st.bitCount) = 8 := by omega
    rw [h8] at hshift
    have hmod : (8 - st.bitCount) % 8 = 8 - st.bitCount := Nat.mod_eq_of_lt (by omega)
    constructor
    · rw [streamBits_append, Nat.mod_eq_of_lt hval, hmod]
      simp only [streamBits, List.append_nil]
      rw [hshift, ← List.append_assoc, hbits]
    · simp only [List.length_append, List.length_singleton]
      omega
  · rw [if_neg h0]
    have hz : st.bitCount = 0 := by omega
    constructor
    · rw [hz] at hbits
      simp only [lowBits, List.append_nil] at hbits
      rw [hz, hbits]
      simp
    · omega

end Huffman

namespace Huffman

theorem lowBits_eight_getD (b k : Nat) (hk : k < 8) :
    (lowBits b 8).getD k false = decide ((b / 2 ^ (7 - k)) % 2 = 1) := by
  interval_cases k <;> rfl

/-- Bit `k` of a byte sequence is bit `7 - k % 8` of byte `k / 8`. -/
theorem streamBits_getD :
    ∀ (p : List Nat) (k : Nat), k < 8 * p.length →
      (streamBits p).getD k false
        = decide ((p.getD (k / 8) 0 / 2 ^ (7 - k % 8)) % 2 = 1) := by
  intro p
  induction p with
  | nil => intro k hk; simp at hk
  | cons b rest ih =>
    intro k hk
    simp only [streamBits]
    by_cases h8 : k < 8
    · have h1 : k / 8 = 0 := by omega
      have h2 : k % 8 = k := by omega
      rw [List.getD_append _ _ _ _ (by rw [lowBits_length]; exact h8), h1, h2,
        lowBits_eight_getD b k h8]
      rfl
    · simp only [List.length_cons] at hk
      have h1 : k / 8 = (k - 8) / 8 + 1 := by omega
      have h2 : k % 8 = (k - 8) % 8 := by omega
      rw [List.getD_append_right _ _ _ _ (by rw [lowBits_length]; omega), lowBits_length,
        ih (k - 8) (by omega), h1, h2]
      rfl

/-- C16: with `n` the total number of code characters of the input, the payload has
`ceil(n / 8)` bytes; character `k` of the concatenated codes is stored in byte `k / 8` at bit
position `7 - k % 8` (the bit is 1 exactly for the character 1); when `n` is not a multiple
of 8 the `8 - n % 8` low bits of the last byte are zero; no byte is written when `n = 0`. -/
theorem bit_packer (codes : CodeMap) (input : List Nat) :
    (packPayload codes input).length = ((codeStream codes input).length + 7) / 8
      ∧ streamBits (packPayload codes input)
          = (codeStream codes input).map charBit
            ++ List.replicate ((8 - (codeStream codes input).length % 8) % 8) false
      ∧ (∀ k, k < (codeStream codes input).length →
          (((packPayload codes input).getD (k / 8) 0 / 2 ^ (7 - k % 8)) % 2 = 1
            ↔ (codeStream codes input).getD k '0' = '1'))
      ∧ ((codeStream codes input).length % 8 ≠ 0 →
          (packPayload codes input).getD ((codeStream codes input).length / 8) 0
            % 2 ^ (8 - (codeStream codes input).length % 8) = 0)
      ∧ ((codeStream codes input).length = 0 → packPayload codes input = []) := by
  have hinv := packLoop_inv codes input
  obtain ⟨hbits, hlen⟩ := packFlush_bits _ _ hinv
  obtain ⟨hk, hb, hl, _⟩ := hinv
  simp only [List.length_map] at hl hlen
  have hcount : (packLoop codes input ⟨0, 0, []⟩).bitCount
      = (codeStream codes input).length % 8 := by omega
  have hout : (packLoop codes input ⟨0, 0, []⟩).out.length
      = (codeStream codes input).length / 8 := by omega
  rw [hcount] at hbits
  have hlen2 : (packPayload codes input).length = ((codeStream codes input).length + 7) / 8 :=
    hlen
  have hbits2 : streamBits (packPayload codes input)
      = (codeStream codes input).map charBit
        ++ List.replicate ((8 - (codeStream codes input).length % 8) % 8) false := hbits
  refine ⟨hlen2, hbits2, ?_, ?_, ?_⟩
  · intro k hklt
    have h1 := streamBits_getD (packPayload codes input) k (by rw [hlen2]; omega)
    rw [hbits2, List.getD_append _ _ _ _ (by rw [List.length_map]; exact hklt)] at h1
    rw [List.getD_eq_getElem _ _ (by rw [List.length_map]; exact hklt), List.getElem_map] at h1
    rw [List.getD_eq_getElem _ _ hklt]
    unfold charBit at h1
    constructor
    · intro h
      have := h1.symm ▸ (decide_eq_true h)
      exact of_decide_eq_true this
    · intro h
      have := h1 ▸ (decide_eq_true h)
      exact of_decide_eq_true this
  · intro hne
    have hpos : (packLoop codes input ⟨0, 0, []⟩).bitCount > 0 := by omega
    have hpay : packPayload codes input
        = (packLoop codes input ⟨0, 0, []⟩).out
          ++ [((packLoop codes input ⟨0, 0, []⟩).buffer
              * 2 ^ (8 - (packLoop codes input ⟨0, 0, []⟩).bitCount)) % 256] := by
      unfold packPayload packFlush
      rw [if_pos hpos]
    rw [hpay, ← hout, List.getD_append_right _ _ _ _ (le_refl _), Nat.sub_self, hcount]
    simp only [List.getD_cons_zero]
    have hdvd : 2 ^ (8 - (codeStream codes input).length % 8) ∣ 256 := by
      have : (256 : Nat) = 2 ^ 8 := by norm_num
      rw [this]
      exact pow_dvd_pow 2 (by omega)
    rw [Nat.mod_mod_of_dvd _ hdvd]
    exact Nat.mul_mod_left _ _
  · intro h0
    rw [h0] at hlen2
    exact List.length_eq_zero.1 (by simpa using hlen2)

end Huffman

namespace Huffman

/-! ## Layout of the compressed file -/

theorem countLoop_total :
    ∀ (b : List Nat) (st : FreqMap × Int), -2147483648 ≤ st.2 →
      st.2 + b.length < 2147483648 → (countLoop b st).2 = st.2 + b.length := by
  intro b
  induction b with
  | nil => intro st _ _; simp [countLoop]
  | cons ch rest ih =>
    intro st h1 h2
    simp only [List.length_cons, Nat.cast_add, Nat.cast_one] at h2
    have hw : wrapInt32 (st.2 + 1) = st.2 + 1 := wrapInt32_of_bounds _ (by omega) (by omega)
    rw [countLoop, ih _ (by simp only [hw]; omega) (by simp only [hw]; omega)]
    simp only [hw, List.length_cons, Nat.cast_add, Nat.cast_one]
    omega

theorem nodup_length_le (l : List Nat) (n : Nat) (hnd : l.Nodup) (hlt : ∀ x ∈ l, x < n) :
    l.length ≤ n := by
  have hsub : l ⊆ List.range n := fun x hx => List.mem_range.2 (hlt x hx)
  have := (List.subperm_of_subset hnd hsub).length_le
  simpa using this

/-- The frequency table of a byte sequence has at most 256 entries. -/
theorem countFreq_length_le (b : List Nat) (hbytes : ∀ x ∈ b, x < 256) :
    (countFreq b).length ≤ 256 := by
  have h := nodup_length_le ((countFreq b).map Prod.fst) 256 (countFreq_nodup b)
    (fun x hx => hbytes x ((countFreq_mem b x).1 hx))
  simpa using h

/-- Function `compressFile` on an input whose count is not zero, written out. -/
theorem compressFile_of_count (ties : List Nat) (input origExt : List Nat)
    (h : (countLoop input ([], 0)).2 ≠ 0) :
    compressFile ties input origExt
      = (Status.success,
          magic
          ++ writeInt32 (wrapInt32 origExt.length)
          ++ (if wrapInt32 origExt.length > 0 then
                origExt.take (wrapInt32 origExt.length).toNat else [])
          ++ writeInt32 (wrapInt32
              (serializeTreePtr (buildHuffmanTree ties (countLoop input ([], 0)).1)).length)
          ++ (if wrapInt32
                (serializeTreePtr (buildHuffmanTree ties (countLoop input ([], 0)).1)).length > 0
              then (serializeTreePtr (buildHuffmanTree ties (countLoop input ([], 0)).1)).take
                (wrapInt32 (serializeTreePtr
                  (buildHuffmanTree ties (countLoop input ([], 0)).1)).length).toNat
              else [])
          ++ writeInt32 (countLoop input ([], 0)).2
          ++ packPayload
              (buildCodesPtr (buildHuffmanTree ties (countLoop input ([], 0)).1) []
                CodeMap.empty) input) := by
  unfold compressFile
  rw [if_neg h]

theorem take_wrapInt32_length (a : List Nat) (h : a.length < 2147483648) :
    (if wrapInt32 a.length > 0 then a.take (wrapInt32 a.length).toNat else []) = a := by
  rw [wrapInt32_of_bounds _ (by omega) (by omega)]
  cases a with
  | nil => simp
  | cons x xs =>
    have hpos : ((x :: xs).length : Int) > 0 := by
      simp only [List.length_cons]
      omega
    rw [if_pos hpos]
    simp

/-- The output of `compressFile` for a non-empty input of fewer than 2^31 bytes. -/
theorem compressFile_layout (ties : List Nat) (b e : List Nat) (hb : b ≠ [])
    (hlen : b.length < 2147483648) (hbytes : ∀ x ∈ b, x < 256)
    (he : e.length < 2147483648) :
    ∃ t, buildHuffmanTree ties (countFreq b) = some t
      ∧ (serializeTree t).length < 2147483648
      ∧ compressFile ties b e
        = (Status.success,
            fileLayout e (serializeTree t) b.length (packPayload (codeTable (some t)) b)) := by
  obtain ⟨t, ht, hperm, _⟩ := buildHuffmanTree_spec ties (countFreq b) (countFreq_ne_nil b hb)
  have hL : t.symbols.length ≤ 256 := by
    rw [hperm.length_eq, List.length_map]
    exact countFreq_length_le b hbytes
  have hser : (serializeTree t).length < 2147483648 := by
    have h1 := serializeTree_length t
    have h2 := internalCount_add_one t
    omega
  have htotal : (countLoop b ([], 0)).2 = b.length := by
    have := countLoop_total b ([], 0) (by simp) (by simp only; omega)
    simpa using this
  have hb0 : 0 < b.length := List.length_pos.2 hb
  have hne0 : (countLoop b ([], 0)).2 ≠ 0 := by
    rw [htotal]
    omega
  refine ⟨t, ht, hser, ?_⟩
  have ht2 : buildHuffmanTree ties (countLoop b ([], 0)).1 = some t := ht
  rw [compressFile_of_count ties b e hne0, ht2, htotal]
  simp only [serializeTreePtr]
  rw [take_wrapInt32_length e he, take_wrapInt32_length _ hser,
    wrapInt32_of_bounds _ (by omega) (by omega),
    wrapInt32_of_bounds ((serializeTree t).length : Int) (by omega) (by omega)]
  rfl

/-- C12: for a non-empty byte sequence `b` of fewer than 2^31 bytes and an extension `e`, the
output of `compressFile` is the concatenation of the 7 bytes `HUFTREE`, the 4-byte
little-endian length of `e`, the bytes of `e`, the 4-byte little-endian length of the
serialized tree, the serialized tree, the 4-byte little-endian value `|b|` and the packed
payload. -/
theorem compressed_file_layout (ties : List Nat) (b e : List Nat) (hb : b ≠ [])
    (hlen : b.length < 2147483648) (hbytes : ∀ x ∈ b, x < 256)
    (he : e.length < 2147483648) :
    compressFile ties b e
      = (Status.success,
          [72, 85, 70, 84, 82, 69, 69]
          ++ writeInt32 e.length ++ e
          ++ writeInt32 (serializeTreePtr (buildHuffmanTree ties (countFreq b))).length
          ++ serializeTreePtr (buildHuffmanTree ties (countFreq b))
          ++ writeInt32 b.length
          ++ packPayload (codeTable (buildHuffmanTree ties (countFreq b))) b)
      ∧ (∀ n : Nat, n < 2147483648 →
          writeInt32 n = [n % 256, n / 256 % 256, n / 65536 % 256, n / 16777216 % 256]) := by
  obtain ⟨t, ht, _, hc⟩ := compressFile_layout ties b e hb hlen hbytes he
  constructor
  · rw [hc, ht]
    rfl
  · intro n hn
    unfold writeInt32
    have : ((n : Int) % 4294967296).toNat = n := by omega
    simp only [this]

/-- Witness for C12 on the input 65 66 65 with the extension `txt`. -/
theorem compressed_file_layout_witness :
    compressFile [] [65, 66, 65] [116, 120, 116]
      = (Status.success,
          [72, 85, 70, 84, 82, 69, 69, 3, 0, 0, 0, 116, 120, 116, 5, 0, 0, 0,
            48, 49, 66, 49, 65, 3, 0, 0, 0, 160]) := by
  have h := (compressed_file_layout [] [65, 66, 65] [116, 120, 116] (by decide) (by decide)
    (by decide) (by decide)).1
  rw [h]
  decide

end Huffman

namespace Huffman

/-! ## Round trip -/

/-- The bits of the payload are the code characters of the input followed by zero bits. -/
theorem packPayload_bits (codes : CodeMap) (input : List Nat) :
    streamBits (packPayload codes input)
      = (codeStream codes input).map charBit
        ++ List.replicate
          ((8 - (packLoop codes input ⟨0, 0, []⟩).bitCount) % 8) false :=
  (packFlush_bits _ _ (packLoop_inv codes input)).1

theorem map_charBit_pathCode (p : List Bool) : (pathCode p).map charBit = p := by
  induction p with
  | nil => rfl
  | cons b p ih =>
    have hb : charBit (bitChar b) = b := by cases b <;> decide
    have : pathCode (b :: p) = bitChar b :: pathCode p := rfl
    rw [this, List.map_cons, ih, hb]

/-- Following the root path of a leaf, the decoder emits the symbol of the leaf and returns to
the root. -/
theorem decodeBits_walk (root : Node) (n : Int) :
    ∀ (p : List Bool) (cur : Node) (s : Nat) (rest : List Bool) (dc : Int) (out : List Nat),
      cur.isLeaf = false → cur.leafAt p = some s → dc < n →
      decodeBits root n (p ++ rest) ⟨cur, dc, out⟩
        = decodeBits root n rest ⟨root, dc + 1, out ++ [s]⟩ := by
  intro p
  induction p with
  | nil =>
    intro cur s rest dc out hcur hp _
    rw [leafAt_nil_isLeaf cur s hp] at hcur
    exact Bool.noConfusion hcur
  | cons b p ih =>
    intro cur s rest dc out hcur hp hdc
    cases cur with
    | leaf ch f => simp [Node.isLeaf] at hcur
    | internal f l r =>
      have hchild : (if b = true then r else l).leafAt p = some s := by
        cases b <;> simpa [Node.leafAt] using hp
      simp only [List.cons_append, decodeBits, if_pos hdc]
      cases hc : (if b = true then r else l) with
      | leaf ch2 f2 =>
        rw [hc] at hchild
        cases p with
        | nil =>
          have : ch2 = s := by simpa [Node.leafAt] using hchild
          subst this
          rfl
        | cons b2 p2 => simp [Node.leafAt] at hchild
      | internal f2 l2 r2 =>
        rw [hc] at hchild
        exact ih (Node.internal f2 l2 r2) s rest dc out rfl hchild hdc

/-- Decoding the concatenated codes of a byte sequence, followed by any bits, with the count
set to the length of the sequence, emits the sequence. -/
theorem decodeBits_codeStream (root : Node) (codes : CodeMap) (n : Int)
    (hroot : root.isLeaf = false)
    (hcodes : ∀ x c, codes x = some c → ∃ p, root.leafAt p = some x ∧ c = pathCode p) :
    ∀ (b : List Nat) (pad : List Bool) (dc : Int) (out : List Nat),
      (∀ x ∈ b, ∃ c, codes x = some c) → dc + b.length = n →
      decodeBits root n ((codeStream codes b).map charBit ++ pad) ⟨root, dc, out⟩
        = some ⟨root, n, out ++ b⟩ := by
  intro b
  induction b with
  | nil =>
    intro pad dc out _ hn
    simp only [List.length_nil, Nat.cast_zero, add_zero] at hn
    subst hn
    simp only [codeStream, List.map_nil, List.nil_append, List.append_nil]
    exact decodeBits_done root dc pad _ (by simp)
  | cons x xs ih =>
    intro pad dc out hmem hn
    simp only [List.length_cons, Nat.cast_add, Nat.cast_one] at hn
    obtain ⟨c, hc⟩ := hmem x (by simp)
    obtain ⟨p, hp, hcp⟩ := hcodes x c hc
    have hget : codes.get x = pathCode p := by
      unfold CodeMap.get
      rw [hc, hcp]
      rfl
    simp only [codeStream, List.map_append, hget, map_charBit_pathCode, List.append_assoc]
    rw [decodeBits_walk root n p root x _ dc out hroot hp (by omega)]
    rw [ih pad (dc + 1) (out ++ [x]) (fun y hy => hmem y (List.mem_cons_of_mem _ hy))
      (by omega)]
    simp

/-- Core of the round trip: for an input with at least two distinct byte values,
`decompressFile` applied to the output of `compressFile` ends with success and returns the
input bytes; the extension is the original one, or `dat` when that is empty. -/
theorem round_trip_core (ties : List Nat) (b e : List Nat)
    (hlen : b.length < 2147483648) (hbytes : ∀ x ∈ b, x < 256)
    (htwo : ∃ x ∈ b, ∃ y ∈ b, x ≠ y) (he : e.length < 2147483648) :
    (compressFile ties b e).1 = Status.success
      ∧ decompressFile (compressFile ties b e).2
        = ⟨Status.success, if e.isEmpty then [100, 97, 116] else e, b⟩ := by
  have hb : b ≠ [] := by
    obtain ⟨x, hx, _⟩ := htwo
    exact List.ne_nil_of_mem hx
  obtain ⟨t, ht, hser, hc⟩ := compressFile_layout ties b e hb hlen hbytes he
  obtain ⟨t2, ht2, hperm, hleaf⟩ :=
    buildHuffmanTree_spec ties (countFreq b) (countFreq_ne_nil b hb)
  rw [ht] at ht2
  cases ht2
  have hnd : t.symbols.Nodup := hperm.nodup_iff.2 (countFreq_nodup b)
  have hint : t.isLeaf = false := by
    cases hl : t.isLeaf with
    | false => rfl
    | true =>
      obtain ⟨s, f, hf, _⟩ := hleaf hl
      obtain ⟨x, hx, y, hy, hxy⟩ := htwo
      have hx2 := (countFreq_mem b x).2 hx
      have hy2 := (countFreq_mem b y).2 hy
      rw [hf] at hx2 hy2
      simp only [List.map_cons, List.map_nil, List.mem_singleton] at hx2 hy2
      exact absurd (hx2.trans hy2.symm) hxy
  have hroot : t.eraseFreq.isLeaf = false := by rw [eraseFreq_isLeaf]; exact hint
  have hcodes : ∀ x c, codeTable (some t) x = some c →
      ∃ p, t.eraseFreq.leafAt p = some x ∧ c = pathCode p := by
    intro x c hxc
    obtain ⟨p, hp, hcp⟩ := codeTable_eq_some t hnd x c hxc
    refine ⟨p, by rw [eraseFreq_leafAt]; exact hp, ?_⟩
    have hp0 := leafAt_ne_nil t p x hint hp
    have e1 : (pathCode p).isEmpty = false := by
      rw [pathCode_isEmpty]; cases p <;> simp at hp0 ⊢
    simpa [e1] using hcp
  have hall : ∀ x ∈ b, ∃ c, codeTable (some t) x = some c := by
    intro x hx
    obtain ⟨p, hp⟩ := exists_leafAt_of_mem t x (hperm.mem_iff.2 ((countFreq_mem b x).2 hx))
    exact ⟨_, codeTable_of_leafAt t hnd p x hp⟩
  rw [hc]
  refine ⟨rfl, ?_⟩
  simp only
  rw [decompressFile_fileLayout e _ _ _ he hser (by omega) (by omega)]
  unfold decodePayload
  rw [deserializeTree_serializeTree_fst t]
  simp only
  rw [decodeLoop_eq_decodeBits, (packPayload_bits (codeTable (some t)) b),
    decodeBits_codeStream t.eraseFreq (codeTable (some t)) b.length hroot hcodes b _ 0 []
      hall (by simp)]
  simp

end Huffman

namespace Huffman

/-- C15: for every byte sequence `b` with at least two distinct byte values, fewer than 2^31
bytes, and every non-empty extension `e`, `decompressFile` applied to the output of
`compressFile` ends with success and recovers exactly the bytes `b` and the extension `e`,
under every tie-breaking of the priority queue. -/
theorem round_trip_multi_symbol (ties : List Nat) (b e : List Nat)
    (hlen : b.length < 2147483648) (hbytes : ∀ x ∈ b, x < 256)
    (htwo : ∃ x ∈ b, ∃ y ∈ b, x ≠ y) (hne : e ≠ []) (he : e.length < 2147483648) :
    (compressFile ties b e).1 = Status.success
      ∧ decompressFile (compressFile ties b e).2 = ⟨Status.success, e, b⟩ := by
  obtain ⟨h1, h2⟩ := round_trip_core ties b e hlen hbytes htwo he
  refine ⟨h1, ?_⟩
  rw [h2]
  cases e with
  | nil => exact absurd rfl hne
  | cons x xs => rfl

/-- Witness for C15 on an input with the byte values 0, 65, 200 and 255 and the extension
`txt`. -/
theorem round_trip_multi_symbol_witness :
    (compressFile [2, 1] [65, 200, 65, 0, 255, 65, 200] [116, 120, 116]).1 = Status.success
      ∧ decompressFile (compressFile [2, 1] [65, 200, 65, 0, 255, 65, 200] [116, 120, 116]).2
        = ⟨Status.success, [116, 120, 116], [65, 200, 65, 0, 255, 65, 200]⟩ :=
  round_trip_multi_symbol [2, 1] [65, 200, 65, 0, 255, 65, 200] [116, 120, 116]
    (by decide) (by decide) ⟨65, by decide, 200, by decide, by decide⟩ (by decide) (by decide)

/-- C1 as stated fails: for the empty input `compressFile` writes nothing, so decompression of
its output ends with the bad-magic error and not with the input and its extension; for an
input with the empty extension, decompression returns the extension `dat`. -/
theorem round_trip_counterexample :
    compressFile [] [] [116, 120, 116] = (Status.emptyInput, [])
      ∧ decompressFile (compressFile [] [] [116, 120, 116]).2 = ⟨Status.badMagic, [], []⟩
      ∧ decompressFile (compressFile [] [] [116, 120, 116]).2
          ≠ ⟨Status.success, [116, 120, 116], []⟩
      ∧ decompressFile (compressFile [] [65, 66] []).2
          = ⟨Status.success, [100, 97, 116], [65, 66]⟩
      ∧ decompressFile (compressFile [] [65, 66] []).2 ≠ ⟨Status.success, [], [65, 66]⟩ := by
  decide

/-- C1 amended: for every byte sequence `b` with at least two distinct byte values and fewer
than 2^31 bytes and every extension `e`, decompressing the output of `compressFile` ends with
success and returns exactly the bytes `b`, together with `e` when `e` is not empty and with
the extension `dat` when `e` is empty. -/
theorem round_trip_amended (ties : List Nat) (b e : List Nat)
    (hlen : b.length < 2147483648) (hbytes : ∀ x ∈ b, x < 256)
    (htwo : ∃ x ∈ b, ∃ y ∈ b, x ≠ y) (he : e.length < 2147483648) :
    (compressFile ties b e).1 = Status.success
      ∧ (decompressFile (compressFile ties b e).2).status = Status.success
      ∧ (decompressFile (compressFile ties b e).2).output = b
      ∧ (e ≠ [] → (decompressFile (compressFile ties b e).2).origExt = e)
      ∧ (e = [] → (decompressFile (compressFile ties b e).2).origExt = [100, 97, 116]) := by
  obtain ⟨h1, h2⟩ := round_trip_core ties b e hlen hbytes htwo he
  rw [h2]
  refine ⟨h1, rfl, rfl, fun hne => ?_, fun h0 => ?_⟩
  · cases e with
    | nil => exact absurd rfl hne
    | cons x xs => rfl
  · subst h0
    rfl

/-- Witness for C1 amended on the input 65 66 66 with the extension `txt` and with the empty
extension. -/
theorem round_trip_amended_witness :
    ((decompressFile (compressFile [] [65, 66, 66] [116, 120, 116]).2).status = Status.success
        ∧ (decompressFile (compressFile [] [65, 66, 66] [116, 120, 116]).2).output
            = [65, 66, 66]
        ∧ (decompressFile (compressFile [] [65, 66, 66] [116, 120, 116]).2).origExt
            = [116, 120, 116])
      ∧ (decompressFile (compressFile [] [65, 66, 66] []).2).origExt = [100, 97, 116] :=
  ⟨⟨(round_trip_amended [] [65, 66, 66] [116, 120, 116] (by decide) (by decide)
        ⟨65, by decide, 66, by decide, by decide⟩ (by decide)).2.1,
    (round_trip_amended [] [65, 66, 66] [116, 120, 116] (by decide) (by decide)
        ⟨65, by decide, 66, by decide, by decide⟩ (by decide)).2.2.1,
    (round_trip_amended [] [65, 66, 66] [116, 120, 116] (by decide) (by decide)
        ⟨65, by decide, 66, by decide, by decide⟩ (by decide)).2.2.2.1 (by decide)⟩,
   (round_trip_amended [] [65, 66, 66] [] (by decide) (by decide)
        ⟨65, by decide, 66, by decide, by decide⟩ (by decide)).2.2.2.2 rfl⟩

end Huffman

namespace Huffman

/-- Witness for C16: the input 65 66 65 with the codes 65 ↦ 1 and 66 ↦ 0 gives three bits in
one byte whose five low bits are zero; an input without code characters gives no byte. -/
theorem bit_packer_witness :
    (((packPayload (codeTable (buildHuffmanTree [] (countFreq [65, 66, 65])))
          [65, 66, 65]).getD (0 / 8) 0 / 2 ^ (7 - 0 % 8)) % 2 = 1
        ↔ (codeStream (codeTable (buildHuffmanTree [] (countFreq [65, 66, 65])))
            [65, 66, 65]).getD 0 '0' = '1')
      ∧ (packPayload (codeTable (buildHuffmanTree [] (countFreq [65, 66, 65])))
          [65, 66, 65]).getD
            ((codeStream (codeTable (buildHuffmanTree [] (countFreq [65, 66, 65])))
              [65, 66, 65]).length / 8) 0
          % 2 ^ (8 - (codeStream (codeTable (buildHuffmanTree [] (countFreq [65, 66, 65])))
              [65, 66, 65]).length % 8) = 0
      ∧ packPayload CodeMap.empty [1, 2] = [] :=
  ⟨(bit_packer (codeTable (buildHuffmanTree [] (countFreq [65, 66, 65])))
      [65, 66, 65]).2.2.1 0 (by decide),
   (bit_packer (codeTable (buildHuffmanTree [] (countFreq [65, 66, 65])))
      [65, 66, 65]).2.2.2.1 (by decide),
   (bit_packer CodeMap.empty [1, 2]).2.2.2.2 (by decide)⟩

end Huffman

namespace Huffman

/-! ## Optimality: depth lists of trees -/

theorem leafDepths_snd_internal (f : Int) (l r : Node) :
    (Node.internal f l r).leafDepths.map Prod.snd
      = (l.leafDepths.map Prod.snd ++ r.leafDepths.map Prod.snd).map (· + 1) := by
  simp [Node.leafDepths, List.map_map, Function.comp_def]

theorem leafDepths_le_depth (t : Node) : ∀ d ∈ t.leafDepths.map Prod.snd, d ≤ t.depth := by
  induction t with
  | leaf ch f => intro d hd; simp [Node.leafDepths] at hd; omega
  | internal f l r ihl ihr =>
    intro d hd
    rw [leafDepths_snd_internal] at hd
    obtain ⟨d2, hd2, rfl⟩ := List.mem_map.1 hd
    simp only [Node.depth]
    rcases List.mem_append.1 hd2 with h | h
    · have := ihl d2 h
      omega
    · have := ihr d2 h
      omega

theorem depth_pos_of_internal (t : Node) (h : t.isLeaf = false) : 1 ≤ t.depth := by
  cases t with
  | leaf ch f => simp [Node.isLeaf] at h
  | internal f l r => simp [Node.depth]

theorem depth_zero_isLeaf (t : Node) (h : t.depth = 0) : t.isLeaf = true := by
  cases t with
  | leaf ch f => rfl
  | internal f l r => simp [Node.depth] at h

/-- A tree with an internal root has two leaves of maximal depth that can be merged: some tree
has the same leaf depths except that two entries of the maximal depth `h` are replaced by one
entry `h - 1`. -/
theorem merge_deepest (S : Node) :
    S.isLeaf = false →
      ∃ (S1 : Node) (ds : List Nat),
        (S.leafDepths.map Prod.snd).Perm (S.depth :: S.depth :: ds)
          ∧ (S1.leafDepths.map Prod.snd).Perm ((S.depth - 1) :: ds)
          ∧ ∀ d ∈ ds, d ≤ S.depth := by
  induction S with
  | leaf ch f => intro h; simp [Node.isLeaf] at h
  | internal f l r ihl ihr =>
    intro _
    by_cases hl : l.depth ≥ r.depth
    · cases hll : l.isLeaf with
      | true =>
        -- both children are leaves
        cases l with
        | internal f2 l2 r2 => simp [Node.isLeaf] at hll
        | leaf c1 f1 =>
          have hr0 : r.depth = 0 := by simp only [Node.depth] at hl; omega
          cases r with
          | internal f3 l3 r3 => simp [Node.depth] at hr0
          | leaf c2 f2 =>
            exact ⟨Node.leaf 0 0, [], by simp [Node.leafDepths, Node.depth],
              by simp [Node.leafDepths, Node.depth], by simp⟩
      | false =>
        obtain ⟨l1, dsl, h1, h2, h3⟩ := ihl hll
        have hpos := depth_pos_of_internal l hll
        have hd : (Node.internal f l r).depth = l.depth + 1 := by
          simp only [Node.depth]
          omega
        refine ⟨Node.internal 0 l1 r,
          (dsl ++ r.leafDepths.map Prod.snd).map (· + 1), ?_, ?_, ?_⟩
        · rw [leafDepths_snd_internal, hd]
          have := (h1.append_right (r.leafDepths.map Prod.snd)).map (· + 1)
          simpa using this
        · rw [leafDepths_snd_internal, hd]
          have := (h2.append_right (r.leafDepths.map Prod.snd)).map (· + 1)
          have e : l.depth - 1 + 1 = l.depth + 1 - 1 := by omega
          simpa [e] using this
        · intro d hd2
          rw [hd]
          obtain ⟨d2, hd3, rfl⟩ := List.mem_map.1 hd2
          rcases List.mem_append.1 hd3 with h | h
          · have := h3 d2 h
            omega
          · have := leafDepths_le_depth r d2 h
            omega
    · have hrl : r.isLeaf = false := by
        cases hr : r.isLeaf with
        | false => rfl
        | true =>
          cases r with
          | leaf c2 f2 => simp [Node.depth] at hl
          | internal f3 l3 r3 => simp [Node.isLeaf] at hr
      obtain ⟨r1, dsr, h1, h2, h3⟩ := ihr hrl
      have hpos := depth_pos_of_internal r hrl
      have hd : (Node.internal f l r).depth = r.depth + 1 := by
        simp only [Node.depth]
        omega
      refine ⟨Node.internal 0 l r1,
        (l.leafDepths.map Prod.snd ++ dsr).map (· + 1), ?_, ?_, ?_⟩
      · rw [leafDepths_snd_internal, hd]
        have h4 : (l.leafDepths.map Prod.snd ++ r.leafDepths.map Prod.snd).Perm
            (r.depth :: r.depth :: (l.leafDepths.map Prod.snd ++ dsr)) :=
          (h1.append_left (l.leafDepths.map Prod.snd)).trans
            (by
              refine List.perm_append_comm.trans ?_
              simp only [List.cons_append]
              exact (List.Perm.cons _ (List.Perm.cons _ List.perm_append_comm)))
        have := h4.map (· + 1)
        simpa using this
      · rw [leafDepths_snd_internal, hd]
        have h4 : (l.leafDepths.map Prod.snd ++ r1.leafDepths.map Prod.snd).Perm
            ((r.depth - 1) :: (l.leafDepths.map Prod.snd ++ dsr)) :=
          (h2.append_left (l.leafDepths.map Prod.snd)).trans
            (by
              refine List.perm_append_comm.trans ?_
              simp only [List.cons_append]
              exact (List.Perm.cons _ List.perm_append_comm))
        have := h4.map (· + 1)
        have e : r.depth - 1 + 1 = r.depth + 1 - 1 := by omega
        simpa [e] using this
      · intro d hd2
        rw [hd]
        obtain ⟨d2, hd3, rfl⟩ := List.mem_map.1 hd2
        rcases List.mem_append.1 hd3 with h | h
        · have := leafDepths_le_depth l d2 h
          omega
        · have := h3 d2 h
          omega

end Huffman

namespace Huffman

/-! ## Optimality: the exchange argument on (weight, depth) lists -/

theorem pairCost_append (a b : List (Int × Nat)) :
    pairCost (a ++ b) = pairCost a + pairCost b := by
  induction a with
  | nil => simp [pairCost]
  | cons x xs ih =>
    show x.1 * x.2 + pairCost (xs ++ b) = x.1 * x.2 + pairCost xs + pairCost b
    rw [ih]
    ring

theorem pairCost_perm {a b : List (Int × Nat)} (h : a.Perm b) : pairCost a = pairCost b := by
  induction h with
  | nil => rfl
  | cons x _ ih => simp [pairCost, ih]
  | swap x y l =>
    simp only [pairCost]
    ring
  | trans _ _ ih1 ih2 => exact ih1.trans ih2

/-- Moving a smallest weight `a` to a position of maximal depth `h`, in exchange for the
weight `w0` that was there, does not increase the cost. -/
theorem exchange_one (h : Nat) (a w0 : Int) (ha : a ≤ w0) :
    ∀ (qs : List (Int × Nat)), (∀ p ∈ qs, p.2 ≤ h) → a ∈ w0 :: qs.map Prod.fst →
      ∃ qs2 : List (Int × Nat), qs2.map Prod.snd = qs.map Prod.snd
        ∧ (a :: qs2.map Prod.fst).Perm (w0 :: qs.map Prod.fst)
        ∧ pairCost qs2 + h * a ≤ pairCost qs + h * w0 := by
  intro qs
  induction qs with
  | nil =>
    intro _ hmem
    have : a = w0 := by simpa using hmem
    subst this
    exact ⟨[], rfl, List.Perm.refl _, le_refl _⟩
  | cons q qs ih =>
    intro hdepth hmem
    by_cases h0 : a = w0
    · subst h0
      exact ⟨q :: qs, rfl, List.Perm.refl _, le_refl _⟩
    · by_cases h1 : a = q.1
      · refine ⟨(w0, q.2) :: qs, rfl, ?_, ?_⟩
        · rw [h1]
          exact List.Perm.swap _ _ _
        · have hz : (q.2 : Int) ≤ h := by
            have := hdepth q (by simp)
            exact_mod_cast this
          have key : 0 ≤ (w0 - a) * ((h : Int) - q.2) :=
            mul_nonneg (by omega) (by omega)
          simp only [pairCost]
          rw [← h1]
          nlinarith [key]
      · have hmem2 : a ∈ w0 :: qs.map Prod.fst := by
          simp only [List.map_cons, List.mem_cons] at hmem ⊢
          rcases hmem with h | h | h
          · exact absurd h h0
          · exact absurd h h1
          · exact Or.inr h
        obtain ⟨qs2, e1, e2, e3⟩ := ih (fun p hp => hdepth p (List.mem_cons_of_mem _ hp)) hmem2
        refine ⟨q :: qs2, by simp [e1], ?_, ?_⟩
        · simp only [List.map_cons]
          exact (List.Perm.swap _ _ _).trans ((List.Perm.cons _ e2).trans (List.Perm.swap _ _ _))
        · simp only [pairCost]
          omega

/-- A list of pairs whose second components are a permutation of `h :: t` has an element with
second component `h`; taking it out leaves second components that are a permutation of
`t`. -/
theorem extract_depth (ps : List (Int × Nat)) (h : Nat) (t : List Nat)
    (hp : (ps.map Prod.snd).Perm (h :: t)) :
    ∃ (x : Int) (qs : List (Int × Nat)), ps.Perm ((x, h) :: qs) ∧ (qs.map Prod.snd).Perm t := by
  have hmem : h ∈ ps.map Prod.snd := hp.mem_iff.2 (by simp)
  obtain ⟨p, hp1, hp2⟩ := List.mem_map.1 hmem
  obtain ⟨s1, s2, hs⟩ := List.append_of_mem hp1
  have hperm : ps.Perm (p :: (s1 ++ s2)) := by
    rw [hs]
    exact List.perm_middle
  refine ⟨p.1, s1 ++ s2, ?_, ?_⟩
  · have : p = (p.1, h) := by rw [← hp2]
    rw [← this]
    exact hperm
  · have h2 := (hperm.map Prod.snd).symm.trans hp
    simp only [List.map_cons, hp2] at h2
    exact (List.perm_cons _).1 h2

/-- Greedy step on (weight, depth) lists: if the depths come from a tree and `a`, `b` are two
smallest weights, some list whose depths come from a tree has the weights with `a` and `b`
replaced by `a + b`, at a cost that is lower by at least `a + b`. -/
theorem greedy_step (ps : List (Int × Nat)) (a b : Int) (rest : List Int)
    (hvalid : ValidDepths ps) (hw : (ps.map Prod.fst).Perm (a :: b :: rest))
    (hab : a ≤ b) (hb : ∀ x ∈ rest, b ≤ x) :
    ∃ ps2, ValidDepths ps2 ∧ (ps2.map Prod.fst).Perm ((a + b) :: rest)
      ∧ pairCost ps2 + a + b ≤ pairCost ps := by
  obtain ⟨S, hS⟩ := hvalid
  have hlen : ps.length = rest.length + 2 := by
    have := hw.length_eq
    simpa using this
  have hSint : S.isLeaf = false := by
    cases hl : S.isLeaf with
    | false => rfl
    | true =>
      cases S with
      | internal f l r => simp [Node.isLeaf] at hl
      | leaf c f =>
        have := hS.length_eq
        simp [Node.leafDepths] at this
        omega
  obtain ⟨S1, ds, h1, h2, h3⟩ := merge_deepest S hSint
  have hpos := depth_pos_of_internal S hSint
  obtain ⟨x, qs1, hx1, hx2⟩ := extract_depth ps S.depth (S.depth :: ds) (hS.trans h1)
  obtain ⟨y, qs, hy1, hy2⟩ := extract_depth qs1 S.depth ds hx2
  have hps : ps.Perm ((x, S.depth) :: (y, S.depth) :: qs) := hx1.trans (List.Perm.cons _ hy1)
  have hweights : (x :: y :: qs.map Prod.fst).Perm (a :: b :: rest) := by
    have := (hps.map Prod.fst).symm.trans hw
    simpa using this
  have hamin : ∀ z ∈ x :: y :: qs.map Prod.fst, a ≤ z := by
    intro z hz
    have hz2 := hweights.mem_iff.1 hz
    simp only [List.mem_cons] at hz2
    rcases hz2 with h | h | h
    · omega
    · omega
    · exact le_trans hab (hb z h)
  have hdepths : ∀ p ∈ (y, S.depth) :: qs, p.2 ≤ S.depth := by
    intro p hp
    rcases List.mem_cons.1 hp with h | h
    · rw [h]
    · exact h3 p.2 (hy2.mem_iff.1 (List.mem_map_of_mem _ h))
  -- first exchange: `a` takes the place of `x`
  obtain ⟨qa, ea1, ea2, ea3⟩ := exchange_one S.depth a x (hamin x (by simp))
    ((y, S.depth) :: qs) hdepths (by
      have := hweights.mem_iff.2 (List.mem_cons_self a _)
      simpa using this)
  match qa, ea1, ea2, ea3 with
  | [], ea1, _, _ => simp at ea1
  | (y2, d2) :: qs2, ea1, ea2, ea3 =>
    simp only [List.map_cons, List.cons.injEq] at ea1
    obtain ⟨hd2, ea1⟩ := ea1
    subst hd2
    have hw2 : (y2 :: qs2.map Prod.fst).Perm (b :: rest) := by
      have := ea2.trans hweights
      simp only [List.map_cons] at this
      exact (List.perm_cons _).1 this
    have hbmin : b ≤ y2 := by
      have := hw2.mem_iff.1 (List.mem_cons_self y2 _)
      rcases List.mem_cons.1 this with h | h
      · omega
      · exact hb y2 h
    have hdepths2 : ∀ p ∈ qs2, p.2 ≤ S.depth := by
      intro p hp
      have : p.2 ∈ qs2.map Prod.snd := List.mem_map_of_mem _ hp
      rw [ea1] at this
      exact h3 p.2 (hy2.mem_iff.1 this)
    -- second exchange: `b` takes the place of the weight next to `a`
    obtain ⟨qb, eb1, eb2, eb3⟩ := exchange_one S.depth b y2 hbmin qs2 hdepths2
      (hw2.mem_iff.2 (List.mem_cons_self b _))
    refine ⟨(a + b, S.depth - 1) :: qb, ⟨S1, ?_⟩, ?_, ?_⟩
    · simp only [List.map_cons]
      rw [eb1, ea1]
      exact (List.Perm.cons _ hy2).trans h2.symm
    · simp only [List.map_cons]
      exact List.Perm.cons _ ((List.perm_cons _).1 (eb2.trans hw2))
    · have hcost : pairCost ps = x * S.depth + (y * S.depth + pairCost qs) := by
        rw [pairCost_perm hps]
        rfl
      have hsub : ((S.depth - 1 : Nat) : Int) = (S.depth : Int) - 1 := by omega
      simp only [pairCost] at ea3 ⊢
      rw [hcost, hsub]
      nlinarith [ea3, eb3]

end Huffman

namespace Huffman

/-! ## Optimality of the built tree -/

theorem depthPairs_fst (t : Node) : t.depthPairs.map Prod.fst = t.leaves.map Prod.snd := by
  induction t with
  | leaf ch f => rfl
  | internal f l r ihl ihr =>
    simp only [Node.depthPairs, Node.leafDepths, Node.leaves, List.map_map, List.map_append]
      at ihl ihr ⊢
    rw [← ihl, ← ihr]
    rfl

theorem depthPairs_snd (t : Node) : t.depthPairs.map Prod.snd = t.leafDepths.map Prod.snd := by
  simp [Node.depthPairs, List.map_map, Function.comp_def]

theorem totalFreq_eq_sum (a : FreqMap) : totalFreq a = (a.map Prod.snd).sum := by
  induction a with
  | nil => rfl
  | cons x xs ih => simp [totalFreq, ih]

theorem pairCost_incr (ps : List (Int × Nat)) :
    pairCost (ps.map (fun p => (p.1, p.2 + 1))) = pairCost ps + (ps.map Prod.fst).sum := by
  induction ps with
  | nil => rfl
  | cons x xs ih =>
    simp only [List.map_cons, pairCost, ih, List.sum_cons]
    push_cast
    ring

theorem depthPairs_internal (f : Int) (l r : Node) :
    (Node.internal f l r).depthPairs
      = (l.depthPairs ++ r.depthPairs).map (fun p => (p.1, p.2 + 1)) := by
  simp [Node.depthPairs, Node.leafDepths, List.map_map, Function.comp_def]

/-- Weighted path length of an internal node: those of its children plus the frequencies of
all leaves below it. -/
theorem cost_internal (f : Int) (l r : Node) :
    (Node.internal f l r).cost
      = l.cost + r.cost + totalFreq l.leaves + totalFreq r.leaves := by
  unfold Node.cost
  rw [depthPairs_internal, pairCost_incr, pairCost_append, List.map_append, List.sum_append,
    depthPairs_fst, depthPairs_fst, ← totalFreq_eq_sum, ← totalFreq_eq_sum]
  ring

theorem queueCost_append (a b : List Node) : queueCost (a ++ b) = queueCost a + queueCost b := by
  induction a with
  | nil => simp [queueCost]
  | cons x xs ih =>
    show x.cost + queueCost (xs ++ b) = x.cost + queueCost xs + queueCost b
    rw [ih]
    ring

theorem queueCost_perm {a b : List Node} (h : a.Perm b) : queueCost a = queueCost b := by
  induction h with
  | nil => rfl
  | cons x _ ih => simp [queueCost, ih]
  | swap x y l =>
    simp only [queueCost]
    ring
  | trans _ _ ih1 ih2 => exact ih1.trans ih2

theorem leafDepths_length_internal (t : Node) (h : t.isLeaf = false) :
    2 ≤ t.leafDepths.length := by
  have hlen : ∀ s : Node, 1 ≤ s.leafDepths.length := by
    intro s
    induction s with
    | leaf ch f => simp [Node.leafDepths]
    | internal f l r ihl _ =>
      simp only [Node.leafDepths, List.length_map, List.length_append]
      omega
  cases t with
  | leaf ch f => simp [Node.isLeaf] at h
  | internal f l r =>
    have h1 := hlen l
    have h2 := hlen r
    simp only [Node.leafDepths, List.length_map, List.length_append]
    omega

theorem queueCost_initial (freq : FreqMap) :
    queueCost (freq.map (fun p => Node.leaf p.1 p.2)) = 0 := by
  induction freq with
  | nil => rfl
  | cons x xs ih =>
    have h1 : (Node.leaf x.1 x.2).cost = 0 := by
      simp [Node.cost, Node.depthPairs, Node.leafDepths, pairCost]
    show (Node.leaf x.1 x.2).cost + queueCost (xs.map (fun p => Node.leaf p.1 p.2)) = 0
    rw [h1, ih]
    rfl

/-- A single pair whose depth comes from a tree has depth 0 and costs nothing. -/
theorem pairCost_single (ps : List (Int × Nat)) (w : Int) (hv : ValidDepths ps)
    (hw : (ps.map Prod.fst).Perm [w]) : pairCost ps = 0 := by
  obtain ⟨S, hS⟩ := hv
  have hlen : ps.length = 1 := by simpa using hw.length_eq
  have hSlen : S.leafDepths.length = 1 := by
    have := hS.length_eq
    simp only [List.length_map] at this
    omega
  have hleaf : S.isLeaf = true := by
    cases hl : S.isLeaf with
    | true => rfl
    | false =>
      have := leafDepths_length_internal S hl
      omega
  cases S with
  | internal f l r => simp [Node.isLeaf] at hleaf
  | leaf ch f =>
    match ps, hlen, hS with
    | [p], _, hS =>
      have hp : p.2 = 0 := by
        have := List.perm_singleton.1 hS
        simpa [Node.leafDepths] using this
      simp [pairCost, hp]

/-- One merge without `int` overflow: when every node of the queue stores the sum of its
leaves' frequencies, these are not negative and their total is below 2^31, the sum of two
nodes of the queue is not wrapped. -/
theorem merge_no_overflow (freq : FreqMap) (hpos : ∀ p ∈ freq, 0 ≤ p.2)
    (hsum : totalFreq freq < 2147483648) (pq : List Node) (left right : Node)
    (rest : List Node) (hperm : pq.Perm (left :: right :: rest))
    (hl : (queueLeaves pq).Perm freq)
    (hn : ∀ n ∈ pq, n.freq = totalFreq n.leaves) :
    wrapInt32 (left.freq + right.freq) = left.freq + right.freq
      ∧ left.freq + right.freq = totalFreq left.leaves + totalFreq right.leaves := by
  have hl2 := (queueLeaves_perm hperm).symm.trans hl
  have hleft := hn left (hperm.mem_iff.2 (by simp))
  have hright := hn right (hperm.mem_iff.2 (by simp))
  have htot : totalFreq freq
      = totalFreq left.leaves + (totalFreq right.leaves + totalFreq (queueLeaves rest)) := by
    rw [← totalFreq_perm hl2]
    simp only [queueLeaves, totalFreq_append]
  have hnn : ∀ (a : FreqMap), (∀ p ∈ a, p ∈ queueLeaves (left :: right :: rest)) →
      0 ≤ totalFreq a := fun a ha =>
    totalFreq_nonneg a (fun p hp => hpos p (hl2.mem_iff.1 (ha p hp)))
  have h1 := hnn left.leaves (fun p hp => by simp [queueLeaves, hp])
  have h2 := hnn right.leaves (fun p hp => by simp [queueLeaves, hp])
  have h3 := hnn (queueLeaves rest) (fun p hp => by simp [queueLeaves, hp])
  exact ⟨wrapInt32_of_bounds _ (by omega) (by omega), by omega⟩

/-- The tree built by `buildHuffmanTree` has the least weighted path length among all trees
with the same leaves, for every tie-breaking, when the `int` sums do not overflow. -/
theorem buildHuffmanTree_optimal (ties : List Nat) (freq : FreqMap) (hne : freq ≠ [])
    (hpos : ∀ p ∈ freq, 0 ≤ p.2) (hsum : totalFreq freq < 2147483648) :
    ∃ t, buildHuffmanTree ties freq = some t ∧ t.leaves.Perm freq
      ∧ ∀ u : Node, u.leaves.Perm freq → t.cost ≤ u.cost := by
  obtain ⟨t, ht, hP⟩ := buildHuffmanTree_induction
    (fun pq => (queueLeaves pq).Perm freq
      ∧ (∀ n ∈ pq, n.freq = totalFreq n.leaves)
      ∧ ∀ u : Node, u.leaves.Perm freq →
          ∃ ps, ValidDepths ps ∧ (ps.map Prod.fst).Perm (pq.map Node.freq)
            ∧ queueCost pq + pairCost ps ≤ u.cost)
    (by
      intro pq left right rest hperm hminl hminr hP
      obtain ⟨hl, hn, hopt⟩ := hP
      obtain ⟨hw, hsumlr⟩ := merge_no_overflow freq hpos hsum pq left right rest hperm hl hn
      refine ⟨(queueLeaves_merge pq left right rest hperm).trans hl, ?_, ?_⟩
      · intro n hmem
        rcases List.mem_append.1 hmem with hmem | hmem
        · exact hn n (hperm.mem_iff.2 (by simp [hmem]))
        · have hn2 : n = Node.mk2 left right := by simpa using hmem
          subst hn2
          show wrapInt32 (left.freq + right.freq) = totalFreq (left.leaves ++ right.leaves)
          rw [hw, totalFreq_append]
          exact hsumlr
      · intro u hu
        obtain ⟨ps, hv, hpw, hcost⟩ := hopt u hu
        have hpw2 : (ps.map Prod.fst).Perm
            (left.freq :: right.freq :: rest.map Node.freq) := by
          have := hpw.trans (hperm.map Node.freq)
          simpa using this
        obtain ⟨ps2, hv2, hpw3, hcost2⟩ := greedy_step ps left.freq right.freq
          (rest.map Node.freq) hv hpw2 (hminl right (hperm.mem_iff.2 (by simp)))
          (by
            intro x hx
            obtain ⟨n, hn1, hn2⟩ := List.mem_map.1 hx
            rw [← hn2]
            exact hminr n hn1)
        refine ⟨ps2, hv2, ?_, ?_⟩
        · refine hpw3.trans ?_
          rw [List.map_append]
          refine List.Perm.trans ?_ List.perm_append_comm
          show ((left.freq + right.freq) :: rest.map Node.freq).Perm
            (wrapInt32 (left.freq + right.freq) :: rest.map Node.freq)
          rw [hw]
        · have hq1 : queueCost pq = left.cost + (right.cost + queueCost rest) := by
            rw [queueCost_perm hperm]
            rfl
          have hq2 : queueCost (rest ++ [Node.mk2 left right])
              = queueCost rest
                + (left.cost + right.cost + totalFreq left.leaves + totalFreq right.leaves) := by
            rw [queueCost_append]
            show queueCost rest + ((Node.mk2 left right).cost + 0) = _
            unfold Node.mk2
            rw [cost_internal]
            ring
          rw [hq2]
          omega)
    ties freq hne
    (by
      refine ⟨?_, ?_, ?_⟩
      · show (queueLeaves (freq.map (fun p => Node.leaf p.1 p.2))).Perm freq
        rw [queueLeaves_initial]
      · intro n hmem
        obtain ⟨p, _, hp⟩ := List.mem_map.1 hmem
        subst hp
        simp [Node.freq, Node.leaves, totalFreq]
      · intro u hu
        refine ⟨u.depthPairs, ⟨u, by rw [depthPairs_snd]⟩, ?_, ?_⟩
        · rw [depthPairs_fst]
          have h1 := hu.map Prod.snd
          have h2 : (freq.map (fun p => Node.leaf p.1 p.2)).map Node.freq
              = freq.map Prod.snd := by
            simp [List.map_map, Function.comp_def, Node.freq]
          rw [h2]
          exact h1
        · have hq := queueCost_initial freq
          rw [hq]
          simp [Node.cost])
  obtain ⟨hl, _, hopt⟩ := hP
  have hl2 : t.leaves.Perm freq := by simpa [queueLeaves] using hl
  refine ⟨t, ht, hl2, fun u hu => ?_⟩
  obtain ⟨ps, hv, hpw, hcost⟩ := hopt u hu
  have h0 := pairCost_single ps t.freq hv (by simpa using hpw)
  simp only [queueCost] at hcost
  omega

end Huffman

namespace Huffman

/-! ## Weighted code length -/

theorem weightedLength_append (codes : CodeMap) (a b : FreqMap) :
    weightedLength codes (a ++ b) = weightedLength codes a + weightedLength codes b := by
  induction a with
  | nil => simp [weightedLength]
  | cons x xs ih =>
    show x.2 * _ + weightedLength codes (xs ++ b) = x.2 * _ + weightedLength codes xs + _
    rw [ih]
    ring

theorem weightedLength_perm (codes : CodeMap) {a b : FreqMap} (h : a.Perm b) :
    weightedLength codes a = weightedLength codes b := by
  induction h with
  | nil => rfl
  | cons x _ ih => simp [weightedLength, ih]
  | swap x y l =>
    simp only [weightedLength]
    ring
  | trans _ _ ih1 ih2 => exact ih1.trans ih2

/-- When the code of every leaf is `k` characters longer than its root path, the weighted code
length over the leaves is the weighted path length plus `k` times the total frequency. -/
theorem weightedLength_of_paths (codes : CodeMap) (t : Node) :
    ∀ (k : Nat), (∀ p s, t.leafAt p = some s → (codes.get s).length = k + p.length) →
      weightedLength codes t.leaves = t.cost + k * totalFreq t.leaves := by
  induction t with
  | leaf ch f =>
    intro k h
    have h1 := h [] ch rfl
    simp only [List.length_nil, add_zero] at h1
    simp [Node.leaves, weightedLength, h1, Node.cost, Node.depthPairs, Node.leafDepths,
      pairCost, totalFreq]
    ring
  | internal f l r ihl ihr =>
    intro k h
    have hl := ihl (k + 1) (fun p s hp => by
      have := h (false :: p) s (by simpa [Node.leafAt] using hp)
      simp only [List.length_cons] at this
      omega)
    have hr := ihr (k + 1) (fun p s hp => by
      have := h (true :: p) s (by simpa [Node.leafAt] using hp)
      simp only [List.length_cons] at this
      omega)
    rw [Node.leaves, weightedLength_append, hl, hr, cost_internal, totalFreq_append]
    push_cast
    ring

theorem codeTable_get_of_leafAt (t : Node) (hnd : t.symbols.Nodup) (hint : t.isLeaf = false)
    (p : List Bool) (s : Nat) (hp : t.leafAt p = some s) :
    (codeTable (some t)).get s = pathCode p := by
  have hp0 := leafAt_ne_nil t p s hint hp
  have e1 : (pathCode p).isEmpty = false := by
    rw [pathCode_isEmpty]; cases p <;> simp at hp0 ⊢
  unfold CodeMap.get
  rw [codeTable_of_leafAt t hnd p s hp]
  simp [e1]

/-- The weighted code length of the code table of a tree with distinct symbols and an
internal root is the weighted path length of the tree. -/
theorem weightedLength_codeTable (t : Node) (hnd : t.symbols.Nodup) (hint : t.isLeaf = false)
    (freq : FreqMap) (hperm : t.leaves.Perm freq) :
    weightedLength (codeTable (some t)) freq = t.cost := by
  rw [← weightedLength_perm _ hperm, weightedLength_of_paths _ t 0 (fun p s hp => by
    rw [codeTable_get_of_leafAt t hnd hint p s hp]
    simp [pathCode])]
  simp

theorem isLeaf_false_of_leaves (u : Node) (freq : FreqMap) (hperm : u.leaves.Perm freq)
    (h2 : 2 ≤ freq.length) : u.isLeaf = false := by
  cases u with
  | internal f l r => rfl
  | leaf ch f =>
    have := hperm.length_eq
    simp [Node.leaves] at this
    omega

theorem symbols_nodup_of_leaves (u : Node) (freq : FreqMap) (hperm : u.leaves.Perm freq)
    (hkeys : (freq.map Prod.fst).Nodup) : u.symbols.Nodup := by
  rw [← leaves_map_fst]
  exact (hperm.map Prod.fst).nodup_iff.2 hkeys

end Huffman

namespace Huffman

/-! ## Every binary prefix-free code is matched by a tree -/

theorem tailCodes_get (c : CodeMap) (s : Nat) : (tailCodes c).get s = (c.get s).tail := rfl

theorem weightedLength_tail (c : CodeMap) (F : FreqMap) (hne : ∀ p ∈ F, c.get p.1 ≠ []) :
    weightedLength c F = weightedLength (tailCodes c) F + totalFreq F := by
  induction F with
  | nil => rfl
  | cons x xs ih =>
    have h1 := hne x (by simp)
    have h2 := ih (fun p hp => hne p (List.mem_cons_of_mem _ hp))
    have h3 : ((c.get x.1).length : Int) = ((c.get x.1).tail.length : Int) + 1 := by
      cases hc : c.get x.1 with
      | nil => exact absurd hc h1
      | cons a as => simp
    simp only [weightedLength, totalFreq, tailCodes_get, h2, h3]
    ring

theorem codeMeasure_tail (c : CodeMap) (F : FreqMap) (hne : ∀ p ∈ F, c.get p.1 ≠ []) :
    codeMeasure c F = codeMeasure (tailCodes c) F + F.length := by
  induction F with
  | nil => rfl
  | cons x xs ih =>
    have h1 := hne x (by simp)
    have h2 := ih (fun p hp => hne p (List.mem_cons_of_mem _ hp))
    have h3 : (c.get x.1).length = (c.get x.1).tail.length + 1 := by
      cases hc : c.get x.1 with
      | nil => exact absurd hc h1
      | cons a as => simp
    unfold codeMeasure at h2 ⊢
    simp only [List.map_cons, List.sum_cons, tailCodes_get, List.length_cons, h2, h3]
    omega

theorem codeMeasure_append (c : CodeMap) (a b : FreqMap) :
    codeMeasure c (a ++ b) = codeMeasure c a + codeMeasure c b := by
  simp [codeMeasure]

theorem codeMeasure_perm (c : CodeMap) {a b : FreqMap} (h : a.Perm b) :
    codeMeasure c a = codeMeasure c b := by
  unfold codeMeasure
  exact (h.map _).sum_eq

/-- Codes that begin with the same character stay prefix-free when that character is
removed. -/
theorem prefixFreeOn_tail (c : CodeMap) (F : FreqMap) (b : Char)
    (hstart : ∀ p ∈ F, ∃ a, c.get p.1 = b :: a) (hpf : PrefixFreeOn c F) :
    PrefixFreeOn (tailCodes c) F := by
  obtain ⟨hbin, hfree⟩ := hpf
  constructor
  · intro p hp ch hch
    rw [tailCodes_get] at hch
    exact hbin p hp ch (List.mem_of_mem_tail hch)
  · intro p hp q hq hne hpre
    obtain ⟨a1, h1⟩ := hstart p hp
    obtain ⟨a2, h2⟩ := hstart q hq
    rw [tailCodes_get, tailCodes_get, h1, h2] at hpre
    simp only [List.tail_cons] at hpre
    apply hfree p hp q hq hne
    rw [h1, h2]
    obtain ⟨r, hr⟩ := hpre
    exact ⟨r, by simp [hr]⟩

theorem prefixFreeOn_sublist (c : CodeMap) {F G : FreqMap} (h : ∀ p ∈ F, p ∈ G)
    (hpf : PrefixFreeOn c G) : PrefixFreeOn c F :=
  ⟨fun p hp => hpf.1 p (h p hp), fun p hp q hq => hpf.2 p (h p hp) q (h q hq)⟩

/-- With two or more symbols no code of a prefix-free code is empty. -/
theorem prefixFree_nonempty (c : CodeMap) (freq : FreqMap) (hkeys : (freq.map Prod.fst).Nodup)
    (h2 : 2 ≤ freq.length) (hpf : PrefixFreeOn c freq) : ∀ p ∈ freq, c.get p.1 ≠ [] := by
  intro p hp h0
  have hex : ∃ q ∈ freq, p.1 ≠ q.1 := by
    match freq, hkeys, h2, hp with
    | [x], _, h2, _ => simp at h2
    | x :: y :: rest, hkeys, _, hp =>
      simp only [List.map_cons, List.nodup_cons, List.mem_cons, not_or] at hkeys
      by_cases hx : p.1 = x.1
      · exact ⟨y, by simp, by rw [hx]; exact hkeys.1.1⟩
      · exact ⟨x, by simp, hx⟩
  obtain ⟨q, hq, hne⟩ := hex
  apply hpf.2 p hp q hq hne
  rw [h0]
  exact List.nil_prefix

/-- For every binary prefix-free code on the symbols of a frequency table (frequencies not
negative) there is a tree with the entries of the table as leaves whose weighted path length
is at most the weighted length of the code. -/
theorem exists_tree_le_prefixFree :
    ∀ (n : Nat) (freq : FreqMap) (c : CodeMap), codeMeasure c freq ≤ n → freq ≠ [] →
      (∀ p ∈ freq, 0 ≤ p.2) → (freq.map Prod.fst).Nodup → PrefixFreeOn c freq →
      ∃ u : Node, u.leaves.Perm freq ∧ u.cost ≤ weightedLength c freq := by
  intro n
  induction n with
  | zero =>
    intro freq c hm hne hpos hkeys hpf
    match freq, hne with
    | [(s, f)], _ =>
      refine ⟨Node.leaf s f, List.Perm.refl _, ?_⟩
      have hf : (0 : Int) ≤ f := hpos (s, f) (by simp)
      have hlen : (0 : Int) ≤ ((c.get s).length : Int) := Int.natCast_nonneg _
      have hprod := mul_nonneg hf hlen
      show pairCost [(f, 0)] ≤ f * ((c.get s).length : Int) + 0
      simp only [pairCost]
      push_cast
      linarith
    | x :: y :: rest, _ =>
      have hnonempty := prefixFree_nonempty c (x :: y :: rest) hkeys (by simp) hpf
      have := codeMeasure_tail c (x :: y :: rest) hnonempty
      simp only [List.length_cons] at this
      omega
  | succ n ih =>
    intro freq c hm hne hpos hkeys hpf
    match freq, hne with
    | [(s, f)], _ =>
      refine ⟨Node.leaf s f, List.Perm.refl _, ?_⟩
      have hf : (0 : Int) ≤ f := hpos (s, f) (by simp)
      have hlen : (0 : Int) ≤ ((c.get s).length : Int) := Int.natCast_nonneg _
      have hprod := mul_nonneg hf hlen
      show pairCost [(f, 0)] ≤ f * ((c.get s).length : Int) + 0
      simp only [pairCost]
      push_cast
      linarith
    | x :: y :: rest, _ =>
      generalize hfreq : x :: y :: rest = freq at hm hpos hkeys hpf
      have h2 : 2 ≤ freq.length := by rw [← hfreq]; simp
      have hnonempty := prefixFree_nonempty c freq hkeys h2 hpf
      -- a group of symbols whose codes begin with the same character
      have group : ∀ (F : FreqMap) (b : Char), F ≠ [] → (∀ p ∈ F, p ∈ freq) →
          (F.map Prod.fst).Nodup → codeMeasure c F ≤ n + 1 →
          (∀ p ∈ F, ∃ a, c.get p.1 = b :: a) →
          ∃ u : Node, u.leaves.Perm F ∧ u.cost + totalFreq F ≤ weightedLength c F := by
        intro F b hF hsub hFkeys hFm hstart
        have hFne : ∀ p ∈ F, c.get p.1 ≠ [] := fun p hp => hnonempty p (hsub p hp)
        have hFlen : 1 ≤ F.length := List.length_pos.2 hF
        have hm2 := codeMeasure_tail c F hFne
        obtain ⟨u, hu1, hu2⟩ := ih F (tailCodes c) (by omega) hF
          (fun p hp => hpos p (hsub p hp)) hFkeys
          (prefixFreeOn_tail c F b hstart (prefixFreeOn_sublist c hsub hpf))
        refine ⟨u, hu1, ?_⟩
        rw [weightedLength_tail c F hFne]
        omega
      have hsplit := List.filter_append_perm (fun p : Nat × Int => (c.get p.1).head? == some '0')
        freq
      generalize hF0 : freq.filter (fun p : Nat × Int => (c.get p.1).head? == some '0') = F0
        at hsplit
      generalize hF1 : freq.filter (fun p : Nat × Int => !((c.get p.1).head? == some '0')) = F1
        at hsplit
      have hsub0 : ∀ p ∈ F0, p ∈ freq := fun p hp => by
        rw [← hF0] at hp
        exact (List.mem_filter.1 hp).1
      have hsub1 : ∀ p ∈ F1, p ∈ freq := fun p hp => by
        rw [← hF1] at hp
        exact (List.mem_filter.1 hp).1
      have hstart0 : ∀ p ∈ F0, ∃ a, c.get p.1 = '0' :: a := fun p hp => by
        rw [← hF0] at hp
        have h := (List.mem_filter.1 hp).2
        cases hc : c.get p.1 with
        | nil => simp [hc] at h
        | cons a as =>
          simp only [hc, List.head?_cons, beq_iff_eq, Option.some.injEq] at h
          exact ⟨as, by rw [h]⟩
      have hstart1 : ∀ p ∈ F1, ∃ a, c.get p.1 = '1' :: a := fun p hp => by
        rw [← hF1] at hp
        obtain ⟨hmem, h⟩ := List.mem_filter.1 hp
        cases hc : c.get p.1 with
        | nil => exact absurd hc (hnonempty p hmem)
        | cons a as =>
          have hbin := hpf.1 p hmem a (by rw [hc]; simp)
          rcases hbin with hb | hb
          · simp [hc, hb] at h
          · exact ⟨as, by rw [hb]⟩
      have hkeys0 : (F0.map Prod.fst).Nodup := by
        rw [← hF0]
        exact hkeys.sublist ((List.filter_sublist _).map _)
      have hkeys1 : (F1.map Prod.fst).Nodup := by
        rw [← hF1]
        exact hkeys.sublist ((List.filter_sublist _).map _)
      have hmsum : codeMeasure c F0 + codeMeasure c F1 = codeMeasure c freq := by
        rw [← codeMeasure_append, codeMeasure_perm c hsplit]
      have hwsum : weightedLength c F0 + weightedLength c F1 = weightedLength c freq := by
        rw [← weightedLength_append, weightedLength_perm c hsplit]
      have hnn0 : 0 ≤ totalFreq F0 := totalFreq_nonneg F0 (fun p hp => hpos p (hsub0 p hp))
      have hnn1 : 0 ≤ totalFreq F1 := totalFreq_nonneg F1 (fun p hp => hpos p (hsub1 p hp))
      by_cases h0 : F0 = []
      · have hF1ne : F1 ≠ [] := by
          intro h1
          rw [h0, h1] at hsplit
          have := hsplit.length_eq
          simp at this
          omega
        obtain ⟨u, hu1, hu2⟩ := group F1 '1' hF1ne hsub1 hkeys1 (by omega) hstart1
        refine ⟨u, hu1.trans (by simpa [h0] using hsplit), ?_⟩
        have : weightedLength c F0 = 0 := by rw [h0]; rfl
        omega
      · by_cases h1 : F1 = []
        · obtain ⟨u, hu1, hu2⟩ := group F0 '0' h0 hsub0 hkeys0 (by omega) hstart0
          refine ⟨u, hu1.trans (by simpa [h1] using hsplit), ?_⟩
          have : weightedLength c F1 = 0 := by rw [h1]; rfl
          omega
        · obtain ⟨u0, hu01, hu02⟩ := group F0 '0' h0 hsub0 hkeys0 (by omega) hstart0
          obtain ⟨u1, hu11, hu12⟩ := group F1 '1' h1 hsub1 hkeys1 (by omega) hstart1
          refine ⟨Node.internal 0 u0 u1, (hu01.append hu11).trans hsplit, ?_⟩
          rw [cost_internal, totalFreq_perm hu01, totalFreq_perm hu11]
          omega

end Huffman

namespace Huffman

/-- C11: for a frequency table with at least two symbols and positive counts (whose `int` sums
do not overflow: total below 2^31), under every tie-breaking of the priority queue, the
weighted code length of the code table of the built tree is at most that of the code table of
every tree over the same symbols, and at most that of every binary prefix-free code on these
symbols. -/
theorem huffman_optimal (ties : List Nat) (freq : FreqMap) (hkeys : (freq.map Prod.fst).Nodup)
    (h2 : 2 ≤ freq.length) (hpos : ∀ p ∈ freq, 0 < p.2)
    (hsum : totalFreq freq < 2147483648) :
    (∀ u : Node, u.leaves.Perm freq →
        weightedLength (codeTable (buildHuffmanTree ties freq)) freq
          ≤ weightedLength (codeTable (some u)) freq)
      ∧ (∀ c : CodeMap, PrefixFreeOn c freq →
        weightedLength (codeTable (buildHuffmanTree ties freq)) freq
          ≤ weightedLength c freq) := by
  have hne : freq ≠ [] := by
    intro h
    rw [h] at h2
    simp at h2
  have hpos2 : ∀ p ∈ freq, 0 ≤ p.2 := fun p hp => le_of_lt (hpos p hp)
  obtain ⟨t, ht, hl, hopt⟩ := buildHuffmanTree_optimal ties freq hne hpos2 hsum
  have hcost : weightedLength (codeTable (buildHuffmanTree ties freq)) freq = t.cost := by
    rw [ht]
    exact weightedLength_codeTable t (symbols_nodup_of_leaves t freq hl hkeys)
      (isLeaf_false_of_leaves t freq hl h2) freq hl
  rw [hcost]
  constructor
  · intro u hu
    rw [weightedLength_codeTable u (symbols_nodup_of_leaves u freq hu hkeys)
      (isLeaf_false_of_leaves u freq hu h2) freq hu]
    exact hopt u hu
  · intro c hc
    obtain ⟨u, hu1, hu2⟩ := exists_tree_le_prefixFree (codeMeasure c freq) freq c (le_refl _)
      hne hpos2 hkeys hc
    exact le_trans (hopt u hu1) hu2

/-- Witness for C11 on the table with frequencies 5, 2, 1 for the bytes 65, 66, 67, against
the tree that pairs 65 with 66. -/
theorem huffman_optimal_witness :
    weightedLength (codeTable (buildHuffmanTree [] [(65, 5), (66, 2), (67, 1)]))
        [(65, 5), (66, 2), (67, 1)]
      ≤ weightedLength
          (codeTable (some (Node.internal 0
            (Node.internal 0 (Node.leaf 65 5) (Node.leaf 66 2)) (Node.leaf 67 1))))
          [(65, 5), (66, 2), (67, 1)] :=
  (huffman_optimal [] [(65, 5), (66, 2), (67, 1)] (by decide) (by decide) (by decide)
    (by decide)).1
    (Node.internal 0 (Node.internal 0 (Node.leaf 65 5) (Node.leaf 66 2)) (Node.leaf 67 1))
    (by decide)

end Huffman

namespace Huffman

/-! ## Rarer symbols have the longer codes -/

theorem leafDepths_fst (t : Node) : t.leafDepths.map Prod.fst = t.leaves := by
  induction t with
  | leaf ch f => rfl
  | internal f l r ihl ihr =>
    simp only [Node.leafDepths, Node.leaves, List.map_map, List.map_append, ← ihl, ← ihr]
    rfl

theorem leafDepths_mapLeaves (σ : Nat × Int → Nat × Int) (t : Node) :
    (t.mapLeaves σ).leafDepths = t.leafDepths.map (fun e => (σ e.1, e.2)) := by
  induction t with
  | leaf ch f => rfl
  | internal f l r ihl ihr =>
    simp only [Node.mapLeaves, Node.leafDepths, ihl, ihr, List.map_map, List.map_append]
    rfl

/-- The depth of a leaf is the length of its root path. -/
theorem exists_leafAt_of_leafDepths (t : Node) :
    ∀ (s : Nat) (f : Int) (d : Nat), ((s, f), d) ∈ t.leafDepths →
      ∃ p, t.leafAt p = some s ∧ p.length = d := by
  induction t with
  | leaf ch f0 =>
    intro s f d h
    simp only [Node.leafDepths, List.mem_singleton, Prod.mk.injEq] at h
    obtain ⟨⟨h1, _⟩, h2⟩ := h
    subst h1 h2
    exact ⟨[], rfl, rfl⟩
  | internal f0 l r ihl ihr =>
    intro s f d h
    simp only [Node.leafDepths] at h
    obtain ⟨e, he, heq⟩ := List.mem_map.1 h
    obtain ⟨⟨s2, f2⟩, d2⟩ := e
    simp only [Prod.mk.injEq] at heq
    obtain ⟨⟨h1, h2⟩, h3⟩ := heq
    subst h1 h2 h3
    rcases List.mem_append.1 he with hm | hm
    · obtain ⟨p, hp1, hp2⟩ := ihl s2 f2 d2 hm
      exact ⟨false :: p, by simpa [Node.leafAt] using hp1, by simp [hp2]⟩
    · obtain ⟨p, hp1, hp2⟩ := ihr s2 f2 d2 hm
      exact ⟨true :: p, by simpa [Node.leafAt] using hp1, by simp [hp2]⟩

/-- In a tree of least weighted path length a leaf of higher frequency is not deeper than a
leaf of lower frequency. -/
theorem optimal_depth_order (t : Node) (hnd : t.leaves.Nodup)
    (hopt : ∀ u : Node, u.leaves.Perm t.leaves → t.cost ≤ u.cost)
    (x y : Nat × Int) (dx dy : Nat) (hx : (x, dx) ∈ t.leafDepths)
    (hy : (y, dy) ∈ t.leafDepths) (hf : x.2 > y.2) : dx ≤ dy := by
  have hxy : x ≠ y := by
    intro h
    rw [h] at hf
    omega
  obtain ⟨s1, s2, hs⟩ := List.append_of_mem hx
  have hp1 : t.leafDepths.Perm ((x, dx) :: (s1 ++ s2)) := by
    rw [hs]
    exact List.perm_middle
  have hy2 : (y, dy) ∈ s1 ++ s2 := by
    have := hp1.mem_iff.1 hy
    rcases List.mem_cons.1 this with h | h
    · exact absurd (congrArg Prod.fst h).symm hxy
    · exact h
  obtain ⟨s3, s4, hs2⟩ := List.append_of_mem hy2
  have hp2 : (s1 ++ s2).Perm ((y, dy) :: (s3 ++ s4)) := by
    rw [hs2]
    exact List.perm_middle
  have hp : t.leafDepths.Perm ((x, dx) :: (y, dy) :: (s3 ++ s4)) :=
    hp1.trans (List.Perm.cons _ hp2)
  generalize s3 ++ s4 = others at hp
  have hleaves : t.leaves.Perm (x :: y :: others.map Prod.fst) := by
    rw [← leafDepths_fst]
    have := hp.map Prod.fst
    simpa using this
  have hnd2 : (x :: y :: others.map Prod.fst).Nodup := hleaves.nodup_iff.1 hnd
  have hfix : ∀ e ∈ others, swapPair x y e.1 = e.1 := by
    intro e he
    have hmem : e.1 ∈ others.map Prod.fst := List.mem_map_of_mem _ he
    simp only [List.nodup_cons, List.mem_cons, not_or] at hnd2
    have h1 : e.1 ≠ x := fun h => hnd2.1.2 (h ▸ hmem)
    have h2 : e.1 ≠ y := fun h => hnd2.2.1 (h ▸ hmem)
    simp [swapPair, h1, h2]
  have hsx : swapPair x y x = y := by simp [swapPair]
  have hsy : swapPair x y y = x := by simp [swapPair, hxy.symm]
  have hu : (t.mapLeaves (swapPair x y)).leafDepths.Perm
      ((y, dx) :: (x, dy) :: others) := by
    rw [leafDepths_mapLeaves]
    have := hp.map (fun e => (swapPair x y e.1, e.2))
    simp only [List.map_cons, hsx, hsy] at this
    refine this.trans ?_
    have hmap : others.map (fun e => (swapPair x y e.1, e.2)) = others := by
      conv_rhs => rw [← List.map_id others]
      apply List.map_congr_left
      intro e he
      simp [hfix e he]
    rw [hmap]
  have huleaves : (t.mapLeaves (swapPair x y)).leaves.Perm t.leaves := by
    rw [← leafDepths_fst]
    have := hu.map Prod.fst
    simp only [List.map_cons] at this
    exact this.trans ((List.Perm.swap _ _ _).trans hleaves.symm)
  have h1 := hopt _ huleaves
  have hct : t.cost = x.2 * dx + (y.2 * dy
      + pairCost (others.map (fun e => (e.1.2, e.2)))) := by
    unfold Node.cost Node.depthPairs
    rw [pairCost_perm (hp.map _)]
    rfl
  have hcu : (t.mapLeaves (swapPair x y)).cost = y.2 * dx + (x.2 * dy
      + pairCost (others.map (fun e => (e.1.2, e.2)))) := by
    unfold Node.cost Node.depthPairs
    rw [pairCost_perm (hu.map _)]
    rfl
  rw [hct, hcu] at h1
  by_contra hlt
  have hd : (dy : Int) + 1 ≤ dx := by omega
  nlinarith [mul_le_mul_of_nonneg_left hd (by omega : (0 : Int) ≤ x.2 - y.2)]

/-- C19: for a frequency table with at least two symbols and positive counts (total below
2^31), under every tie-breaking, a symbol with a higher frequency never gets a longer code
than a symbol with a lower frequency. -/
theorem rarer_symbols_longer_codes (ties : List Nat) (freq : FreqMap)
    (hkeys : (freq.map Prod.fst).Nodup) (h2 : 2 ≤ freq.length) (hpos : ∀ p ∈ freq, 0 < p.2)
    (hsum : totalFreq freq < 2147483648) :
    ∀ x fx y fy, (x, fx) ∈ freq → (y, fy) ∈ freq → fx > fy →
      ((codeTable (buildHuffmanTree ties freq)).get x).length
        ≤ ((codeTable (buildHuffmanTree ties freq)).get y).length := by
  intro x fx y fy hx hy hf
  have hne : freq ≠ [] := by
    intro h
    rw [h] at h2
    simp at h2
  obtain ⟨t, ht, hl, hopt⟩ := buildHuffmanTree_optimal ties freq hne
    (fun p hp => le_of_lt (hpos p hp)) hsum
  have hnd := symbols_nodup_of_leaves t freq hl hkeys
  have hint := isLeaf_false_of_leaves t freq hl h2
  have hlnd : t.leaves.Nodup := by
    rw [← leaves_map_fst] at hnd
    exact List.Nodup.of_map _ hnd
  have hmemx : (x, fx) ∈ t.leafDepths.map Prod.fst := by
    rw [leafDepths_fst]
    exact hl.mem_iff.2 hx
  have hmemy : (y, fy) ∈ t.leafDepths.map Prod.fst := by
    rw [leafDepths_fst]
    exact hl.mem_iff.2 hy
  obtain ⟨ex, hex1, hex2⟩ := List.mem_map.1 hmemx
  obtain ⟨ey, hey1, hey2⟩ := List.mem_map.1 hmemy
  obtain ⟨px, hpx1, hpx2⟩ := exists_leafAt_of_leafDepths t x fx ex.2 (by rw [← hex2]; exact hex1)
  obtain ⟨py, hpy1, hpy2⟩ := exists_leafAt_of_leafDepths t y fy ey.2 (by rw [← hey2]; exact hey1)
  have hord := optimal_depth_order t hlnd
    (fun u hu => hopt u (hu.trans hl)) (x, fx) (y, fy) ex.2 ey.2
    (by rw [← hex2]; exact hex1) (by rw [← hey2]; exact hey1) hf
  rw [ht, codeTable_get_of_leafAt t hnd hint px x hpx1,
    codeTable_get_of_leafAt t hnd hint py y hpy1]
  simp only [pathCode, List.length_map]
  omega

/-- Witness for C19 on the table with frequencies 5, 2, 1 for the bytes 65, 66, 67: the code
of 65 is not longer than the code of 67. -/
theorem rarer_symbols_longer_codes_witness :
    ((codeTable (buildHuffmanTree [] [(65, 5), (66, 2), (67, 1)])).get 65).length
      ≤ ((codeTable (buildHuffmanTree [] [(65, 5), (66, 2), (67, 1)])).get 67).length :=
  rarer_symbols_longer_codes [] [(65, 5), (66, 2), (67, 1)] (by decide) (by decide)
    (by decide) (by decide) 65 5 67 1 (by decide) (by decide) (by decide)

end Huffman

namespace Huffman

/-! ## The frequency table of a byte sequence -/

theorem le_totalFreq_of_mem (m : FreqMap) (hnn : ∀ p ∈ m, 0 ≤ p.2) :
    ∀ p ∈ m, p.2 ≤ totalFreq m := by
  induction m with
  | nil => intro p hp; simp at hp
  | cons x xs ih =>
    intro p hp
    have hx := hnn x (by simp)
    have hxs := totalFreq_nonneg xs (fun q hq => hnn q (List.mem_cons_of_mem _ hq))
    simp only [totalFreq]
    rcases List.mem_cons.1 hp with h | h
    · rw [h]
      omega
    · have := ih (fun q hq => hnn q (List.mem_cons_of_mem _ hq)) p h
      omega

/-- One execution of `freq[ch]++` without `int` overflow: the count of `ch` grows by one (from
zero for a new key), every other entry is unchanged. -/
theorem incrFreq_exact (m : FreqMap) (ch : Nat) (hnn : ∀ p ∈ m, 0 ≤ p.2)
    (hsum : totalFreq m + 1 < 2147483648) :
    (∀ p ∈ incrFreq m ch, 0 ≤ p.2)
      ∧ totalFreq (incrFreq m ch) = totalFreq m + 1
      ∧ ∀ x, freqLookup (incrFreq m ch) x
          = if x = ch then some ((freqLookup m ch).getD 0 + 1) else freqLookup m x := by
  induction m with
  | nil =>
    have hw : wrapInt32 (0 + 1) = 1 := by decide
    have hw1 : wrapInt32 1 = 1 := by decide
    refine ⟨?_, ?_, ?_⟩
    · intro p hp
      simp only [incrFreq, hw, List.mem_singleton] at hp
      rw [hp]
      show (0 : Int) ≤ 1
      omega
    · simp [incrFreq, hw1, totalFreq]
    · intro x
      by_cases hx : x = ch
      · simp [incrFreq, hw1, freqLookup, hx]
      · have hx2 : ¬ ch = x := fun h => hx h.symm
        simp [incrFreq, hw1, freqLookup, hx, hx2]
  | cons e es ih =>
    obtain ⟨k, v⟩ := e
    have hv : 0 ≤ v := hnn (k, v) (by simp)
    have hes : ∀ p ∈ es, 0 ≤ p.2 := fun p hp => hnn p (List.mem_cons_of_mem _ hp)
    have htail := totalFreq_nonneg es hes
    simp only [totalFreq] at hsum
    by_cases hk : k = ch
    · have hw : wrapInt32 (v + 1) = v + 1 := wrapInt32_of_bounds _ (by omega) (by omega)
      refine ⟨?_, ?_, ?_⟩
      · intro p hp
        simp only [incrFreq, hk, if_true, hw, List.mem_cons] at hp
        rcases hp with h | h
        · rw [h]
          show 0 ≤ v + 1
          omega
        · exact hes p h
      · simp only [incrFreq, hk, if_true, hw, totalFreq]
        omega
      · intro x
        by_cases hx : x = ch
        · subst hx
          simp [incrFreq, hk, hw, freqLookup]
        · have hx2 : ¬ ch = x := fun h => hx h.symm
          simp [incrFreq, hk, hw, freqLookup, hx, hx2]
    · obtain ⟨i1, i2, i3⟩ := ih hes (by omega)
      refine ⟨?_, ?_, ?_⟩
      · intro p hp
        simp only [incrFreq, hk, if_false, List.mem_cons] at hp
        rcases hp with h | h
        · rw [h]
          exact hv
        · exact i1 p h
      · simp only [incrFreq, hk, if_false, totalFreq, i2]
        omega
      · intro x
        simp only [incrFreq, hk, if_false, freqLookup]
        by_cases hkx : k = x
        · have hx : ¬ x = ch := fun h => hk (hkx.trans h)
          simp [hkx, hx]
        · simp only [hkx, if_false, i3 x]

/-- The counting loop without `int` overflow: every count grows by the number of occurrences
of its byte, and the sum of the counts grows by the number of bytes read. -/
theorem countLoop_exact :
    ∀ (b : List Nat) (st : FreqMap × Int), (∀ p ∈ st.1, 0 ≤ p.2) →
      totalFreq st.1 + b.length < 2147483648 →
      (∀ p ∈ (countLoop b st).1, 0 ≤ p.2)
        ∧ totalFreq (countLoop b st).1 = totalFreq st.1 + b.length
        ∧ ∀ x, freqLookup (countLoop b st).1 x
            = if x ∈ b then some ((freqLookup st.1 x).getD 0 + (b.count x : Nat))
              else freqLookup st.1 x := by
  intro b
  induction b with
  | nil =>
    intro st hnn _
    exact ⟨hnn, by simp [countLoop], fun x => by simp [countLoop]⟩
  | cons ch rest ih =>
    intro st hnn hsum
    simp only [List.length_cons, Nat.cast_add, Nat.cast_one] at hsum
    obtain ⟨i1, i2, i3⟩ := incrFreq_exact st.1 ch hnn (by omega)
    obtain ⟨j1, j2, j3⟩ := ih (incrFreq st.1 ch, wrapInt32 (st.2 + 1)) i1
      (by simp only [i2]; omega)
    refine ⟨j1, ?_, ?_⟩
    · rw [countLoop, j2]
      simp only [i2, List.length_cons, Nat.cast_add, Nat.cast_one]
      omega
    · intro x
      rw [countLoop, j3 x]
      simp only [i3 x]
      by_cases hx : x = ch
      · subst hx
        by_cases hr : x ∈ rest
        · simp only [hr, if_true, List.mem_cons, true_or, Option.getD_some,
            List.count_cons_self, Nat.cast_add, Nat.cast_one]
          congr 1
          omega
        · simp only [hr, if_false, if_true, List.mem_cons, true_or,
            List.count_cons_self, List.count_eq_zero_of_not_mem hr, Nat.cast_add,
            Nat.cast_one, Nat.cast_zero, zero_add]
      · have hx2 : ¬ ch = x := fun h => hx h.symm
        have hcount : (ch :: rest).count x = rest.count x := by
          rw [List.count_cons]
          simp [hx2]
        simp only [hx, if_false, List.mem_cons, false_or, hcount]

/-- An entry is in a table with distinct keys exactly when the table reads its count under
its key. -/
theorem mem_iff_freqLookup (m : FreqMap) (hnd : (m.map Prod.fst).Nodup) (k : Nat) (v : Int) :
    (k, v) ∈ m ↔ freqLookup m k = some v := by
  induction m with
  | nil => simp [freqLookup]
  | cons e es ih =>
    obtain ⟨k2, v2⟩ := e
    simp only [List.map_cons, List.nodup_cons] at hnd
    by_cases hk : k2 = k
    · subst hk
      simp only [freqLookup, if_true, List.mem_cons, Prod.mk.injEq, true_and,
        Option.some.injEq]
      constructor
      · rintro (h | h)
        · exact h.symm
        · exact absurd (List.mem_map_of_mem Prod.fst h) hnd.1
      · intro h
        exact Or.inl h.symm
    · have hk3 : ¬ k = k2 := fun h => hk h.symm
      simp only [freqLookup, hk, if_false, List.mem_cons, Prod.mk.injEq, hk3, false_and,
        false_or]
      exact ih hnd.2

theorem charOfByte_injective (x y : Nat) (hx : x < 256) (hy : y < 256)
    (h : charOfByte x = charOfByte y) : x = y := by
  unfold charOfByte at h
  rw [Nat.mod_eq_of_lt hx, Nat.mod_eq_of_lt hy] at h
  split at h <;> split at h <;> omega

/-- C21: for a byte sequence of fewer than 2^31 bytes the counting loop of `compressFile` maps
each byte value to its number of occurrences and has no entry for an absent value; the keys
are distinct, and distinct byte values 0..255 have distinct `char` keys; `totalChars` is the
length of the sequence and the sum of all counts; every permutation of the sequence gives the
same mapping and the same total. -/
theorem frequency_counting (b : List Nat) (hlen : b.length < 2147483648) :
    (∀ x, freqLookup (countFreq b) x = if x ∈ b then some ((b.count x : Nat) : Int) else none)
      ∧ ((countFreq b).map Prod.fst).Nodup
      ∧ (∀ x y, x < 256 → y < 256 → charOfByte x = charOfByte y → x = y)
      ∧ (countLoop b ([], 0)).2 = b.length
      ∧ totalFreq (countFreq b) = b.length
      ∧ ∀ b2 : List Nat, b2.Perm b →
          (∀ x, freqLookup (countFreq b2) x = freqLookup (countFreq b) x)
            ∧ (countFreq b2).Perm (countFreq b)
            ∧ (countLoop b2 ([], 0)).2 = (countLoop b ([], 0)).2 := by
  have main : ∀ c : List Nat, c.length < 2147483648 →
      (∀ x, freqLookup (countFreq c) x
          = if x ∈ c then some ((c.count x : Nat) : Int) else none)
        ∧ totalFreq (countFreq c) = c.length
        ∧ (countLoop c ([], 0)).2 = c.length := by
    intro c hc
    obtain ⟨_, h2, h3⟩ := countLoop_exact c ([], 0) (by simp) (by simp [totalFreq]; omega)
    refine ⟨fun x => ?_, ?_, ?_⟩
    · have := h3 x
      simpa [countFreq, freqLookup] using this
    · simpa [countFreq, totalFreq] using h2
    · have := countLoop_total c ([], 0) (by simp) (by simp only; omega)
      simpa using this
  obtain ⟨h1, h2, h3⟩ := main b hlen
  refine ⟨h1, countFreq_nodup b, charOfByte_injective, h3, h2, fun b2 hp => ?_⟩
  obtain ⟨g1, _, g3⟩ := main b2 (by rw [hp.length_eq]; exact hlen)
  have hsame : ∀ x, freqLookup (countFreq b2) x = freqLookup (countFreq b) x := by
    intro x
    rw [g1 x, h1 x, hp.count_eq x]
    by_cases hx : x ∈ b
    · simp [hx, hp.mem_iff.2 hx]
    · have hx2 : x ∉ b2 := fun h => hx (hp.mem_iff.1 h)
      simp [hx, hx2]
  refine ⟨hsame, ?_, by rw [g3, h3, hp.length_eq]⟩
  have hnd1 : (countFreq b2).Nodup := List.Nodup.of_map _ (countFreq_nodup b2)
  have hnd2 : (countFreq b).Nodup := List.Nodup.of_map _ (countFreq_nodup b)
  refine (List.perm_ext_iff_of_nodup hnd1 hnd2).2 (fun p => ?_)
  obtain ⟨k, v⟩ := p
  rw [mem_iff_freqLookup _ (countFreq_nodup b2), mem_iff_freqLookup _ (countFreq_nodup b),
    hsame k]

/-- Witness for C21 on the byte sequence 65 200 65 and its rearrangement 200 65 65. -/
theorem frequency_counting_witness :
    freqLookup (countFreq [65, 200, 65]) 65 = some 2
      ∧ freqLookup (countFreq [65, 200, 65]) 66 = none
      ∧ (countLoop [65, 200, 65] ([], 0)).2 = 3
      ∧ totalFreq (countFreq [65, 200, 65]) = 3
      ∧ (∀ x, freqLookup (countFreq [200, 65, 65]) x = freqLookup (countFreq [65, 200, 65]) x)
      ∧ (countLoop [200, 65, 65] ([], 0)).2 = (countLoop [65, 200, 65] ([], 0)).2 :=
  ⟨(frequency_counting [65, 200, 65] (by decide)).1 65,
   (frequency_counting [65, 200, 65] (by decide)).1 66,
   (frequency_counting [65, 200, 65] (by decide)).2.2.2.1,
   (frequency_counting [65, 200, 65] (by decide)).2.2.2.2.1,
   ((frequency_counting [65, 200, 65] (by decide)).2.2.2.2.2 [200, 65, 65] (by decide)).1,
   ((frequency_counting [65, 200, 65] (by decide)).2.2.2.2.2 [200, 65, 65] (by decide)).2.2⟩

end Huffman
